import Mathlib

/-!
# pdbg: indirect PIB access, the SBE FIFO protocol engine and the probe walk

A shallow embedding of `libpdbg/target.c` and `libpdbg/sbefifo.c`.

* Machine integers are natural numbers, reduced `% 2 ^ w` wherever the C
  type truncates or wraps (`uint16_t`, `uint32_t`, `uint64_t`; `size_t` is
  taken to be 64 bits wide).
* Function pointers and system calls (`pib->read`, `pib->write`, `read(2)`,
  `write(2)`, `malloc`) are scripted: the outcome of the i-th call is given
  by a function stored in the device record, which also counts and logs the
  calls made.
* A byte is a natural number; decoding reduces it `% 256`.
* The device tree of the probe walk is a tree of nodes with numeric
  identities; the walk passes along the `status` property of every node and
  the log of the probe operations invoked.
-/

namespace Pdbg

/-! ## bitutils.h -/

/-- Modelled from the spec: `bitutils.h` is not part of the sources. IBM bit
numbering on a 64-bit word, bit 0 being the most significant one, which is what
makes `PPC_BIT(32)` the value `0x80000000`. -/
def PPC_BIT (bit : Nat) : Nat := 0x8000000000000000 >>> bit

/-- Modelled from the spec: `bitutils.h` is not part of the sources. The mask
of the IBM-numbered bits `bs .. be`. -/
def PPC_BITMASK (bs be : Nat) : Nat := (PPC_BIT bs - PPC_BIT be) ||| PPC_BIT bs

/-! ## target.c: the indirect access protocol -/

def PIB_IND_MAX_RETRIES : Nat := 10
def PIB_IND_READ : Nat := PPC_BIT 0
def PIB_IND_ADDR : Nat := PPC_BITMASK 12 31
def PIB_IND_DATA : Nat := PPC_BITMASK 48 63

def PIB_DATA_IND_COMPLETE : Nat := PPC_BIT 32
def PIB_DATA_IND_ERR : Nat := PPC_BITMASK 33 35
def PIB_DATA_IND_DATA : Nat := PPC_BITMASK 48 63

/-- The `struct pib` as far as the indirect protocol sees it: the two
primitive operations behind the function pointers `read` and `write`, given
as scripts, and a record of the primitive calls made so far.

`read_rc i addr` and `read_val i addr` are the return code of the i-th
primitive read (counted from 0) and the 64-bit value it stores through the
data pointer; `write_rc i addr data` is the return code of the i-th primitive
write. -/
structure pib where
  read_rc : Nat → Nat → Int
  read_val : Nat → Nat → Nat
  write_rc : Nat → Nat → Nat → Int
  nreads : Nat
  nwrites : Nat
  written : List (Nat × Nat)

/-- The call `pib->read(pib, addr, data)`: the return code, the new content of
`*data`, and the device afterwards. -/
def pib.read (p : pib) (addr : Nat) : Int × Nat × pib :=
  (p.read_rc p.nreads addr, p.read_val p.nreads addr % 2 ^ 64,
    { p with nreads := p.nreads + 1 })

/-- The call `pib->write(pib, addr, data)`: the return code and the device
afterwards. -/
def pib.write (p : pib) (addr data : Nat) : Int × pib :=
  (p.write_rc p.nwrites addr data,
    { p with nwrites := p.nwrites + 1, written := p.written ++ [(addr, data)] })

/-- Modelled from the spec: the macro `CHECK_ERR` comes from `operations.h`,
which is not part of the sources. Any primitive read/write failure on the
underlying transport aborts the whole operation immediately: `some rc` is
the early return of a nonzero `rc`. -/
def CHECK_ERR (rc : Int) : Option Int := if rc ≠ 0 then some rc else none

/-- The polling loop of `pib_indirect_read`,
`for (retries = 0; retries < PIB_IND_MAX_RETRIES; retries++)`, entered with
the given value of `retries` and of `*data`. Leaving the loop (by `break` or
because the loop condition fails) reaches `return 0`. -/
def pib_indirect_read_loop (indirect_addr : Nat) (retries : Nat) (p : pib) (data : Nat) :
    Int × Nat × pib :=
  if retries < PIB_IND_MAX_RETRIES then
    let (rc, data, p) := p.read indirect_addr
    match CHECK_ERR rc with
    | some rc => (rc, data, p)
    | none =>
      if (data &&& PIB_DATA_IND_COMPLETE) ≠ 0 ∧ (data &&& PIB_DATA_IND_ERR) = 0 then
        (0, data &&& PIB_DATA_IND_DATA, p)
      else if (data &&& PIB_DATA_IND_COMPLETE) ≠ 0 ∨ retries ≥ PIB_IND_MAX_RETRIES then
        (-1, data, p)
      else
        pib_indirect_read_loop indirect_addr (retries + 1) p data
  else
    (0, data, p)
termination_by PIB_IND_MAX_RETRIES - retries
decreasing_by omega

/-- The function `pib_indirect_read`: return code, final content of `*data`
(initially `data`), device afterwards. -/
def pib_indirect_read (p : pib) (addr : Nat) (data : Nat) : Int × Nat × pib :=
  if (addr >>> 60) &&& 1 ≠ 0 then
    (-1, data, p)
  else
    let indirect_addr := addr &&& 0x7fffffff
    let data := PIB_IND_READ ||| (addr &&& PIB_IND_ADDR)
    let (rc, p) := p.write indirect_addr data
    match CHECK_ERR rc with
    | some rc => (rc, data, p)
    | none => pib_indirect_read_loop indirect_addr 0 p data

/-- The polling loop of `pib_indirect_write`. Every iteration overwrites the
local variable `data` by the primitive read before looking at it, so the loop
does not depend on its value on entry. -/
def pib_indirect_write_loop (indirect_addr : Nat) (retries : Nat) (p : pib) : Int × pib :=
  if retries < PIB_IND_MAX_RETRIES then
    let (rc, data, p) := p.read indirect_addr
    match CHECK_ERR rc with
    | some rc => (rc, p)
    | none =>
      if (data &&& PIB_DATA_IND_COMPLETE) ≠ 0 ∧ (data &&& PIB_DATA_IND_ERR) = 0 then
        (0, p)
      else if (data &&& PIB_DATA_IND_COMPLETE) ≠ 0 ∨ retries ≥ PIB_IND_MAX_RETRIES then
        (-1, p)
      else
        pib_indirect_write_loop indirect_addr (retries + 1) p
  else
    (0, p)
termination_by PIB_IND_MAX_RETRIES - retries
decreasing_by omega

/-- The function `pib_indirect_write`: return code and device afterwards. -/
def pib_indirect_write (p : pib) (addr : Nat) (data : Nat) : Int × pib :=
  if (addr >>> 60) &&& 1 ≠ 0 then
    (-1, p)
  else
    let indirect_addr := addr &&& 0x7fffffff
    let data := data &&& PIB_IND_DATA
    let data := data ||| (addr &&& PIB_IND_ADDR)
    let (rc, p) := p.write indirect_addr data
    match CHECK_ERR rc with
    | some rc => (rc, p)
    | none => pib_indirect_write_loop indirect_addr 0 p

/-- The device after `m` further primitive reads. -/
def pib.advance (p : pib) (m : Nat) : pib := { p with nreads := p.nreads + m }

/-- The value polled by the j-th primitive read (counted from 0) that an
indirect access to `addr` performs on the device `p`. -/
def polled (p : pib) (addr : Nat) (j : Nat) : Nat :=
  p.read_val (p.nreads + j) (addr &&& 0x7fffffff) % 2 ^ 64

/-- The j-th primitive read of an indirect access to `addr` succeeds. -/
def read_ok (p : pib) (addr : Nat) (j : Nat) : Prop :=
  p.read_rc (p.nreads + j) (addr &&& 0x7fffffff) = 0

/-- A device on which every primitive operation succeeds and every primitive
read returns `v`; nothing has been read or written yet. -/
def pib_const (v : Nat) : pib :=
  { read_rc := fun _ _ => 0, read_val := fun _ _ => v, write_rc := fun _ _ _ => 0,
    nreads := 0, nwrites := 0, written := [] }

/-- A device on which every primitive operation succeeds and the i-th
primitive read returns the i-th element of `vs` (0 beyond its end). -/
def pib_script (vs : List Nat) : pib :=
  { read_rc := fun _ _ => 0, read_val := fun i _ => vs.getD i 0, write_rc := fun _ _ _ => 0,
    nreads := 0, nwrites := 0, written := [] }

/-! ## sbefifo.c -/

def SBEFIFO_CMD_CLASS_CONTROL : Nat := 0xA100
def SBEFIFO_CMD_EXECUTE_ISTEP : Nat := 0x0001

def SBEFIFO_CMD_CLASS_MEMORY : Nat := 0xA400
def SBEFIFO_CMD_GET_MEMORY : Nat := 0x0001
def SBEFIFO_CMD_PUT_MEMORY : Nat := 0x0002

def SBEFIFO_MEMORY_FLAG_PROC : Nat := 0x0001
def SBEFIFO_MEMORY_FLAG_PBA : Nat := 0x0002
def SBEFIFO_MEMORY_FLAG_CI : Nat := 0x0080

/-- The constant `UINT32_MAX` of `<stdint.h>`. -/
def UINT32_MAX : Nat := 2 ^ 32 - 1

/-- The constant `EINVAL` of `<errno.h>`. -/
def EINVAL : Int := 22

/-- The four bytes that `htobe32(x)` lays down in memory, for a 32-bit `x`. -/
def htobe32 (x : Nat) : List Nat :=
  [x / 2 ^ 24 % 256, x / 2 ^ 16 % 256, x / 2 ^ 8 % 256, x % 256]

/-- The expression `be32toh(*(uint32_t *)(buf + off))` on a buffer holding the
bytes `buf`: the big-endian word at byte offset `off`, or `none` when one of
its four bytes lies outside the bytes the buffer holds. -/
def be32_at (buf : List Nat) (off : Nat) : Option Nat :=
  if off + 4 ≤ buf.length then
    some (buf.getD off 0 % 256 * 2 ^ 24 + buf.getD (off + 1) 0 % 256 * 2 ^ 16
      + buf.getD (off + 2) 0 % 256 * 2 ^ 8 + buf.getD (off + 3) 0 % 256)
  else none

/-- The `struct sbefifo`: the FFDC record (`status`, `ffdc`, `ffdc_len`; a NULL
`ffdc` is `none`) and, in place of the file descriptor `fd` and the C library,
the scripted behaviour of the system calls made on it and a record of them.

* `write_n i bytes` is the value returned by the i-th `write(2)` (counted
  from 0) when handed `bytes`;
* `read_n i count` is `none` when the i-th `read(2)` returns a negative value,
  and otherwise the bytes the peer has ready, of which the call stores at
  most `count`;
* `malloc_ok i size` tells whether the i-th `malloc` returns non-NULL;
* `heap i j` is the byte that the block returned by the i-th `malloc` holds at
  offset `j` when it is returned: `malloc` does not initialise the block, its
  bytes are whatever the heap held there;
* `sent` lists the buffers handed to `write(2)` so far, oldest first. -/
structure sbefifo where
  status : Nat
  ffdc : Option (List Nat)
  ffdc_len : Nat
  write_n : Nat → List Nat → Int
  read_n : Nat → Nat → Option (List Nat)
  malloc_ok : Nat → Nat → Bool
  heap : Nat → Nat → Nat
  nwrites : Nat
  nreads : Nat
  nmallocs : Nat
  sent : List (List Nat)

/-- How a run can end without the function returning. -/
inductive Fault where
  /-- An `assert` fails and the process aborts. -/
  | assertion
  /-- A memory access falls outside the bytes its buffer holds: past the
  bytes stored by `read(2)` in the response buffer while `sbefifo_op` parses
  it (the rest of that allocation is uninitialised, what follows it is not
  allocated), past the end of that allocation when `sbefifo_op_getmem` reads
  it, or past the end of another buffer. -/
  | out_of_bounds
deriving DecidableEq

/-- The result of running a function of `sbefifo.c`: it returns `a` and leaves
the device as `s`, or the run ends in a fault with the device as `s`. -/
inductive Outcome (α : Type) where
  | ret (a : α) (s : sbefifo)
  | fault (f : Fault) (s : sbefifo)

/-- The call `malloc(size)`: whether it returned non-NULL. -/
def sbefifo.malloc (s : sbefifo) (size : Nat) : Bool × sbefifo :=
  (s.malloc_ok s.nmallocs size, { s with nmallocs := s.nmallocs + 1 })

/-- The function `sbefifo_op_read`: the return code and the bytes now held by
`buf`, whose number is the new `*buflen`. -/
def sbefifo_op_read (s : sbefifo) (buflen : Nat) : Outcome (Int × List Nat) :=
  if ¬ (buflen > 0) then .fault .assertion s
  else
    let n := s.read_n s.nreads buflen
    let s := { s with nreads := s.nreads + 1 }
    match n with
    | none => .ret (-1, []) s
    | some bytes => .ret (0, bytes.take buflen) s

/-- The function `sbefifo_op_write` on the first `buflen` bytes of `buf`. -/
def sbefifo_op_write (s : sbefifo) (buf : List Nat) (buflen : Nat) : Outcome Int :=
  if buf.length < buflen then .fault .out_of_bounds s
  else
    let n := s.write_n s.nwrites (buf.take buflen)
    let s := { s with nwrites := s.nwrites + 1, sent := s.sent ++ [buf.take buflen] }
    if n < 0 then .ret (-1) s
    else if n ≠ buflen then .ret (-1) s
    else .ret 0 s

/-- The function `sbefifo_ffdc_clear`. -/
def sbefifo_ffdc_clear (s : sbefifo) : sbefifo :=
  let s := { s with status := 0 }
  if s.ffdc.isSome then { s with ffdc := none, ffdc_len := 0 } else s

/-- The function `sbefifo_ffdc_set(sbefifo, buf + off, buflen, status)`, where
`buf` holds the bytes `buf`. -/
def sbefifo_ffdc_set (s : sbefifo) (buf : List Nat) (off buflen status : Nat) :
    Outcome Unit :=
  let s := { s with status := status }
  let (ok, s) := s.malloc buflen
  let s := { s with ffdc := none }
  if ¬ ok then .ret () s
  else if buf.length < off + buflen then .fault .out_of_bounds s
  else .ret () { s with ffdc := some ((buf.drop off).take buflen), ffdc_len := buflen }

/-- The function `sbefifo_ffdc_get`: the returned status, `*ffdc` and
`*ffdc_len`. -/
def sbefifo_ffdc_get (s : sbefifo) : Nat × Option (List Nat) × Nat :=
  (s.status, s.ffdc, s.ffdc_len)

/-- The part of `sbefifo_op` after a response of at least 12 bytes has been
read into `buf`: locating and checking the status header. -/
def sbefifo_op_parse (s : sbefifo) (cmd : Nat) (buf : List Nat) :
    Outcome (Int × Option (List Nat)) :=
  let buflen := buf.length
  match be32_at buf (buflen - 4) with
  | none => .fault .out_of_bounds s
  | some word_offset =>
    let offset := (buflen + 2 ^ 64 - word_offset * 4 % 2 ^ 32) % 2 ^ 64 % 2 ^ 32
    match be32_at buf offset with
    | none => .fault .out_of_bounds s
    | some resp0 =>
      let offset := (offset + 4) % 2 ^ 32
      match be32_at buf offset with
      | none => .fault .out_of_bounds s
      | some resp1 =>
        let offset := (offset + 4) % 2 ^ 32
        let value := (resp0 >>> 16) % 2 ^ 16
        if value ≠ 0xc0de then .ret (-1, none) s
        else
          let value := (resp0 &&& 0xffff) % 2 ^ 16
          if value ≠ cmd then .ret (-1, none) s
          else if resp1 = 0 then .ret (0, some buf) s
          else
            match sbefifo_ffdc_set s buf offset
                ((buflen + 2 * 2 ^ 64 - offset - 4) % 2 ^ 64 % 2 ^ 32) resp1 with
            | .fault f s => .fault f s
            | .ret _ s => .ret (-1, none) s

/-- The function `sbefifo_op`: the return code and, when it is 0, the buffer
stored in `*out`. The message is the first `msg_len` bytes of `msg`; `cmd` is
converted to `uint16_t`. -/
def sbefifo_op (s : sbefifo) (msg : List Nat) (msg_len : Nat) (cmd : Nat) (out_len : Nat) :
    Outcome (Int × Option (List Nat)) :=
  let cmd := cmd % 2 ^ 16
  let s := sbefifo_ffdc_clear s
  if ¬ (msg_len > 0) then .fault .assertion s
  else
    let buflen := (out_len + 0x2000) % 2 ^ 64
    let (ok, s) := s.malloc buflen
    if ¬ ok then .fault .assertion s
    else
      match sbefifo_op_write s msg msg_len with
      | .fault f s => .fault f s
      | .ret rc s =>
        if rc ≠ 0 then .ret (-1, none) s
        else
          match sbefifo_op_read s buflen with
          | .fault f s => .fault f s
          | .ret (rc, buf) s =>
            if rc ≠ 0 then .ret (-1, none) s
            else if buf.length < 3 * 4 then .ret (-1, none) s
            else sbefifo_op_parse s cmd buf

/-- The function `sbefifo_op_istep`. -/
def sbefifo_op_istep (s : sbefifo) (major minor : Nat) : Outcome Int :=
  let cmd := SBEFIFO_CMD_CLASS_CONTROL ||| SBEFIFO_CMD_EXECUTE_ISTEP
  let step := (((major &&& 0xff) <<< 16) ||| (minor &&& 0xff)) % 2 ^ 32
  let msg := htobe32 3 ++ htobe32 cmd ++ htobe32 step
  match sbefifo_op s msg 12 cmd 0 with
  | .fault f s => .fault f s
  | .ret (rc, _) s => if rc ≠ 0 then .ret rc s else .ret 0 s

/-- The alignment unit `align = ci ? 8 : 128`. -/
def getmem_align (ci : Bool) : Nat := if ci then 8 else 128

/-- The variable `start_addr` of `sbefifo_op_getmem`,
`addr & (~(uint64_t)(align-1))`. -/
def getmem_start_addr (addr : Nat) (ci : Bool) : Nat :=
  addr &&& (2 ^ 64 - 1 - (getmem_align ci - 1))

/-- The variable `end_addr` of `sbefifo_op_getmem`,
`(addr + size + (align-1)) & (~(uint64_t)(align-1))`, the sum being taken in
`uint64_t`. -/
def getmem_end_addr (addr size : Nat) (ci : Bool) : Nat :=
  ((addr + size + (getmem_align ci - 1)) % 2 ^ 64) &&& (2 ^ 64 - 1 - (getmem_align ci - 1))

/-- The flags word of a memory request. -/
def mem_flags (ci : Bool) : Nat :=
  if ci then SBEFIFO_MEMORY_FLAG_PROC ||| SBEFIFO_MEMORY_FLAG_CI else SBEFIFO_MEMORY_FLAG_PBA

/-- The byte at offset `j` of the buffer that `sbefifo_op` hands over in
`*out`, as a caller reads it. The buffer is the block that `sbefifo_op`
obtained from `malloc`, the `blk`-th of the run: `read(2)` has stored the
bytes `resp` at its start, and the rest of the block holds what it held when
`malloc` returned it. -/
def out_byte (s : sbefifo) (blk : Nat) (resp : List Nat) (j : Nat) : Nat :=
  if j < resp.length then resp.getD j 0 else s.heap blk j

/-- The function `sbefifo_op_getmem` for 64-bit `addr` and `size`: the return
code and the `size` bytes stored into the caller's `data`, `none` when `data`
is not written. The buffer `out` is the block of `len + 4 + 0x2000` bytes
that `sbefifo_op` allocated, by the `malloc` numbered `s.nmallocs`; `memcpy`
and the read of the count word stay inside it whether or not `read(2)` stored
that many bytes. -/
def sbefifo_op_getmem (s : sbefifo) (addr size : Nat) (ci : Bool) :
    Outcome (Int × Option (List Nat)) :=
  let start_addr := getmem_start_addr addr ci
  let end_addr := getmem_end_addr addr size ci
  if (end_addr + 2 ^ 64 - start_addr) % 2 ^ 64 > UINT32_MAX then .ret (-EINVAL, none) s
  else
    let offset := (addr + 2 ^ 64 - start_addr) % 2 ^ 64 % 2 ^ 32
    let len := (end_addr + 2 ^ 64 - start_addr) % 2 ^ 64 % 2 ^ 32
    let cmd := SBEFIFO_CMD_CLASS_MEMORY ||| SBEFIFO_CMD_GET_MEMORY
    let flags := mem_flags ci
    let msg := htobe32 6 ++ htobe32 cmd ++ htobe32 flags ++ htobe32 (start_addr >>> 32)
      ++ htobe32 (start_addr &&& 0xffffffff) ++ htobe32 len
    match sbefifo_op s msg 24 cmd ((len + 4) % 2 ^ 32) with
    | .fault f s1 => .fault f s1
    | .ret (rc, buf) s1 =>
      if rc ≠ 0 then .ret (rc, none) s1
      else
        let buflen := ((len + 4) % 2 ^ 32 + 0x2000) % 2 ^ 64
        let out := out_byte s s.nmallocs (buf.getD [])
        if buflen < offset + size then .fault .out_of_bounds s1
        else
          let data := (List.range size).map (fun j => out (offset + j))
          if buflen < len + 4 then .fault .out_of_bounds s1
          else
            let count := out len % 256 * 2 ^ 24 + out (len + 1) % 256 * 2 ^ 16
              + out (len + 2) % 256 * 2 ^ 8 + out (len + 3) % 256
            if count ≠ len then .ret (-1, some data) s1
            else .ret (0, some data) s1

/-- The function `sbefifo_op_putmem` for 64-bit `addr` and `size`, `data`
being the bytes of the caller's buffer. -/
def sbefifo_op_putmem (s : sbefifo) (addr : Nat) (data : List Nat) (size : Nat) (ci : Bool) :
    Outcome Int :=
  let align := getmem_align ci
  if addr &&& (align - 1) ≠ 0 then .ret (-1) s
  else if size &&& (align - 1) ≠ 0 then .ret (-1) s
  else if size > UINT32_MAX then .ret (-1) s
  else
    let len := size &&& 0xffffffff
    let msg_len := (6 * 4 + len) % 2 ^ 32
    let (ok, s) := s.malloc msg_len
    if ¬ ok then .fault .assertion s
    else
      let cmd := SBEFIFO_CMD_CLASS_MEMORY ||| SBEFIFO_CMD_PUT_MEMORY
      let flags := mem_flags ci
      if msg_len < 6 * 4 + len then .fault .out_of_bounds s
      else if data.length < len then .fault .out_of_bounds s
      else
        let msg := htobe32 (msg_len / 4) ++ htobe32 cmd ++ htobe32 flags ++ htobe32 (addr >>> 32)
          ++ htobe32 (addr &&& 0xffffffff) ++ htobe32 len ++ data.take len
        match sbefifo_op s msg msg_len cmd 0 with
        | .fault f s => .fault f s
        | .ret (rc, out) s =>
          if rc ≠ 0 then .ret rc s
          else
            match be32_at (out.getD []) 0 with
            | none => .fault .out_of_bounds s
            | some count => if count ≠ len then .ret (-1) s else .ret 0 s

/-- The device `kernel_sbefifo` as statically initialised (no FFDC), on a
transport on which every `malloc` succeeds and returns a block of zero bytes,
every `write(2)` transfers the whole buffer and every `read(2)` finds the
bytes `resp` ready. -/
def fifo_peer (resp : List Nat) : sbefifo :=
  { status := 0, ffdc := none, ffdc_len := 0,
    write_n := fun _ b => b.length, read_n := fun _ _ => some resp,
    malloc_ok := fun _ _ => true, heap := fun _ _ => 0,
    nwrites := 0, nreads := 0, nmallocs := 0, sent := [] }

/-- The exchange that `sbefifo_op` runs on the device `s` goes through and
reads the response `resp`: the message is not empty, the response buffer has
a nonzero size and is allocated, `write(2)` transfers the whole message, and
`read(2)` returns the bytes `resp`, which fit the `out_len + 0x2000` bytes
asked for. -/
def exchange (s : sbefifo) (msg : List Nat) (msg_len out_len : Nat) (resp : List Nat) : Prop :=
  0 < msg_len ∧ msg_len ≤ msg.length ∧ 0 < (out_len + 0x2000) % 2 ^ 64 ∧
  s.malloc_ok s.nmallocs ((out_len + 0x2000) % 2 ^ 64) = true ∧
  s.write_n s.nwrites (msg.take msg_len) = msg_len ∧
  s.read_n s.nreads ((out_len + 0x2000) % 2 ^ 64) = some resp ∧
  resp.length ≤ (out_len + 0x2000) % 2 ^ 64

/-- The device once `sbefifo_op` has cleared the FFDC record, allocated the
response buffer, written the message and read the response. -/
def sbefifo.exchanged (s : sbefifo) (msg : List Nat) (msg_len : Nat) : sbefifo :=
  { sbefifo_ffdc_clear s with
    nmallocs := s.nmallocs + 1, nwrites := s.nwrites + 1, nreads := s.nreads + 1,
    sent := s.sent ++ [msg.take msg_len] }

/-- The invariant of the FFDC record that `sbefifo.c` maintains from the
static initialisation of `kernel_sbefifo` on: a NULL `ffdc` goes with a zero
`ffdc_len`. -/
def ffdc_wf (s : sbefifo) : Prop := s.ffdc = none → s.ffdc_len = 0

/-- The response `resp` is well framed for the command code `cmd`, with
trailing offset word `k` and return-code word `rc`: it has at least 12 bytes
(and a length that fits 32 bits), its last four bytes decode big-endian to
`k` with `3 ≤ k` and `4 * k ≤ n`, the big-endian word at byte offset
`n - 4 * k` has upper 16 bits `0xc0de` and lower 16 bits `cmd`, and the word
that follows it is `rc`. -/
def well_framed (resp : List Nat) (cmd k rc : Nat) : Prop :=
  12 ≤ resp.length ∧ resp.length < 2 ^ 32 ∧
  be32_at resp (resp.length - 4) = some k ∧ 3 ≤ k ∧ 4 * k ≤ resp.length ∧
  (be32_at resp (resp.length - 4 * k)).map (· >>> 16) = some 0xc0de ∧
  (be32_at resp (resp.length - 4 * k)).map (· &&& 0xffff) = some cmd ∧
  be32_at resp (resp.length - 4 * k + 4) = some rc

instance (resp : List Nat) (cmd k rc : Nat) : Decidable (well_framed resp cmd k rc) := by
  delta well_framed; infer_instance

instance (s : sbefifo) (msg : List Nat) (msg_len out_len : Nat) (resp : List Nat) :
    Decidable (exchange s msg msg_len out_len resp) := by
  delta exchange; infer_instance

instance (s : sbefifo) : Decidable (ffdc_wf s) := by
  delta ffdc_wf; infer_instance

/-- The bytes of the response that the claim C6 names as the FFDC payload:
those lying between the end of the operation's payload, of nominal length
`out_len`, and the start of the status header at `n - 4 * k`. -/
def ffdc_between_payload_and_header (resp : List Nat) (out_len k : Nat) : List Nat :=
  (resp.drop out_len).take (resp.length - 4 * k - out_len)

/-- The bytes of the response between the end of the status header (the
return-code word) and the trailing offset word. -/
def ffdc_after_header (resp : List Nat) (k : Nat) : List Nat :=
  (resp.drop (resp.length - 4 * k + 8)).take (4 * k - 12)

/-- The aligned span of the claim C10, computed as mathematical integers:
`A + L` rounded up to a multiple of `U`, minus `A` rounded down to a multiple
of `U`. -/
def aligned_span_math (A L U : Nat) : Nat := (A + L + (U - 1)) / U * U - A / U * U

/-- The device at the end of a run. -/
def Outcome.dev {α : Type} : Outcome α → sbefifo
  | .ret _ s => s
  | .fault _ s => s

/-- The variable `offset` of `sbefifo_op_getmem`, `addr - start_addr` stored
in a `uint32_t`. -/
def getmem_offset (addr : Nat) (ci : Bool) : Nat :=
  (addr + 2 ^ 64 - getmem_start_addr addr ci) % 2 ^ 64 % 2 ^ 32

/-- The difference `end_addr - start_addr` of `sbefifo_op_getmem`, taken in
`uint64_t`: the quantity its size guard compares with `UINT32_MAX`. -/
def getmem_span (addr size : Nat) (ci : Bool) : Nat :=
  (getmem_end_addr addr size ci + 2 ^ 64 - getmem_start_addr addr ci) % 2 ^ 64

/-- The variable `len` of `sbefifo_op_getmem`, `end_addr - start_addr` stored
in a `uint32_t`. -/
def getmem_len (addr size : Nat) (ci : Bool) : Nat := getmem_span addr size ci % 2 ^ 32

/-- The six words `msg[0..5]` that `sbefifo_op_getmem` builds. -/
def getmem_msg (addr size : Nat) (ci : Bool) : List Nat :=
  htobe32 6 ++ htobe32 (SBEFIFO_CMD_CLASS_MEMORY ||| SBEFIFO_CMD_GET_MEMORY)
    ++ htobe32 (mem_flags ci) ++ htobe32 (getmem_start_addr addr ci >>> 32)
    ++ htobe32 (getmem_start_addr addr ci &&& 0xffffffff) ++ htobe32 (getmem_len addr size ci)

/-- The size of the response buffer that `sbefifo_op` allocates for
`sbefifo_op_getmem`: `out_len + 0x2000` with `out_len = len + 4`. -/
def getmem_buflen (addr size : Nat) (ci : Bool) : Nat :=
  ((getmem_len addr size ci + 4) % 2 ^ 32 + 0x2000) % 2 ^ 64

/-- The expression `be32toh(*(uint32_t *)&out[off])` on the buffer `*out`. -/
def out_be32 (s : sbefifo) (blk : Nat) (resp : List Nat) (off : Nat) : Nat :=
  out_byte s blk resp off % 256 * 2 ^ 24 + out_byte s blk resp (off + 1) % 256 * 2 ^ 16
    + out_byte s blk resp (off + 2) % 256 * 2 ^ 8 + out_byte s blk resp (off + 3) % 256

/-- The `n` bytes that `memcpy(data, out + off, n)` copies out of the buffer
`*out`. -/
def out_bytes (s : sbefifo) (blk : Nat) (resp : List Nat) (off n : Nat) : List Nat :=
  (List.range n).map (fun j => out_byte s blk resp (off + j))

/-- The device `fifo_peer resp` on a heap whose blocks hold the byte `0x10` at
offset 19 and zero bytes elsewhere: the bytes 16 to 19 of a block are
`00 00 00 10`, as the count word of an earlier 16-byte read leaves them. -/
def stale_count_peer (resp : List Nat) : sbefifo :=
  { fifo_peer resp with heap := fun _ j => if j = 19 then 0x10 else 0 }

/-- The variable `msg_len` of `sbefifo_op_putmem`, `6 * 4 + len` computed in
`uint32_t`. -/
def putmem_msg_len (size : Nat) : Nat := (6 * 4 + (size &&& 0xffffffff)) % 2 ^ 32

/-- The message that `sbefifo_op_putmem` builds in `msg`: six header words
followed by `len` bytes of the caller's data. -/
def putmem_msg (addr : Nat) (data : List Nat) (size : Nat) (ci : Bool) : List Nat :=
  htobe32 (putmem_msg_len size / 4)
    ++ htobe32 (SBEFIFO_CMD_CLASS_MEMORY ||| SBEFIFO_CMD_PUT_MEMORY)
    ++ htobe32 (mem_flags ci) ++ htobe32 (addr >>> 32) ++ htobe32 (addr &&& 0xffffffff)
    ++ htobe32 (size &&& 0xffffffff) ++ data.take (size &&& 0xffffffff)

/-- The payload of the spec's get-memory scenario: `0xDEADBEEF` repeated 32
times, 128 bytes. -/
def deadbeef_payload : List Nat := (List.replicate 32 [0xde, 0xad, 0xbe, 0xef]).flatten

/-- The response of the spec's get-memory scenario with the trailing offset
word `k`: the 128 payload bytes, the count word `0x00000080`, the header word
`0xc0dea401`, the return-code word 0 and the trailing offset word, all
big-endian; 144 bytes. -/
def scenario_response (k : Nat) : List Nat :=
  deadbeef_payload ++ htobe32 0x80 ++ htobe32 0xc0dea401 ++ htobe32 0 ++ htobe32 k

/-- The three words `msg[0..2]` that `sbefifo_op_istep` builds. -/
def istep_msg (major minor : Nat) : List Nat :=
  htobe32 3 ++ htobe32 (SBEFIFO_CMD_CLASS_CONTROL ||| SBEFIFO_CMD_EXECUTE_ISTEP)
    ++ htobe32 ((((major &&& 0xff) <<< 16) ||| (minor &&& 0xff)) % 2 ^ 32)

/-! ## target.c: the bus resolver and the probe walk -/

/-- The `struct target` as far as the resolver and the probe walk see it: its
class name and its probe operation. A NULL `probe` is `none`; `some rc` is a
probe operation that returns `rc` whenever it is called. -/
structure target where
  class_type : String
  probe : Option Int
deriving DecidableEq

/-- The `struct dt_node` as `get_class_target_addr` sees it, along the parent
pointers: the bound target (NULL is `none`), the parent (a `root` has none),
and the address of the node.

Modelled from the spec: the function `dt_get_address` is in `device.c`, which
is not part of the sources; `address` is the value that
`dt_get_address(dn, 0, NULL)` returns for the node, its own
address-translation value, 0 if it declares none. -/
inductive dt_node where
  | root (target : Option target) (address : Nat)
  | child (target : Option target) (address : Nat) (parent : dt_node)

/-- The field `dn->target`. -/
def dt_node.target : dt_node → Option target
  | .root t _ => t
  | .child t _ _ => t

/-- The value of `dt_get_address(dn, 0, NULL)`. -/
def dt_node.address : dt_node → Nat
  | .root _ a => a
  | .child _ a _ => a

/-- The chain `dn, parent(dn), parent(parent(dn)), …` up to the root. -/
def dt_node.chain : dt_node → List dt_node
  | .root t a => [.root t a]
  | .child t a p => .child t a p :: p.chain

/-- The function `get_class_target_addr` with `*addr` initially `addr`: the
node returned and the final `*addr`. There is no result (`none`) when the
process dies: an assertion fails, or the starting node has no bound target
and the NULL `dn->target` is dereferenced. -/
def get_class_target_addr : dt_node → String → Nat → Option (dt_node × Nat)
  | .root tg a, name, addr =>
    match tg with
    | none => none
    | some t => if t.class_type ≠ name then none else some (.root tg a, addr)
  | .child tg a p, name, addr =>
    match tg with
    | none => none
    | some t =>
      if t.class_type ≠ name then get_class_target_addr p name ((addr + a % 2 ^ 64) % 2 ^ 64)
      else some (.child tg a p, addr)

/-- The class of the bound target of `dn` is `name`. -/
def dt_node.has_class (dn : dt_node) (name : String) : Prop :=
  ∃ t, dn.target = some t ∧ t.class_type = name

/-- The node `dn` has a bound target, of a class other than `name`. -/
def dt_node.other_class (dn : dt_node) (name : String) : Prop :=
  ∃ t, dn.target = some t ∧ t.class_type ≠ name

/-- The node at position `i` of the chain of `dn` is the nearest one whose bound
target has the class `name`: it has that class, and the nodes below it on the
chain all have a bound target, of another class. -/
def nearest_match (dn : dt_node) (name : String) (i : Nat) (node : dt_node) : Prop :=
  dn.chain[i]? = some node ∧ node.has_class name ∧
  ∀ j, j < i → ∃ m, dn.chain[j]? = some m ∧ m.other_class name

/-- The `struct dt_node` as the probe walk sees it, with its descendants: the
identity of the node (its address in memory, here a number), the bound target
(NULL is `none`) and the list of children. -/
inductive dt_tree where
  | mk (id : Nat) (target : Option target) (children : List dt_tree)

/-- The identity of the node at the top of `t`. -/
def dt_tree.id : dt_tree → Nat
  | .mk i _ _ => i

/-- The field `dn->target`. -/
def dt_tree.target : dt_tree → Option target
  | .mk _ t _ => t

/-- The children of the node. -/
def dt_tree.children : dt_tree → List dt_tree
  | .mk _ _ cs => cs

/-- What the probe walk reads and changes: the value of the `status` property
of every node (`none` when the node has no such property), and the list of the
nodes whose probe operation has been invoked, oldest first. -/
structure dt_state where
  status : Nat → Option String
  probed : List Nat

/-- The statements of `disable_node` on the node itself: the `status` property,
if any, is deleted and `status = "disabled"` is added. -/
def dt_state.set_disabled (σ : dt_state) (id : Nat) : dt_state :=
  { σ with status := fun i => if i = id then some "disabled" else σ.status i }

mutual
/-- The function `disable_node`. -/
def disable_node : dt_tree → dt_state → dt_state
  | .mk id _ cs, σ => disable_children cs (σ.set_disabled id)
/-- The loop `dt_for_each_child(dn, next) disable_node(next)`. -/
def disable_children : List dt_tree → dt_state → dt_state
  | [], σ => σ
  | c :: cs, σ => disable_children cs (disable_node c σ)
end

mutual
/-- The function `_target_probe`. -/
def _target_probe : dt_tree → dt_state → dt_state
  | .mk id tg cs, σ =>
    match tg with
    | none => σ
    | some t =>
      if σ.status id = some "disabled" then disable_node (.mk id tg cs) σ
      else
        match t.probe with
        | none => _target_probe_children cs σ
        | some rc =>
          if rc ≠ 0 then disable_node (.mk id tg cs) { σ with probed := σ.probed ++ [id] }
          else _target_probe_children cs { σ with probed := σ.probed ++ [id] }
/-- The loop `dt_for_each_child(dn, next) _target_probe(next)`. -/
def _target_probe_children : List dt_tree → dt_state → dt_state
  | [], σ => σ
  | c :: cs, σ => _target_probe_children cs (_target_probe c σ)
end

mutual
/-- The nodes of the tree `t`, depth-first in pre-order, each with its
descendants. -/
def dt_nodes : dt_tree → List dt_tree
  | .mk id tg cs => .mk id tg cs :: dt_nodes_list cs
/-- The nodes of a list of trees. -/
def dt_nodes_list : List dt_tree → List dt_tree
  | [] => []
  | c :: cs => dt_nodes c ++ dt_nodes_list cs
end

/-- Modelled from the spec: the macro `dt_for_each_node` comes from `device.h`,
which is not part of the sources. It enumerates the nodes of the tree
depth-first, in pre-order, from the tree root. -/
def dt_for_each_node (root : dt_tree) : List dt_tree := dt_nodes root

/-- The loop `dt_for_each_node(dt_root, dn) _target_probe(dn)` over a given
enumeration of nodes. -/
def target_probe_over (nodes : List dt_tree) (σ : dt_state) : dt_state :=
  nodes.foldl (fun σ dn => _target_probe dn σ) σ

/-- The function `target_probe` on the tree `dt_root`. -/
def target_probe (dt_root : dt_tree) (σ : dt_state) : dt_state :=
  target_probe_over (dt_for_each_node dt_root) σ

/-- The identities of the nodes of `t`: the node and its descendants. -/
def dt_ids (t : dt_tree) : List Nat := (dt_nodes t).map dt_tree.id

/-- The probe operation of the node fails: it exists and returns a nonzero
value. -/
def probe_fails (v : dt_tree) : Prop :=
  ∃ t rc, v.target = some t ∧ t.probe = some rc ∧ rc ≠ 0

/-- The node `v` has a bound target and either carries the status `"disabled"`
in `σ0` or has a probe operation that fails. -/
def disabling (σ0 : dt_state) (v : dt_tree) : Prop :=
  v.target ≠ none ∧ (σ0.status v.id = some "disabled" ∨ probe_fails v)

/-- Some node among the node `i` and its ancestors in the tree `root` is
`disabling`. -/
def under_disabling (root : dt_tree) (σ0 : dt_state) (i : Nat) : Prop :=
  ∃ a, a ∈ dt_nodes root ∧ i ∈ dt_ids a ∧ disabling σ0 a

/-- A chain for the witnesses: an `fsi` node at address `0x100` under an `opb`
node at address `0x20` under a `pib` root at address `0x3`. -/
def chain_example : dt_node :=
  .child (some ⟨"fsi", none⟩) 0x100 (.child (some ⟨"opb", none⟩) 0x20
    (.root (some ⟨"pib", none⟩) 0x3))

/-- The invariant of the probe walk started in the state `σ0` on the tree
`root`: the status of a node is what it was in `σ0`, or it is `"disabled"` and
some node among the node and its ancestors is `disabling`. -/
def probe_inv (root : dt_tree) (σ0 σ : dt_state) : Prop :=
  ∀ i, σ.status i = σ0.status i ∨ (σ.status i = some "disabled" ∧ under_disabling root σ0 i)

/-- The tree of the spec's probe scenario: a root (node 1) with two children,
node 2, which has the child node 3, and node 4; every node has a bound target
whose probe succeeds. -/
def probe_example : dt_tree :=
  .mk 1 (some ⟨"pib", some 0⟩)
    [.mk 2 (some ⟨"opb", some 0⟩) [.mk 3 (some ⟨"fsi", some 0⟩) []],
     .mk 4 (some ⟨"opb", some 0⟩) []]

/-- The state before the walk of the spec's probe scenario: node 2 carries
`status = "disabled"`, the other nodes have no `status` property; no probe
operation has been invoked. -/
def probe_example_state : dt_state :=
  { status := fun i => if i = 2 then some "disabled" else none, probed := [] }

/-- The node has a bound target that declares a probe operation. -/
def has_probe (v : dt_tree) : Prop :=
  ∃ t rc, v.target = some t ∧ t.probe = some rc

/-- Some proper ancestor of the node `d` in the tree `root` is `disabling`. -/
def below_disabling (root : dt_tree) (σ0 : dt_state) (d : dt_tree) : Prop :=
  ∃ a, a ∈ dt_nodes root ∧ d ∈ dt_nodes a ∧ a ≠ d ∧ disabling σ0 a

/-- The probe operations that the walk started by `target_probe` in the state
`σ0` invokes, oldest first: the entries that the walk appends to the log. -/
def probes_invoked (dt_root : dt_tree) (σ0 : dt_state) : List Nat :=
  (target_probe dt_root σ0).probed.drop σ0.probed.length

/-- The walk started in `σ0` may invoke the probe operation of the node `i`:
the node has a bound target with a probe operation, it does not carry the
status `"disabled"` in `σ0`, and no proper ancestor of it is `disabling`. -/
def probe_ok (root : dt_tree) (σ0 : dt_state) (i : Nat) : Prop :=
  ∃ d, d ∈ dt_nodes root ∧ d.id = i ∧ has_probe d ∧ σ0.status i ≠ some "disabled" ∧
    ¬ below_disabling root σ0 d

/-- The invariant of the probe walk on the log: the log of `σ0` has been
extended by invocations that are all `probe_ok`. -/
def log_inv (root : dt_tree) (σ0 σ : dt_state) : Prop :=
  ∃ l, σ.probed = σ0.probed ++ l ∧ ∀ i, i ∈ l → probe_ok root σ0 i

/-- A leaf, node 2, with a bound target whose probe operation fails: it
returns -1. -/
def failing_leaf : dt_tree :=
  .mk 2 (some ⟨"pib", some (-1)⟩) []

/-- A tree with an unbound root: the root (node 1) has no bound target, its
only child is `failing_leaf`. -/
def unbound_root_example : dt_tree :=
  .mk 1 none [failing_leaf]

/-- A tree with an unbound node in the middle: the root (node 1) has a bound
target, its child node 2 has none, and node 3, the child of node 2, has a
bound target; both probe operations succeed. -/
def unbound_middle_example : dt_tree :=
  .mk 1 (some ⟨"pib", some 0⟩) [.mk 2 none [.mk 3 (some ⟨"opb", some 0⟩) []]]

/-- A state in which no node has a `status` property and no probe operation
has been invoked. -/
def no_status_state : dt_state :=
  { status := fun _ => none, probed := [] }

/-- A state in which node 1 carries `status = "disabled"`, the other nodes have
no `status` property, and no probe operation has been invoked. -/
def root_disabled_state : dt_state :=
  { status := fun i => if i = 1 then some "disabled" else none, probed := [] }

/-- The invariant of the probe walk for a node `i` that the walk is to probe:
the log of `σ0` has been extended, and if the node carries the status
`"disabled"` then its probe operation is among the invocations added. -/
def probed_if_disabled (σ0 σ : dt_state) (i : Nat) : Prop :=
  ∃ l, σ.probed = σ0.probed ++ l ∧ (σ.status i = some "disabled" → i ∈ l)

end Pdbg

namespace Pdbg

/-! ## The polling loops -/

theorem pib_advance_advance (p : pib) (a b : Nat) :
    (p.advance a).advance b = p.advance (a + b) := by
  simp [pib.advance, Nat.add_assoc]

theorem pib_advance_zero (p : pib) : p.advance 0 = p := by
  simp [pib.advance]

/-- One iteration of the read loop on a value whose complete bit is clear. -/
theorem read_loop_pending (ia r : Nat) (p : pib) (d : Nat) (hr : r < PIB_IND_MAX_RETRIES)
    (hrc : p.read_rc p.nreads ia = 0)
    (hv : (p.read_val p.nreads ia % 2 ^ 64) &&& PIB_DATA_IND_COMPLETE = 0) :
    pib_indirect_read_loop ia r p d
      = pib_indirect_read_loop ia (r + 1) (p.advance 1) (p.read_val p.nreads ia % 2 ^ 64) := by
  rw [pib_indirect_read_loop]
  have hr2 : ¬ PIB_IND_MAX_RETRIES ≤ r := by omega
  simp only [pib.read, CHECK_ERR, hrc, pib.advance]
  generalize p.read_val p.nreads ia % 2 ^ 64 = v at hv ⊢
  simp [hr, hv, hr2]

/-- One iteration of the read loop on a value whose complete bit is set. -/
theorem read_loop_complete (ia r : Nat) (p : pib) (d : Nat) (hr : r < PIB_IND_MAX_RETRIES)
    (hrc : p.read_rc p.nreads ia = 0)
    (hv : (p.read_val p.nreads ia % 2 ^ 64) &&& PIB_DATA_IND_COMPLETE ≠ 0) :
    pib_indirect_read_loop ia r p d
      = if (p.read_val p.nreads ia % 2 ^ 64) &&& PIB_DATA_IND_ERR = 0 then
          (0, (p.read_val p.nreads ia % 2 ^ 64) &&& PIB_DATA_IND_DATA, p.advance 1)
        else (-1, p.read_val p.nreads ia % 2 ^ 64, p.advance 1) := by
  rw [pib_indirect_read_loop]
  simp only [pib.read, CHECK_ERR, hrc, pib.advance]
  generalize p.read_val p.nreads ia % 2 ^ 64 = v at hv ⊢
  by_cases he : v &&& PIB_DATA_IND_ERR = 0 <;> simp [hr, hv, he]

/-- Consecutive iterations of the read loop on `m` values whose complete bit is
clear: the loop continues `m` retries later, `m` primitive reads on. -/
theorem read_loop_skip (ia : Nat) : ∀ (m r : Nat) (p : pib) (d : Nat),
    r + m ≤ PIB_IND_MAX_RETRIES →
    (∀ j, j < m → p.read_rc (p.nreads + j) ia = 0 ∧
      (p.read_val (p.nreads + j) ia % 2 ^ 64) &&& PIB_DATA_IND_COMPLETE = 0) →
    ∃ d', pib_indirect_read_loop ia r p d
      = pib_indirect_read_loop ia (r + m) (p.advance m) d' := by
  intro m
  induction m with
  | zero => intro r p d _ _; exact ⟨d, by simp [pib_advance_zero]⟩
  | succ m ih =>
    intro r p d hr h
    have h0 := h 0 (Nat.succ_pos m)
    simp only [Nat.add_zero] at h0
    have hr1 : r < PIB_IND_MAX_RETRIES := by omega
    rw [read_loop_pending ia r p d hr1 h0.1 h0.2]
    obtain ⟨d', hd'⟩ := ih (r + 1) (p.advance 1) (p.read_val p.nreads ia % 2 ^ 64) (by omega)
      (by
        intro j hj
        have := h (j + 1) (by omega)
        simpa [pib.advance, Nat.add_assoc, Nat.add_comm 1 j] using this)
    refine ⟨d', ?_⟩
    rw [hd', pib_advance_advance]
    congr 1
    · omega
    · congr 1; omega

/-- One iteration of the write loop on a value whose complete bit is clear. -/
theorem write_loop_pending (ia r : Nat) (p : pib) (hr : r < PIB_IND_MAX_RETRIES)
    (hrc : p.read_rc p.nreads ia = 0)
    (hv : (p.read_val p.nreads ia % 2 ^ 64) &&& PIB_DATA_IND_COMPLETE = 0) :
    pib_indirect_write_loop ia r p = pib_indirect_write_loop ia (r + 1) (p.advance 1) := by
  rw [pib_indirect_write_loop]
  have hr2 : ¬ PIB_IND_MAX_RETRIES ≤ r := by omega
  simp only [pib.read, CHECK_ERR, hrc, pib.advance]
  generalize p.read_val p.nreads ia % 2 ^ 64 = v at hv ⊢
  simp [hr, hv, hr2]

/-- One iteration of the write loop on a value whose complete bit is set. -/
theorem write_loop_complete (ia r : Nat) (p : pib) (hr : r < PIB_IND_MAX_RETRIES)
    (hrc : p.read_rc p.nreads ia = 0)
    (hv : (p.read_val p.nreads ia % 2 ^ 64) &&& PIB_DATA_IND_COMPLETE ≠ 0) :
    pib_indirect_write_loop ia r p
      = if (p.read_val p.nreads ia % 2 ^ 64) &&& PIB_DATA_IND_ERR = 0 then
          (0, p.advance 1)
        else (-1, p.advance 1) := by
  rw [pib_indirect_write_loop]
  simp only [pib.read, CHECK_ERR, hrc, pib.advance]
  generalize p.read_val p.nreads ia % 2 ^ 64 = v at hv ⊢
  by_cases he : v &&& PIB_DATA_IND_ERR = 0 <;> simp [hr, hv, he]

/-- Consecutive iterations of the write loop on `m` values whose complete bit
is clear. -/
theorem write_loop_skip (ia : Nat) : ∀ (m r : Nat) (p : pib),
    r + m ≤ PIB_IND_MAX_RETRIES →
    (∀ j, j < m → p.read_rc (p.nreads + j) ia = 0 ∧
      (p.read_val (p.nreads + j) ia % 2 ^ 64) &&& PIB_DATA_IND_COMPLETE = 0) →
    pib_indirect_write_loop ia r p = pib_indirect_write_loop ia (r + m) (p.advance m) := by
  intro m
  induction m with
  | zero => intro r p _ _; simp [pib_advance_zero]
  | succ m ih =>
    intro r p hr h
    have h0 := h 0 (Nat.succ_pos m)
    simp only [Nat.add_zero] at h0
    have hr1 : r < PIB_IND_MAX_RETRIES := by omega
    rw [write_loop_pending ia r p hr1 h0.1 h0.2]
    rw [ih (r + 1) (p.advance 1) (by omega)
      (by
        intro j hj
        have := h (j + 1) (by omega)
        simpa [pib.advance, Nat.add_assoc, Nat.add_comm 1 j] using this)]
    rw [pib_advance_advance]
    congr 1
    · omega
    · congr 1; omega

/-- Once `retries` has reached the bound the read loop is left towards
`return 0`. -/
theorem read_loop_done (ia : Nat) (p : pib) (d : Nat) :
    pib_indirect_read_loop ia PIB_IND_MAX_RETRIES p d = (0, d, p) := by
  rw [pib_indirect_read_loop]; simp

/-- Once `retries` has reached the bound the write loop is left towards
`return 0`. -/
theorem write_loop_done (ia : Nat) (p : pib) :
    pib_indirect_write_loop ia PIB_IND_MAX_RETRIES p = (0, p) := by
  rw [pib_indirect_write_loop]; simp

theorem PIB_DATA_IND_COMPLETE_eq : PIB_DATA_IND_COMPLETE = 0x80000000 := by decide

theorem PIB_DATA_IND_ERR_eq : PIB_DATA_IND_ERR = 0x70000000 := by decide

theorem PIB_DATA_IND_DATA_eq : PIB_DATA_IND_DATA = 0xffff := by decide

/-- With bit 60 clear and a successful primitive write, `pib_indirect_read`
is its polling loop started at `retries = 0`. -/
theorem pib_indirect_read_eq_loop (p : pib) (addr data : Nat)
    (hbit : (addr >>> 60) &&& 1 = 0)
    (hw : p.write_rc p.nwrites (addr &&& 0x7fffffff) (PIB_IND_READ ||| (addr &&& PIB_IND_ADDR)) = 0) :
    pib_indirect_read p addr data
      = pib_indirect_read_loop (addr &&& 0x7fffffff) 0 (p.write (addr &&& 0x7fffffff)
          (PIB_IND_READ ||| (addr &&& PIB_IND_ADDR))).2 (PIB_IND_READ ||| (addr &&& PIB_IND_ADDR)) := by
  simp [pib_indirect_read, hbit, pib.write, CHECK_ERR, hw]

/-- With bit 60 clear and a successful primitive write, `pib_indirect_write`
is its polling loop started at `retries = 0`. -/
theorem pib_indirect_write_eq_loop (p : pib) (addr data : Nat)
    (hbit : (addr >>> 60) &&& 1 = 0)
    (hw : p.write_rc p.nwrites (addr &&& 0x7fffffff)
      ((data &&& PIB_IND_DATA) ||| (addr &&& PIB_IND_ADDR)) = 0) :
    pib_indirect_write p addr data
      = pib_indirect_write_loop (addr &&& 0x7fffffff) 0 (p.write (addr &&& 0x7fffffff)
          ((data &&& PIB_IND_DATA) ||| (addr &&& PIB_IND_ADDR))).2 := by
  simp [pib_indirect_write, hbit, pib.write, CHECK_ERR, hw]

/-- The read loop entered at `retries = 0`, when the first `k - 1` primitive
reads succeed with the complete bit clear and the k-th one succeeds with the
complete bit set: what the k-th iteration returns. -/
theorem read_loop_first_complete (ia : Nat) (p : pib) (d k : Nat)
    (hk1 : 1 ≤ k) (hk : k ≤ PIB_IND_MAX_RETRIES)
    (hr : ∀ j, j < k → p.read_rc (p.nreads + j) ia = 0)
    (hpend : ∀ j, j + 1 < k →
      (p.read_val (p.nreads + j) ia % 2 ^ 64) &&& PIB_DATA_IND_COMPLETE = 0)
    (hcomp : (p.read_val (p.nreads + (k - 1)) ia % 2 ^ 64) &&& PIB_DATA_IND_COMPLETE ≠ 0) :
    pib_indirect_read_loop ia 0 p d
      = if (p.read_val (p.nreads + (k - 1)) ia % 2 ^ 64) &&& PIB_DATA_IND_ERR = 0 then
          (0, (p.read_val (p.nreads + (k - 1)) ia % 2 ^ 64) &&& PIB_DATA_IND_DATA, p.advance k)
        else (-1, p.read_val (p.nreads + (k - 1)) ia % 2 ^ 64, p.advance k) := by
  obtain ⟨d', hd'⟩ := read_loop_skip ia (k - 1) 0 p d (by omega)
    (fun j hj => ⟨hr j (by omega), hpend j (by omega)⟩)
  rw [hd']
  have hlt : 0 + (k - 1) < PIB_IND_MAX_RETRIES := by omega
  have hn : (p.advance (k - 1)).nreads = p.nreads + (k - 1) := rfl
  rw [read_loop_complete ia _ (p.advance (k - 1)) d' hlt
    (by rw [hn]; exact hr (k - 1) (by omega)) (by rw [hn]; exact hcomp)]
  have hadv : (p.advance (k - 1)).advance 1 = p.advance k := by
    rw [pib_advance_advance]; congr 1; omega
  simp only [hn, hadv]
  rfl

/-- The write loop entered at `retries = 0`, when the first `k - 1` primitive
reads succeed with the complete bit clear and the k-th one succeeds with the
complete bit set: what the k-th iteration returns. -/
theorem write_loop_first_complete (ia : Nat) (p : pib) (k : Nat)
    (hk1 : 1 ≤ k) (hk : k ≤ PIB_IND_MAX_RETRIES)
    (hr : ∀ j, j < k → p.read_rc (p.nreads + j) ia = 0)
    (hpend : ∀ j, j + 1 < k →
      (p.read_val (p.nreads + j) ia % 2 ^ 64) &&& PIB_DATA_IND_COMPLETE = 0)
    (hcomp : (p.read_val (p.nreads + (k - 1)) ia % 2 ^ 64) &&& PIB_DATA_IND_COMPLETE ≠ 0) :
    pib_indirect_write_loop ia 0 p
      = if (p.read_val (p.nreads + (k - 1)) ia % 2 ^ 64) &&& PIB_DATA_IND_ERR = 0 then
          (0, p.advance k)
        else (-1, p.advance k) := by
  rw [write_loop_skip ia (k - 1) 0 p (by omega)
    (fun j hj => ⟨hr j (by omega), hpend j (by omega)⟩)]
  have hlt : 0 + (k - 1) < PIB_IND_MAX_RETRIES := by omega
  have hn : (p.advance (k - 1)).nreads = p.nreads + (k - 1) := rfl
  rw [write_loop_complete ia _ (p.advance (k - 1)) hlt
    (by rw [hn]; exact hr (k - 1) (by omega)) (by rw [hn]; exact hcomp)]
  have hadv : (p.advance (k - 1)).advance 1 = p.advance k := by
    rw [pib_advance_advance]; congr 1; omega
  simp only [hn, hadv]
  rfl

/-! ## Claims C1 to C3: the indirect protocol -/

/-- The general form of the behaviour behind C1: with bit 60 clear, a successful
primitive write and ten successful primitive reads none of which has the
complete bit set, `pib_indirect_read` and `pib_indirect_write` leave their
loop by its bound and return 0, after exactly ten primitive reads. -/
theorem indirect_exhausted_returns_zero (p : pib) (addr data : Nat)
    (hbit : (addr >>> 60) &&& 1 = 0)
    (hw : ∀ d, p.write_rc p.nwrites (addr &&& 0x7fffffff) d = 0)
    (hr : ∀ j, j < 10 → read_ok p addr j)
    (hpend : ∀ j, j < 10 → polled p addr j &&& PIB_DATA_IND_COMPLETE = 0) :
    (pib_indirect_read p addr data).1 = 0 ∧
    (pib_indirect_read p addr data).2.2.nreads = p.nreads + 10 ∧
    (pib_indirect_write p addr data).1 = 0 ∧
    (pib_indirect_write p addr data).2.nreads = p.nreads + 10 := by
  rw [pib_indirect_read_eq_loop p addr data hbit (hw _),
    pib_indirect_write_eq_loop p addr data hbit (hw _)]
  obtain ⟨d', hd'⟩ := read_loop_skip (addr &&& 0x7fffffff) 10 0
    (p.write (addr &&& 0x7fffffff) (PIB_IND_READ ||| (addr &&& PIB_IND_ADDR))).2
    (PIB_IND_READ ||| (addr &&& PIB_IND_ADDR)) (by decide)
    (fun j hj => ⟨hr j hj, hpend j hj⟩)
  have hw2 := write_loop_skip (addr &&& 0x7fffffff) 10 0
    (p.write (addr &&& 0x7fffffff) ((data &&& PIB_IND_DATA) ||| (addr &&& PIB_IND_ADDR))).2
    (by decide) (fun j hj => ⟨hr j hj, hpend j hj⟩)
  have h10 : 0 + 10 = PIB_IND_MAX_RETRIES := rfl
  rw [hd', hw2, h10, read_loop_done, write_loop_done]
  simp [pib.advance, pib.write]

/-- C1 (the code departs from the claim): on a device whose primitive
operations all succeed and whose reads all return 0, so that none of the ten
polled values has the complete bit set, `pib_indirect_read` and
`pib_indirect_write` at the address `0x8000000000000000` (bit 60 clear)
perform ten primitive reads and then return 0, that is success, where the
claim requires failure. -/
theorem C1_exhausted_polling_returns_success :
    (0x8000000000000000 >>> 60) &&& 1 = 0 ∧
    (∀ j, j < 10 → polled (pib_const 0) 0x8000000000000000 j &&& PIB_DATA_IND_COMPLETE = 0) ∧
    (pib_indirect_read (pib_const 0) 0x8000000000000000 0).1 = 0 ∧
    (pib_indirect_read (pib_const 0) 0x8000000000000000 0).2.2.nreads = 10 ∧
    (pib_indirect_write (pib_const 0) 0x8000000000000000 0).1 = 0 ∧
    (pib_indirect_write (pib_const 0) 0x8000000000000000 0).2.nreads = 10 := by
  have hp : ∀ j, j < 10 →
      polled (pib_const 0) 0x8000000000000000 j &&& PIB_DATA_IND_COMPLETE = 0 := by
    intro j _; simp [polled, pib_const]
  have h := indirect_exhausted_returns_zero (pib_const 0) 0x8000000000000000 0 (by decide)
    (fun _ => rfl) (fun _ _ => rfl) hp
  refine ⟨by decide, hp, h.1, ?_, h.2.2.1, ?_⟩
  · simpa [pib_const] using h.2.1
  · simpa [pib_const] using h.2.2.2

/-- C2: for `pib_indirect_read` with bit 60 of the address clear, a successful
primitive write and successful primitive reads: if for some `1 ≤ k ≤ 10` the
first `k - 1` polled values have the complete bit clear and the k-th has the
complete bit set and a zero error field, the operation returns 0 after
exactly one primitive write and exactly `k` primitive reads, and the result
is the k-th polled value masked to its low 16 bits. -/
theorem C2_pib_indirect_read_success (p : pib) (addr data k : Nat)
    (hbit : (addr >>> 60) &&& 1 = 0)
    (hk1 : 1 ≤ k) (hk : k ≤ 10)
    (hw : p.write_rc p.nwrites (addr &&& 0x7fffffff) (PIB_IND_READ ||| (addr &&& PIB_IND_ADDR)) = 0)
    (hr : ∀ j, j < k → read_ok p addr j)
    (hpend : ∀ j, j + 1 < k → polled p addr j &&& 0x80000000 = 0)
    (hcomp : polled p addr (k - 1) &&& 0x80000000 ≠ 0)
    (herr : polled p addr (k - 1) &&& 0x70000000 = 0) :
    (pib_indirect_read p addr data).1 = 0 ∧
    (pib_indirect_read p addr data).2.1 = polled p addr (k - 1) &&& 0xffff ∧
    (pib_indirect_read p addr data).2.2.nwrites = p.nwrites + 1 ∧
    (pib_indirect_read p addr data).2.2.nreads = p.nreads + k := by
  rw [pib_indirect_read_eq_loop p addr data hbit hw]
  have h := read_loop_first_complete (addr &&& 0x7fffffff)
    (p.write (addr &&& 0x7fffffff) (PIB_IND_READ ||| (addr &&& PIB_IND_ADDR))).2
    (PIB_IND_READ ||| (addr &&& PIB_IND_ADDR)) k hk1 hk hr hpend hcomp
  have h2 := h.trans (if_pos herr)
  rw [h2]
  exact ⟨rfl, rfl, rfl, rfl⟩

/-- A device for the witnesses: all primitive operations succeed, the first two
polled values are pending and the third is complete without error, carrying
the data `0x1234`. -/
theorem C2_pib_indirect_read_success_witness :
    (pib_indirect_read (pib_script [0, 0, 0x80001234]) 0x8000000000000000 0).1 = 0 ∧
    (pib_indirect_read (pib_script [0, 0, 0x80001234]) 0x8000000000000000 0).2.1
      = polled (pib_script [0, 0, 0x80001234]) 0x8000000000000000 (3 - 1) &&& 0xffff ∧
    (pib_indirect_read (pib_script [0, 0, 0x80001234]) 0x8000000000000000 0).2.2.nwrites
      = (pib_script [0, 0, 0x80001234]).nwrites + 1 ∧
    (pib_indirect_read (pib_script [0, 0, 0x80001234]) 0x8000000000000000 0).2.2.nreads
      = (pib_script [0, 0, 0x80001234]).nreads + 3 :=
  C2_pib_indirect_read_success (pib_script [0, 0, 0x80001234]) 0x8000000000000000 0 3
    (by decide) (by decide) (by decide) rfl (fun _ _ => rfl)
    (by intro j hj
        have : j = 0 ∨ j = 1 := by omega
        rcases this with h | h <;> subst h <;> decide)
    (by decide) (by decide)

/-- C3: for `pib_indirect_read` and `pib_indirect_write` with bit 60 of the
address clear, a successful primitive write and successful primitive reads:
if for some `1 ≤ k ≤ 10` the first `k - 1` polled values have the complete bit
clear and the k-th has the complete bit set and a nonzero error field, both
operations return the failure code -1 having performed exactly `k` primitive
reads. -/
theorem C3_indirect_error_fails_at_once (p : pib) (addr data wdata k : Nat)
    (hbit : (addr >>> 60) &&& 1 = 0)
    (hk1 : 1 ≤ k) (hk : k ≤ 10)
    (hw : ∀ d, p.write_rc p.nwrites (addr &&& 0x7fffffff) d = 0)
    (hr : ∀ j, j < k → read_ok p addr j)
    (hpend : ∀ j, j + 1 < k → polled p addr j &&& 0x80000000 = 0)
    (hcomp : polled p addr (k - 1) &&& 0x80000000 ≠ 0)
    (herr : polled p addr (k - 1) &&& 0x70000000 ≠ 0) :
    (pib_indirect_read p addr data).1 = -1 ∧
    (pib_indirect_read p addr data).2.2.nreads = p.nreads + k ∧
    (pib_indirect_write p addr wdata).1 = -1 ∧
    (pib_indirect_write p addr wdata).2.nreads = p.nreads + k := by
  rw [pib_indirect_read_eq_loop p addr data hbit (hw _),
    pib_indirect_write_eq_loop p addr wdata hbit (hw _)]
  have h := read_loop_first_complete (addr &&& 0x7fffffff)
    (p.write (addr &&& 0x7fffffff) (PIB_IND_READ ||| (addr &&& PIB_IND_ADDR))).2
    (PIB_IND_READ ||| (addr &&& PIB_IND_ADDR)) k hk1 hk hr hpend hcomp
  have h2 := h.trans (if_neg herr)
  have g := write_loop_first_complete (addr &&& 0x7fffffff)
    (p.write (addr &&& 0x7fffffff) ((wdata &&& PIB_IND_DATA) ||| (addr &&& PIB_IND_ADDR))).2
    k hk1 hk hr hpend hcomp
  have g2 := g.trans (if_neg herr)
  rw [h2, g2]
  exact ⟨rfl, rfl, rfl, rfl⟩

/-- On a device whose second polled value is complete with error field 1,
both operations fail after exactly two primitive reads. -/
theorem C3_indirect_error_fails_at_once_witness :
    (pib_indirect_read (pib_script [0, 0x90000000]) 0x8000000000000000 0).1 = -1 ∧
    (pib_indirect_read (pib_script [0, 0x90000000]) 0x8000000000000000 0).2.2.nreads
      = (pib_script [0, 0x90000000]).nreads + 2 ∧
    (pib_indirect_write (pib_script [0, 0x90000000]) 0x8000000000000000 7).1 = -1 ∧
    (pib_indirect_write (pib_script [0, 0x90000000]) 0x8000000000000000 7).2.nreads
      = (pib_script [0, 0x90000000]).nreads + 2 :=
  C3_indirect_error_fails_at_once (pib_script [0, 0x90000000]) 0x8000000000000000 0 7 2
    (by decide) (by decide) (by decide) (fun _ => rfl) (fun _ _ => rfl)
    (by intro j hj
        have : j = 0 := by omega
        subst this; decide)
    (by decide) (by decide)

/-! ## The FIFO engine -/

theorem be32_at_lt (buf : List Nat) (off v : Nat) (h : be32_at buf off = some v) :
    v < 2 ^ 32 := by
  unfold be32_at at h
  split at h
  · simp only [Option.some.injEq] at h
    omega
  · exact absurd h (by simp)

theorem be32_at_some (buf : List Nat) (off v : Nat) (h : be32_at buf off = some v) :
    off + 4 ≤ buf.length := by
  unfold be32_at at h
  split at h
  · assumption
  · exact absurd h (by simp)

/-- After `sbefifo_ffdc_clear` the record is empty, given the invariant. -/
theorem ffdc_clear_get (s : sbefifo) (hwf : ffdc_wf s) :
    sbefifo_ffdc_get (sbefifo_ffdc_clear s) = (0, none, 0) := by
  unfold ffdc_wf at hwf
  unfold sbefifo_ffdc_get sbefifo_ffdc_clear
  cases hf : s.ffdc with
  | none => simp [hf, hwf hf]
  | some b => simp [hf]

theorem exchanged_get (s : sbefifo) (msg : List Nat) (msg_len : Nat) (hwf : ffdc_wf s) :
    sbefifo_ffdc_get (s.exchanged msg msg_len) = (0, none, 0) := by
  have h := ffdc_clear_get s hwf
  simpa [sbefifo_ffdc_get, sbefifo.exchanged] using h

/-- When the exchange goes through, `sbefifo_op` comes down to the length check
and the parsing of the response. -/
theorem sbefifo_op_of_exchange (s : sbefifo) (msg : List Nat) (msg_len cmd out_len : Nat)
    (resp : List Nat) (hx : exchange s msg msg_len out_len resp) :
    sbefifo_op s msg msg_len cmd out_len
      = if resp.length < 12 then .ret (-1, none) (s.exchanged msg msg_len)
        else sbefifo_op_parse (s.exchanged msg msg_len) (cmd % 2 ^ 16) resp := by
  obtain ⟨h0, hlen, hpos, hm, hw, hr, hfit⟩ := hx
  have hc : (sbefifo_ffdc_clear s).malloc_ok = s.malloc_ok ∧
      (sbefifo_ffdc_clear s).nmallocs = s.nmallocs ∧
      (sbefifo_ffdc_clear s).write_n = s.write_n ∧
      (sbefifo_ffdc_clear s).nwrites = s.nwrites ∧
      (sbefifo_ffdc_clear s).read_n = s.read_n ∧
      (sbefifo_ffdc_clear s).nreads = s.nreads ∧
      (sbefifo_ffdc_clear s).sent = s.sent := by
    unfold sbefifo_ffdc_clear
    cases s.ffdc <;> simp
  obtain ⟨c1, c2, c3, c4, c5, c6, c7⟩ := hc
  have hlen2 : ¬ msg.length < msg_len := by omega
  have htake : List.take ((out_len + 0x2000) % 2 ^ 64) resp = resp :=
    List.take_of_length_le hfit
  have hw2 : ¬ ((msg_len : Int) < 0) := by omega
  unfold sbefifo_op
  generalize (out_len + 0x2000) % 2 ^ 64 = B at hpos hm hr hfit htake ⊢
  generalize cmd % 2 ^ 16 = c
  simp only [h0, sbefifo.malloc, c1, c2, hm, sbefifo_op_write, hlen2, c3, c4, hw, hw2,
    sbefifo_op_read, hpos, c5, c6, hr, htake, c7, sbefifo.exchanged]
  simp [hr, htake]

/-- Parsing a response whose trailing offset word `k` places the header word
and the return-code word inside the response (`2 ≤ k`, `4 * k ≤ n`). -/
theorem sbefifo_op_parse_located (s : sbefifo) (cmd : Nat) (resp : List Nat) (k hdr rc : Nat)
    (h32 : resp.length < 2 ^ 32)
    (hk : be32_at resp (resp.length - 4) = some k) (hk2 : 2 ≤ k) (hkn : 4 * k ≤ resp.length)
    (hhdr : be32_at resp (resp.length - 4 * k) = some hdr)
    (hrc : be32_at resp (resp.length - 4 * k + 4) = some rc) :
    sbefifo_op_parse s cmd resp
      = if hdr >>> 16 ≠ 0xc0de then .ret (-1, none) s
        else if hdr &&& 0xffff ≠ cmd then .ret (-1, none) s
        else if rc = 0 then .ret (0, some resp) s
        else
          match sbefifo_ffdc_set s resp (resp.length - 4 * k + 8)
              ((resp.length + 2 * 2 ^ 64 - (resp.length - 4 * k + 8) - 4) % 2 ^ 64 % 2 ^ 32)
              rc with
          | .fault f s => .fault f s
          | .ret _ s => .ret (-1, none) s := by
  have hhdr32 := be32_at_lt _ _ _ hhdr
  have ho0 : (resp.length + 2 ^ 64 - k * 4 % 2 ^ 32) % 2 ^ 64 % 2 ^ 32 = resp.length - 4 * k := by
    omega
  have ho1 : (resp.length - 4 * k + 4) % 2 ^ 32 = resp.length - 4 * k + 4 := by omega
  have ho2 : (resp.length - 4 * k + 4 + 4) % 2 ^ 32 = resp.length - 4 * k + 8 := by omega
  have hv1 : (hdr >>> 16) % 2 ^ 16 = hdr >>> 16 := by
    rw [Nat.shiftRight_eq_div_pow]; omega
  have hv2 : (hdr &&& 0xffff) % 2 ^ 16 = hdr &&& 0xffff := by
    have : hdr &&& 0xffff ≤ 0xffff := Nat.and_le_right
    omega
  unfold sbefifo_op_parse
  simp only [hk, ho0, hhdr, ho1, hrc, ho2, hv1, hv2]

/-- The header word of a well-framed response. -/
theorem well_framed_header (resp : List Nat) (cmd k rc : Nat) (h : well_framed resp cmd k rc) :
    ∃ hdr, be32_at resp (resp.length - 4 * k) = some hdr ∧ hdr >>> 16 = 0xc0de ∧
      hdr &&& 0xffff = cmd := by
  obtain ⟨_, _, _, _, _, hm, hc, _⟩ := h
  cases hh : be32_at resp (resp.length - 4 * k) with
  | none => rw [hh] at hm; exact absurd hm (by simp)
  | some hdr =>
    rw [hh] at hm hc
    simp only [Option.map_some', Option.some.injEq] at hm hc
    exact ⟨hdr, rfl, hm, hc⟩

/-- A well-framed response with return code 0: `sbefifo_op` returns 0 with the
response buffer. -/
theorem sbefifo_op_framed_zero (s : sbefifo) (msg : List Nat) (msg_len cmd out_len : Nat)
    (resp : List Nat) (k : Nat)
    (hx : exchange s msg msg_len out_len resp) (hf : well_framed resp cmd k 0) :
    sbefifo_op s msg msg_len cmd out_len = .ret (0, some resp) (s.exchanged msg msg_len) := by
  obtain ⟨hdr, hhdr, hmagic, hcmd⟩ := well_framed_header resp cmd k 0 hf
  obtain ⟨hn, h32, hk, hk3, hkn, _, _, hrc⟩ := hf
  have hc16 : cmd % 2 ^ 16 = cmd := by
    have : hdr &&& 0xffff ≤ 0xffff := Nat.and_le_right
    omega
  rw [sbefifo_op_of_exchange s msg msg_len cmd out_len resp hx, if_neg (by omega),
    sbefifo_op_parse_located _ _ resp k hdr 0 h32 hk (by omega) hkn hhdr hrc, hc16]
  simp [hmagic, hcmd]

/-- The effect of `sbefifo_ffdc_set` when the bytes to copy lie inside the
buffer: the status is stored, and the payload too unless `malloc` fails. -/
theorem sbefifo_ffdc_set_in_bounds (s : sbefifo) (buf : List Nat) (off buflen status : Nat)
    (hin : off + buflen ≤ buf.length) :
    sbefifo_ffdc_set s buf off buflen status
      = .ret () { s with
          status := status, nmallocs := s.nmallocs + 1,
          ffdc := if s.malloc_ok s.nmallocs buflen = true
            then some ((buf.drop off).take buflen) else none,
          ffdc_len := if s.malloc_ok s.nmallocs buflen = true then buflen else s.ffdc_len } := by
  have hin2 : ¬ buf.length < off + buflen := by omega
  unfold sbefifo_ffdc_set
  cases hm : s.malloc_ok s.nmallocs buflen <;> simp [sbefifo.malloc, hm, hin2]

/-- A well-framed response with a nonzero return code: `sbefifo_op` returns -1
and stores the return code as status; the FFDC payload stored, when its
allocation succeeds, is made of the bytes between the return-code word and
the trailing offset word. -/
theorem sbefifo_op_framed_nonzero (s : sbefifo) (msg : List Nat) (msg_len cmd out_len : Nat)
    (resp : List Nat) (k rc : Nat)
    (hx : exchange s msg msg_len out_len resp) (hf : well_framed resp cmd k rc)
    (hrc0 : rc ≠ 0) :
    ∃ s', sbefifo_op s msg msg_len cmd out_len = .ret (-1, none) s' ∧
      s'.status = rc ∧
      (s.malloc_ok (s.nmallocs + 1) (4 * k - 12) = true →
        s'.ffdc = some (ffdc_after_header resp k) ∧ s'.ffdc_len = 4 * k - 12) := by
  obtain ⟨hdr, hhdr, hmagic, hcmd⟩ := well_framed_header resp cmd k rc hf
  obtain ⟨hn, h32, hk, hk3, hkn, _, _, hrc⟩ := hf
  have hc16 : cmd % 2 ^ 16 = cmd := by
    have : hdr &&& 0xffff ≤ 0xffff := Nat.and_le_right
    omega
  have hlen : (resp.length + 2 * 2 ^ 64 - (resp.length - 4 * k + 8) - 4) % 2 ^ 64 % 2 ^ 32
      = 4 * k - 12 := by omega
  have hin : ¬ resp.length < resp.length - 4 * k + 8 + (4 * k - 12) := by omega
  rw [sbefifo_op_of_exchange s msg msg_len cmd out_len resp hx, if_neg (by omega),
    sbefifo_op_parse_located _ _ resp k hdr rc h32 hk (by omega) hkn hhdr hrc, hc16, hlen]
  have hcl : (sbefifo_ffdc_clear s).malloc_ok = s.malloc_ok := by
    unfold sbefifo_ffdc_clear
    cases s.ffdc <;> simp
  rw [sbefifo_ffdc_set_in_bounds _ _ _ _ _ (by omega)]
  simp only [hmagic, hcmd, hrc0, ne_eq, not_true_eq_false, if_false]
  refine ⟨_, rfl, rfl, ?_⟩
  intro hm
  simp [sbefifo.exchanged, hcl, hm, ffdc_after_header]

/-- The statically initialised device satisfies the FFDC invariant. -/
theorem fifo_peer_ffdc_wf (resp : List Nat) : ffdc_wf (fifo_peer resp) := fun _ => rfl

/-- The function `sbefifo_ffdc_set` leaves a well-formed FFDC record when it
starts from an empty one. -/
theorem sbefifo_ffdc_set_keeps_ffdc_wf (s : sbefifo) (buf : List Nat) (off buflen status : Nat)
    (h2 : s.ffdc_len = 0) (o : Outcome Unit)
    (ho : sbefifo_ffdc_set s buf off buflen status = o) : ffdc_wf o.dev := by
  subst ho
  unfold sbefifo_ffdc_set
  simp only [sbefifo.malloc]
  split
  · intro _; exact h2
  · split
    · intro _; exact h2
    · intro h; exact absurd h (by simp [Outcome.dev])

/-- The parsing of the response leaves a well-formed FFDC record when it starts
from an empty one. -/
theorem sbefifo_op_parse_keeps_ffdc_wf (s : sbefifo) (cmd : Nat) (buf : List Nat)
    (h2 : s.ffdc_len = 0) :
    ffdc_wf (sbefifo_op_parse s cmd buf).dev := by
  have hs : ffdc_wf s := fun _ => h2
  unfold sbefifo_op_parse
  generalize 2 ^ 64 = a
  generalize 2 ^ 32 = b
  generalize 2 ^ 16 = c
  dsimp only
  split
  · exact hs
  · split
    · exact hs
    · split
      · exact hs
      · split
        · exact hs
        · split
          · exact hs
          · split
            · exact hs
            · split
              · rename_i h
                exact sbefifo_ffdc_set_keeps_ffdc_wf s buf _ _ _ h2 _ h
              · rename_i h
                exact sbefifo_ffdc_set_keeps_ffdc_wf s buf _ _ _ h2 _ h

/-- The function `sbefifo_op_write` does not touch the FFDC record. -/
theorem sbefifo_op_write_frame (s : sbefifo) (buf : List Nat) (n : Nat) :
    (sbefifo_op_write s buf n).dev.ffdc_len = s.ffdc_len := by
  unfold sbefifo_op_write
  dsimp only
  repeat' split
  all_goals rfl

/-- The function `sbefifo_op_read` does not touch the FFDC record. -/
theorem sbefifo_op_read_frame (s : sbefifo) (n : Nat) :
    (sbefifo_op_read s n).dev.ffdc_len = s.ffdc_len := by
  unfold sbefifo_op_read
  dsimp only
  repeat' split
  all_goals rfl

/-- The function `sbefifo_op` maintains the FFDC invariant, however the run
ends. -/
theorem sbefifo_op_keeps_ffdc_wf (s : sbefifo) (msg : List Nat) (msg_len cmd out_len : Nat)
    (hwf : ffdc_wf s) : ffdc_wf (sbefifo_op s msg msg_len cmd out_len).dev := by
  have h1 : (sbefifo_ffdc_clear s).ffdc_len = 0 := by
    have h := ffdc_clear_get s hwf
    simp only [sbefifo_ffdc_get, Prod.mk.injEq] at h
    exact h.2.2
  unfold sbefifo_op
  generalize sbefifo_ffdc_clear s = s1 at h1 ⊢
  generalize (out_len + 0x2000) % 2 ^ 64 = B
  generalize cmd % 2 ^ 16 = c
  dsimp only [sbefifo.malloc]
  split
  · exact fun _ => h1
  · split
    · exact fun _ => h1
    · have hw := sbefifo_op_write_frame
        { s1 with nmallocs := s1.nmallocs + 1 } msg msg_len
      split
      · rename_i h
        rw [h] at hw
        exact fun _ => hw.trans h1
      · rename_i h
        rw [h] at hw
        have hw2 := hw.trans h1
        simp only [Outcome.dev] at hw2
        split
        · exact fun _ => hw2
        · rename_i sw _
          have hr := sbefifo_op_read_frame sw B
          split
          · rename_i h'
            rw [h'] at hr
            exact fun _ => hr.trans hw2
          · rename_i h'
            rw [h'] at hr
            have hr2 := hr.trans hw2
            simp only [Outcome.dev] at hr2
            split
            · exact fun _ => hr2
            · split
              · exact fun _ => hr2
              · exact sbefifo_op_parse_keeps_ffdc_wf _ _ _ hr2

/-! ## Claims C4 to C8: the response of `sbefifo_op` -/

/-- C4: when the exchange goes through and reads a well-framed response (at
least 12 bytes, trailing offset word `k` with `3 ≤ k` and `4 * k ≤ n`, header
word at `n - 4 * k` with magic `0xc0de` and the command code `cmd`) whose
return-code word is 0, `sbefifo_op` returns 0, the first `n - 4 * k` bytes of
the returned buffer are the response bytes preceding the status header, and
the stored FFDC record is empty with status 0. -/
theorem C4_sbefifo_op_success (s : sbefifo) (msg : List Nat) (msg_len cmd out_len : Nat)
    (resp : List Nat) (k : Nat)
    (hx : exchange s msg msg_len out_len resp) (hwf : ffdc_wf s)
    (hf : well_framed resp cmd k 0) :
    ∃ out s', sbefifo_op s msg msg_len cmd out_len = .ret (0, some out) s' ∧
      out.take (resp.length - 4 * k) = resp.take (resp.length - 4 * k) ∧
      sbefifo_ffdc_get s' = (0, none, 0) :=
  ⟨resp, s.exchanged msg msg_len, sbefifo_op_framed_zero s msg msg_len cmd out_len resp k hx hf,
    rfl, exchanged_get s msg msg_len hwf⟩

/-- A 16-byte response to an execute-step request: four payload bytes, the
header `0xc0dea101`, return code 0 and trailing offset 3. -/
theorem C4_sbefifo_op_success_witness :
    ∃ out s', sbefifo_op
        (fifo_peer [1, 2, 3, 4, 0xc0, 0xde, 0xa1, 0x01, 0, 0, 0, 0, 0, 0, 0, 3])
        [0, 0, 0, 3] 4 0xa101 0 = .ret (0, some out) s' ∧
      out.take ([1, 2, 3, 4, 0xc0, 0xde, 0xa1, 0x01, 0, 0, 0, 0, 0, 0, 0, 3].length - 4 * 3)
        = [1, 2, 3, 4, 0xc0, 0xde, 0xa1, 0x01, 0, 0, 0, 0, 0, 0, 0, 3].take
            ([1, 2, 3, 4, 0xc0, 0xde, 0xa1, 0x01, 0, 0, 0, 0, 0, 0, 0, 3].length - 4 * 3) ∧
      sbefifo_ffdc_get s' = (0, none, 0) :=
  C4_sbefifo_op_success
    (fifo_peer [1, 2, 3, 4, 0xc0, 0xde, 0xa1, 0x01, 0, 0, 0, 0, 0, 0, 0, 3])
    [0, 0, 0, 3] 4 0xa101 0 [1, 2, 3, 4, 0xc0, 0xde, 0xa1, 0x01, 0, 0, 0, 0, 0, 0, 0, 3] 3
    (by decide) (by decide) (by decide)

/-- C5: when the exchange goes through and reads a well-framed response whose
return-code word `rc` is nonzero, `sbefifo_op` returns the failure code -1
and a subsequent `sbefifo_ffdc_get` returns the status `rc`. -/
theorem C5_sbefifo_op_failure_status (s : sbefifo) (msg : List Nat)
    (msg_len cmd out_len : Nat) (resp : List Nat) (k rc : Nat)
    (hx : exchange s msg msg_len out_len resp) (hf : well_framed resp cmd k rc)
    (hrc0 : rc ≠ 0) :
    ∃ s', sbefifo_op s msg msg_len cmd out_len = .ret (-1, none) s' ∧
      (sbefifo_ffdc_get s').1 = rc := by
  obtain ⟨s', h1, h2, _⟩ :=
    sbefifo_op_framed_nonzero s msg msg_len cmd out_len resp k rc hx hf hrc0
  exact ⟨s', h1, h2⟩

/-- A 12-byte response to an execute-step request with return code 1. -/
theorem C5_sbefifo_op_failure_status_witness :
    ∃ s', sbefifo_op (fifo_peer [0xc0, 0xde, 0xa1, 0x01, 0, 0, 0, 1, 0, 0, 0, 3])
        [0, 0, 0, 3] 4 0xa101 0 = .ret (-1, none) s' ∧
      (sbefifo_ffdc_get s').1 = 1 :=
  C5_sbefifo_op_failure_status (fifo_peer [0xc0, 0xde, 0xa1, 0x01, 0, 0, 0, 1, 0, 0, 0, 3])
    [0, 0, 0, 3] 4 0xa101 0 [0xc0, 0xde, 0xa1, 0x01, 0, 0, 0, 1, 0, 0, 0, 3] 3 1
    (by decide) (by decide) (by decide)

/-- C6 as stated fails: for `out_len = 4` and the well-framed 24-byte response
`01020304 07070707 c0dea101 00000001 09090909 00000004` (return code 1,
trailing offset 4, header at byte 8), the bytes between the end of the
payload and the start of the header are `07 07 07 07`, while the FFDC payload
that `sbefifo_op` stores is `09 09 09 09`, the bytes after the return-code
word. -/
theorem C6_ffdc_not_before_header :
    well_framed [1, 2, 3, 4, 7, 7, 7, 7, 0xc0, 0xde, 0xa1, 0x01, 0, 0, 0, 1, 9, 9, 9, 9,
      0, 0, 0, 4] 0xa101 4 1 ∧
    ffdc_between_payload_and_header [1, 2, 3, 4, 7, 7, 7, 7, 0xc0, 0xde, 0xa1, 0x01,
      0, 0, 0, 1, 9, 9, 9, 9, 0, 0, 0, 4] 4 4 = [7, 7, 7, 7] ∧
    ∃ s', sbefifo_op (fifo_peer [1, 2, 3, 4, 7, 7, 7, 7, 0xc0, 0xde, 0xa1, 0x01, 0, 0, 0, 1,
        9, 9, 9, 9, 0, 0, 0, 4]) [0, 0, 0, 3] 4 0xa101 4 = .ret (-1, none) s' ∧
      sbefifo_ffdc_get s' = (1, some [9, 9, 9, 9], 4) ∧
      (sbefifo_ffdc_get s').2.1 ≠ some (ffdc_between_payload_and_header
        [1, 2, 3, 4, 7, 7, 7, 7, 0xc0, 0xde, 0xa1, 0x01, 0, 0, 0, 1, 9, 9, 9, 9,
          0, 0, 0, 4] 4 4) := by
  refine ⟨by decide, by decide, ?_⟩
  obtain ⟨s', h1, h2, h3⟩ := sbefifo_op_framed_nonzero
    (fifo_peer [1, 2, 3, 4, 7, 7, 7, 7, 0xc0, 0xde, 0xa1, 0x01, 0, 0, 0, 1, 9, 9, 9, 9,
      0, 0, 0, 4]) [0, 0, 0, 3] 4 0xa101 4
    [1, 2, 3, 4, 7, 7, 7, 7, 0xc0, 0xde, 0xa1, 0x01, 0, 0, 0, 1, 9, 9, 9, 9, 0, 0, 0, 4] 4 1
    (by decide) (by decide) (by decide)
  obtain ⟨h4, h5⟩ := h3 rfl
  have h6 : sbefifo_ffdc_get s' = (1, some [9, 9, 9, 9], 4) := by
    simp only [sbefifo_ffdc_get, h2, h4, h5]
    decide
  refine ⟨s', h1, h6, ?_⟩
  rw [h6]
  decide

/-- C6, amended: when the exchange goes through and reads a well-framed
response with a nonzero return code `rc`, and the allocation of the FFDC
buffer succeeds, the FFDC payload stored by `sbefifo_op` and returned by
`sbefifo_ffdc_get` is made of the `4 * k - 12` response bytes lying between
the end of the status header (the return-code word) and the trailing offset
word. -/
theorem C6_ffdc_after_header (s : sbefifo) (msg : List Nat) (msg_len cmd out_len : Nat)
    (resp : List Nat) (k rc : Nat)
    (hx : exchange s msg msg_len out_len resp) (hf : well_framed resp cmd k rc)
    (hrc0 : rc ≠ 0) (hm : s.malloc_ok (s.nmallocs + 1) (4 * k - 12) = true) :
    ∃ s', sbefifo_op s msg msg_len cmd out_len = .ret (-1, none) s' ∧
      sbefifo_ffdc_get s' = (rc, some (ffdc_after_header resp k), 4 * k - 12) ∧
      (ffdc_after_header resp k).length = 4 * k - 12 := by
  obtain ⟨s', h1, h2, h3⟩ :=
    sbefifo_op_framed_nonzero s msg msg_len cmd out_len resp k rc hx hf hrc0
  obtain ⟨h4, h5⟩ := h3 hm
  refine ⟨s', h1, ?_, ?_⟩
  · simp only [sbefifo_ffdc_get, h2, h4, h5]
  · obtain ⟨_, _, _, hk3, hkn, _⟩ := hf
    simp only [ffdc_after_header, List.length_take, List.length_drop]
    omega

/-- The response of the counterexample: the stored FFDC payload is
`09 09 09 09`. -/
theorem C6_ffdc_after_header_witness :
    ∃ s', sbefifo_op (fifo_peer [1, 2, 3, 4, 7, 7, 7, 7, 0xc0, 0xde, 0xa1, 0x01, 0, 0, 0, 1,
        9, 9, 9, 9, 0, 0, 0, 4]) [0, 0, 0, 3] 4 0xa101 4 = .ret (-1, none) s' ∧
      sbefifo_ffdc_get s' = (1, some (ffdc_after_header [1, 2, 3, 4, 7, 7, 7, 7, 0xc0, 0xde,
        0xa1, 0x01, 0, 0, 0, 1, 9, 9, 9, 9, 0, 0, 0, 4] 4), 4 * 4 - 12) ∧
      (ffdc_after_header [1, 2, 3, 4, 7, 7, 7, 7, 0xc0, 0xde,
        0xa1, 0x01, 0, 0, 0, 1, 9, 9, 9, 9, 0, 0, 0, 4] 4).length = 4 * 4 - 12 :=
  C6_ffdc_after_header (fifo_peer [1, 2, 3, 4, 7, 7, 7, 7, 0xc0, 0xde, 0xa1, 0x01, 0, 0, 0, 1,
      9, 9, 9, 9, 0, 0, 0, 4]) [0, 0, 0, 3] 4 0xa101 4
    [1, 2, 3, 4, 7, 7, 7, 7, 0xc0, 0xde, 0xa1, 0x01, 0, 0, 0, 1, 9, 9, 9, 9, 0, 0, 0, 4] 4 1
    (by decide) (by decide) (by decide) rfl

/-- C7 (the code departs from the claim): `sbefifo_op` does not validate the
trailing offset word. For the command code `0xa101` and `out_len = 0`:

* on the 12-byte response `c0dea101 00000000 00000000`, whose trailing offset
  is `k = 0 < 3`, it computes the header offset 12 and reads the header word
  at the bytes 12 to 15, outside the 12 response bytes;
* on the 12-byte response `c0dea101 00000000 40000003`, whose trailing offset
  `k = 0x40000003` has `4 * k > 12`, the 32-bit product `4 * k` wraps to 12
  and the call returns 0, that is success. -/
theorem C7_bad_offset_not_rejected :
    be32_at [0xc0, 0xde, 0xa1, 0x01, 0, 0, 0, 0, 0, 0, 0, 0] (12 - 4) = some 0 ∧
    (∃ s', sbefifo_op (fifo_peer [0xc0, 0xde, 0xa1, 0x01, 0, 0, 0, 0, 0, 0, 0, 0])
        [0, 0, 0, 3] 4 0xa101 0 = .fault .out_of_bounds s') ∧
    be32_at [0xc0, 0xde, 0xa1, 0x01, 0, 0, 0, 0, 0x40, 0, 0, 3] (12 - 4) = some 0x40000003 ∧
    (∃ s', sbefifo_op (fifo_peer [0xc0, 0xde, 0xa1, 0x01, 0, 0, 0, 0, 0x40, 0, 0, 3])
        [0, 0, 0, 3] 4 0xa101 0
      = .ret (0, some [0xc0, 0xde, 0xa1, 0x01, 0, 0, 0, 0, 0x40, 0, 0, 3]) s') := by
  refine ⟨by decide, ?_, by decide, ?_⟩
  · rw [sbefifo_op_of_exchange _ _ _ _ _ [0xc0, 0xde, 0xa1, 0x01, 0, 0, 0, 0, 0, 0, 0, 0]
      (by decide)]
    exact ⟨_, rfl⟩
  · rw [sbefifo_op_of_exchange _ _ _ _ _ [0xc0, 0xde, 0xa1, 0x01, 0, 0, 0, 0, 0x40, 0, 0, 3]
      (by decide)]
    exact ⟨_, rfl⟩

/-- C8: framing errors are failures without diagnostics. When the exchange
goes through and the response is shorter than 12 bytes, or its trailing
offset word `k` places the header word and the return-code word inside the
response and the header word has upper 16 bits different from `0xc0de` or
lower 16 bits different from the command code `cmd`, then `sbefifo_op` returns
the failure code -1 and leaves the FFDC record empty with status 0, whatever
was stored before and whatever the return-code word `rc` is. A peer-reported
failure (well-framed response, nonzero return code) on the contrary leaves a
nonzero status. -/
theorem C8_framing_error_no_ffdc (s : sbefifo) (msg : List Nat) (msg_len cmd out_len : Nat)
    (resp : List Nat) (k hdr rc : Nat)
    (hx : exchange s msg msg_len out_len resp) (hwf : ffdc_wf s) (hcmd : cmd < 2 ^ 16)
    (hbad : resp.length < 12 ∨
      (resp.length < 2 ^ 32 ∧ be32_at resp (resp.length - 4) = some k ∧ 2 ≤ k ∧
        4 * k ≤ resp.length ∧ be32_at resp (resp.length - 4 * k) = some hdr ∧
        be32_at resp (resp.length - 4 * k + 4) = some rc ∧
        (hdr >>> 16 ≠ 0xc0de ∨ hdr &&& 0xffff ≠ cmd))) :
    (∃ s', sbefifo_op s msg msg_len cmd out_len = .ret (-1, none) s' ∧
      sbefifo_ffdc_get s' = (0, none, 0)) ∧
    (∀ (s2 : sbefifo) (msg2 : List Nat) (msg_len2 out_len2 : Nat) (resp2 : List Nat)
      (k2 rc2 : Nat), exchange s2 msg2 msg_len2 out_len2 resp2 →
      well_framed resp2 cmd k2 rc2 → rc2 ≠ 0 →
      ∃ s', sbefifo_op s2 msg2 msg_len2 cmd out_len2 = .ret (-1, none) s' ∧
        (sbefifo_ffdc_get s').1 ≠ 0) := by
  constructor
  · refine ⟨s.exchanged msg msg_len, ?_, exchanged_get s msg msg_len hwf⟩
    rw [sbefifo_op_of_exchange s msg msg_len cmd out_len resp hx]
    rcases hbad with hshort | ⟨h32, hk, hk2, hkn, hhdr, hrc, hmis⟩
    · rw [if_pos hshort]
    · by_cases hn : resp.length < 12
      · rw [if_pos hn]
      · rw [if_neg hn, sbefifo_op_parse_located _ _ resp k hdr rc h32 hk hk2 hkn hhdr hrc,
          Nat.mod_eq_of_lt hcmd]
        rcases hmis with hm | hc
        · rw [if_pos hm]
        · by_cases hm : hdr >>> 16 ≠ 0xc0de
          · rw [if_pos hm]
          · rw [if_neg hm, if_pos hc]
  · intro s2 msg2 msg_len2 out_len2 resp2 k2 rc2 hx2 hf2 hrc2
    obtain ⟨s', h1, h2, _⟩ :=
      sbefifo_op_framed_nonzero s2 msg2 msg_len2 cmd out_len2 resp2 k2 rc2 hx2 hf2 hrc2
    exact ⟨s', h1, by simpa [sbefifo_ffdc_get, h2] using hrc2⟩

/-- A 12-byte response whose header carries the command code `0xa401` where
`0xa101` was sent, with a nonzero return-code word, on a device that holds an
FFDC record from an earlier operation. -/
theorem C8_framing_error_no_ffdc_witness :
    (∃ s', sbefifo_op
        { fifo_peer [0xc0, 0xde, 0xa4, 0x01, 0, 0, 0, 5, 0, 0, 0, 3] with
          status := 7, ffdc := some [1, 2], ffdc_len := 2 }
        [0, 0, 0, 3] 4 0xa101 0 = .ret (-1, none) s' ∧
      sbefifo_ffdc_get s' = (0, none, 0)) ∧
    (∀ (s2 : sbefifo) (msg2 : List Nat) (msg_len2 out_len2 : Nat) (resp2 : List Nat)
      (k2 rc2 : Nat), exchange s2 msg2 msg_len2 out_len2 resp2 →
      well_framed resp2 0xa101 k2 rc2 → rc2 ≠ 0 →
      ∃ s', sbefifo_op s2 msg2 msg_len2 0xa101 out_len2 = .ret (-1, none) s' ∧
        (sbefifo_ffdc_get s').1 ≠ 0) :=
  C8_framing_error_no_ffdc
    { fifo_peer [0xc0, 0xde, 0xa4, 0x01, 0, 0, 0, 5, 0, 0, 0, 3] with
      status := 7, ffdc := some [1, 2], ffdc_len := 2 }
    [0, 0, 0, 3] 4 0xa101 0 [0xc0, 0xde, 0xa4, 0x01, 0, 0, 0, 5, 0, 0, 0, 3] 3 0xc0dea401 5
    (by decide) (by decide) (by decide) (by decide)

/-! ## Claims C9 and C10: the aligned span of get-memory -/

/-- Masking a 64-bit value with `~(uint64_t)(2^a - 1)` rounds it down to a
multiple of `2^a`. -/
theorem and_not_low_mask (x a : Nat) (hx : x < 2 ^ 64) (ha : a ≤ 64) :
    x &&& (2 ^ 64 - 1 - (2 ^ a - 1)) = x - x % 2 ^ a := by
  have hpa : 0 < 2 ^ a := Nat.two_pow_pos a
  have hle : 2 ^ a ≤ 2 ^ 64 := Nat.pow_le_pow_right (by decide) ha
  have hm : 2 ^ 64 - 1 - (2 ^ a - 1) = 2 ^ 64 - ((2 ^ a - 1) + 1) := by omega
  have hr : x - x % 2 ^ a = 2 ^ a * (x / 2 ^ a) := by
    have := Nat.div_add_mod x (2 ^ a)
    omega
  rw [hm, hr]
  apply Nat.eq_of_testBit_eq
  intro i
  rw [Nat.testBit_and, Nat.testBit_two_pow_sub_succ (by omega), Nat.testBit_two_pow_sub_one,
    Nat.testBit_mul_pow_two, ← Nat.shiftRight_eq_div_pow, Nat.testBit_shiftRight]
  by_cases hia : i < a
  · have : ¬ i ≥ a := by omega
    simp [hia, this]
  · have hge : i ≥ a := by omega
    have hai : a + (i - a) = i := by omega
    by_cases hi : i < 64
    · simp [hia, hge, hi, hai]
    · have hxi : x < 2 ^ i :=
        Nat.lt_of_lt_of_le hx (Nat.pow_le_pow_right (by decide) (by omega))
      simp [hia, hge, hi, hai, Nat.testBit_lt_two_pow hxi]

theorem getmem_align_eq (ci : Bool) : getmem_align ci = 2 ^ (if ci then 3 else 7) := by
  cases ci <;> rfl

/-- The variable `start_addr` is `addr` rounded down to a multiple of the
alignment unit. -/
theorem getmem_start_addr_eq (addr : Nat) (ci : Bool) (ha : addr < 2 ^ 64) :
    getmem_start_addr addr ci = addr - addr % getmem_align ci := by
  unfold getmem_start_addr
  rw [getmem_align_eq]
  exact and_not_low_mask addr _ ha (by cases ci <;> decide)

/-- The variable `end_addr` is the 64-bit sum `addr + size + (align - 1)` rounded
down to a multiple of the alignment unit. -/
theorem getmem_end_addr_eq (addr size : Nat) (ci : Bool) :
    getmem_end_addr addr size ci
      = (addr + size + (getmem_align ci - 1)) % 2 ^ 64
        - (addr + size + (getmem_align ci - 1)) % 2 ^ 64 % getmem_align ci := by
  unfold getmem_end_addr
  rw [getmem_align_eq]
  exact and_not_low_mask _ _ (Nat.mod_lt _ (by decide)) (by cases ci <;> decide)

/-- C9 as stated fails: for the cache-inhibited read of the last 8 bytes of the
64-bit address space, `A = 0xfffffffffffffff8` and `L = 8`, the 64-bit sum
`A + L + 7` wraps, `start_addr` is `A` and `end_addr` is 0, which is not at
least `A + L`. -/
theorem C9_end_addr_wraps :
    getmem_start_addr 0xfffffffffffffff8 true = 0xfffffffffffffff8 ∧
    getmem_end_addr 0xfffffffffffffff8 8 true = 0 ∧
    ¬ (getmem_end_addr 0xfffffffffffffff8 8 true ≥ 0xfffffffffffffff8 + 8) := by
  decide

/-- C9, amended: for every 64-bit address `A`, every length `L` and both values
of the cache-inhibited flag (`U = 8` if cache-inhibited, else 128), the
`start_addr` and `end_addr` computed by `sbefifo_op_getmem` satisfy
`start_addr ≤ A` and both are multiples of `U`; and `end_addr ≥ A + L` holds
exactly when the sum `A + L + (U - 1)` does not exceed 64 bits. -/
theorem C9_getmem_aligned_span (A L : Nat) (ci : Bool) (hA : A < 2 ^ 64) :
    getmem_align ci = (if ci then 8 else 128) ∧
    getmem_start_addr A ci ≤ A ∧
    getmem_start_addr A ci % getmem_align ci = 0 ∧
    getmem_end_addr A L ci % getmem_align ci = 0 ∧
    (getmem_end_addr A L ci ≥ A + L ↔ A + L + (getmem_align ci - 1) < 2 ^ 64) := by
  refine ⟨by cases ci <;> rfl, ?_⟩
  rw [getmem_start_addr_eq A ci hA, getmem_end_addr_eq A L ci]
  cases ci
  · simp only [getmem_align, Bool.false_eq_true, if_false]
    refine ⟨?_, ?_, ?_, ?_⟩ <;> omega
  · simp only [getmem_align, if_true]
    refine ⟨?_, ?_, ?_, ?_⟩ <;> omega

/-- The span of an unaligned 5-byte cache-inhibited read at `0x1003`. -/
theorem C9_getmem_aligned_span_witness :
    getmem_align true = (if true then 8 else 128) ∧
    getmem_start_addr 0x1003 true ≤ 0x1003 ∧
    getmem_start_addr 0x1003 true % getmem_align true = 0 ∧
    getmem_end_addr 0x1003 5 true % getmem_align true = 0 ∧
    (getmem_end_addr 0x1003 5 true ≥ 0x1003 + 5 ↔
      0x1003 + 5 + (getmem_align true - 1) < 2 ^ 64) :=
  C9_getmem_aligned_span 0x1003 5 true (by decide)

/-- The guard of `sbefifo_op_getmem` at work: when the sum `A + L + (U - 1)`
does not exceed 64 bits and the aligned span exceeds `2^32 - 1`, the function
returns `-EINVAL` at once, leaving the device untouched (nothing is written to
the transport) and the caller's buffer unwritten. -/
theorem getmem_rejects_oversized_without_wrap (s : sbefifo) (A L : Nat) (ci : Bool)
    (hA : A < 2 ^ 64) (hno : A + L + (getmem_align ci - 1) < 2 ^ 64)
    (hbig : aligned_span_math A L (getmem_align ci) > 2 ^ 32 - 1) :
    sbefifo_op_getmem s A L ci = .ret (-EINVAL, none) s := by
  have hspan : (getmem_end_addr A L ci + 2 ^ 64 - getmem_start_addr A ci) % 2 ^ 64
      > UINT32_MAX := by
    rw [getmem_start_addr_eq A ci hA, getmem_end_addr_eq A L ci]
    unfold aligned_span_math at hbig
    unfold UINT32_MAX
    cases ci
    · simp only [getmem_align, Bool.false_eq_true, if_false] at hno hbig ⊢
      omega
    · simp only [getmem_align, if_true] at hno hbig ⊢
      omega
  unfold sbefifo_op_getmem
  simp only [hspan, if_true]

/-- C10 (the code departs from the claim): for `A = 0`, `L = 2^64 - 1` and
`U = 128` the aligned span, computed as mathematical integers, is `2^64`, far
above `2^32 - 1`; but the 64-bit sum `A + L + 127` wraps, `end_addr` and
`start_addr` are both 0, the guard `end_addr - start_addr > UINT32_MAX` does
not fire, and `sbefifo_op_getmem` writes a get-memory request of length 0 to
the transport. On a peer that answers this request as it should (count word
0, header `0xc0dea401`, return code 0, trailing offset 3) the function then
copies `2^64 - 1` bytes out of the 16-byte response, an out-of-bounds access,
instead of returning an error. -/
theorem C10_oversized_request_not_rejected :
    aligned_span_math 0 (2 ^ 64 - 1) 128 > 2 ^ 32 - 1 ∧
    getmem_end_addr 0 (2 ^ 64 - 1) false = 0 ∧
    ∃ s', sbefifo_op_getmem
        (fifo_peer [0, 0, 0, 0, 0xc0, 0xde, 0xa4, 0x01, 0, 0, 0, 0, 0, 0, 0, 3])
        0 (2 ^ 64 - 1) false = .fault .out_of_bounds s' ∧
      s'.sent = [[0, 0, 0, 6, 0, 0, 0xa4, 0x01, 0, 0, 0, 2, 0, 0, 0, 0, 0, 0, 0, 0,
        0, 0, 0, 0]] := by
  refine ⟨by decide, by decide, _, rfl, rfl⟩

/-! ## Claims C14 and C12: calls refused up front -/

/-- C14: for every address with bit 60 set, `pib_indirect_read` and
`pib_indirect_write` return the failure code -1 at once: the device is
returned as it was, no primitive write and no primitive read having been
performed on it, and `*data` is left as it was. -/
theorem C14_indirect_form1_refused (p : pib) (addr data : Nat)
    (hbit : (addr >>> 60) &&& 1 = 1) :
    pib_indirect_read p addr data = (-1, data, p) ∧
    pib_indirect_write p addr data = (-1, p) ∧
    (pib_indirect_read p addr data).2.2.nwrites = p.nwrites ∧
    (pib_indirect_read p addr data).2.2.nreads = p.nreads ∧
    (pib_indirect_write p addr data).2.nwrites = p.nwrites ∧
    (pib_indirect_write p addr data).2.nreads = p.nreads := by
  have hr : pib_indirect_read p addr data = (-1, data, p) := by
    simp [pib_indirect_read, hbit]
  have hw : pib_indirect_write p addr data = (-1, p) := by
    simp [pib_indirect_write, hbit]
  rw [hr, hw]
  exact ⟨rfl, rfl, rfl, rfl, rfl, rfl⟩

/-- An indirect form 1 address, `0x9000000000000000`, on a device that has
seen nothing yet. -/
theorem C14_indirect_form1_refused_witness :
    pib_indirect_read (pib_const 0) 0x9000000000000000 5 = (-1, 5, pib_const 0) ∧
    pib_indirect_write (pib_const 0) 0x9000000000000000 5 = (-1, pib_const 0) ∧
    (pib_indirect_read (pib_const 0) 0x9000000000000000 5).2.2.nwrites
      = (pib_const 0).nwrites ∧
    (pib_indirect_read (pib_const 0) 0x9000000000000000 5).2.2.nreads
      = (pib_const 0).nreads ∧
    (pib_indirect_write (pib_const 0) 0x9000000000000000 5).2.nwrites
      = (pib_const 0).nwrites ∧
    (pib_indirect_write (pib_const 0) 0x9000000000000000 5).2.nreads
      = (pib_const 0).nreads :=
  C14_indirect_form1_refused (pib_const 0) 0x9000000000000000 5 (by decide)

/-- C12: for `U = 8` (cache-inhibited) and `U = 128` (otherwise) and every
64-bit address and length with `address mod U ≠ 0` or `length mod U ≠ 0`,
`sbefifo_op_putmem` returns the error code -1 and leaves the device as it
was: nothing has been written to the transport (nor allocated, nor read). -/
theorem C12_putmem_rejects_misaligned (s : sbefifo) (addr : Nat) (data : List Nat)
    (size : Nat) (ci : Bool)
    (hmis : addr % (if ci then 8 else 128) ≠ 0 ∨ size % (if ci then 8 else 128) ≠ 0) :
    sbefifo_op_putmem s addr data size ci = .ret (-1) s ∧
    (sbefifo_op_putmem s addr data size ci).dev.sent = s.sent := by
  have h8 : ∀ x : Nat, x &&& (8 - 1) = x % 8 := fun x => Nat.and_pow_two_sub_one_eq_mod x 3
  have h128 : ∀ x : Nat, x &&& (128 - 1) = x % 128 :=
    fun x => Nat.and_pow_two_sub_one_eq_mod x 7
  have h : sbefifo_op_putmem s addr data size ci = .ret (-1) s := by
    unfold sbefifo_op_putmem
    cases ci
    · simp only [getmem_align, Bool.false_eq_true, if_false, h128] at hmis ⊢
      rcases hmis with h | h
      · rw [if_pos h]
      · by_cases ha : addr % 128 ≠ 0
        · rw [if_pos ha]
        · rw [if_neg ha, if_pos h]
    · simp only [getmem_align, if_true, h8] at hmis ⊢
      rcases hmis with h | h
      · rw [if_pos h]
      · by_cases ha : addr % 8 ≠ 0
        · rw [if_pos ha]
        · rw [if_neg ha, if_pos h]
  rw [h]
  exact ⟨rfl, rfl⟩

/-- An aligned address with a length that is not a multiple of 128. -/
theorem C12_putmem_rejects_misaligned_witness :
    sbefifo_op_putmem (fifo_peer []) 0x1000 [1, 2, 3, 4, 5, 6, 7, 8] 8 false
      = .ret (-1) (fifo_peer []) ∧
    (sbefifo_op_putmem (fifo_peer []) 0x1000 [1, 2, 3, 4, 5, 6, 7, 8] 8 false).dev.sent
      = (fifo_peer []).sent :=
  C12_putmem_rejects_misaligned (fifo_peer []) 0x1000 [1, 2, 3, 4, 5, 6, 7, 8] 8 false
    (by decide)

/-! ## Claims C11 and C13: the memory operations -/

/-- The function `sbefifo_op_getmem` written with the names of its local
variables. -/
theorem sbefifo_op_getmem_eq (s : sbefifo) (addr size : Nat) (ci : Bool) :
    sbefifo_op_getmem s addr size ci
      = if getmem_span addr size ci > UINT32_MAX then .ret (-EINVAL, none) s
        else
          match sbefifo_op s (getmem_msg addr size ci) 24
              (SBEFIFO_CMD_CLASS_MEMORY ||| SBEFIFO_CMD_GET_MEMORY)
              ((getmem_len addr size ci + 4) % 2 ^ 32) with
          | .fault f s1 => .fault f s1
          | .ret (rc, buf) s1 =>
            if rc ≠ 0 then .ret (rc, none) s1
            else if getmem_buflen addr size ci < getmem_offset addr ci + size then
              .fault .out_of_bounds s1
            else if getmem_buflen addr size ci < getmem_len addr size ci + 4 then
              .fault .out_of_bounds s1
            else if out_be32 s s.nmallocs (buf.getD []) (getmem_len addr size ci)
                ≠ getmem_len addr size ci then
              .ret (-1, some (out_bytes s s.nmallocs (buf.getD []) (getmem_offset addr ci) size))
                s1
            else
              .ret (0, some (out_bytes s s.nmallocs (buf.getD []) (getmem_offset addr ci) size))
                s1 :=
  rfl

/-- The function `sbefifo_op_putmem` written with the names of its local
variables. -/
theorem sbefifo_op_putmem_eq (s : sbefifo) (addr : Nat) (data : List Nat) (size : Nat)
    (ci : Bool) :
    sbefifo_op_putmem s addr data size ci
      = if addr &&& (getmem_align ci - 1) ≠ 0 then .ret (-1) s
        else if size &&& (getmem_align ci - 1) ≠ 0 then .ret (-1) s
        else if size > UINT32_MAX then .ret (-1) s
        else if ¬ (s.malloc (putmem_msg_len size)).1 then
          .fault .assertion (s.malloc (putmem_msg_len size)).2
        else if putmem_msg_len size < 6 * 4 + (size &&& 0xffffffff) then
          .fault .out_of_bounds (s.malloc (putmem_msg_len size)).2
        else if data.length < (size &&& 0xffffffff) then
          .fault .out_of_bounds (s.malloc (putmem_msg_len size)).2
        else
          match sbefifo_op (s.malloc (putmem_msg_len size)).2 (putmem_msg addr data size ci)
              (putmem_msg_len size) (SBEFIFO_CMD_CLASS_MEMORY ||| SBEFIFO_CMD_PUT_MEMORY) 0 with
          | .fault f s => .fault f s
          | .ret (rc, out) s =>
            if rc ≠ 0 then .ret rc s
            else
              match be32_at (out.getD []) 0 with
              | none => .fault .out_of_bounds s
              | some count =>
                if count ≠ (size &&& 0xffffffff) then .ret (-1) s else .ret 0 s :=
  rfl

/-- When the parsing of a response returns 0, it returns the response buffer
and leaves the device as it was. -/
theorem sbefifo_op_parse_ret_zero (s : sbefifo) (cmd : Nat) (buf : List Nat)
    (o : Option (List Nat)) (s2 : sbefifo)
    (h : sbefifo_op_parse s cmd buf = .ret (0, o) s2) : o = some buf ∧ s2 = s := by
  unfold sbefifo_op_parse at h
  generalize 2 ^ 64 = a at h
  generalize 2 ^ 32 = b at h
  generalize 2 ^ 16 = c at h
  dsimp only at h
  split at h
  · exact absurd h (by simp)
  · split at h
    · exact absurd h (by simp)
    · split at h
      · exact absurd h (by simp)
      · split at h
        · exact absurd h (by simp)
        · split at h
          · exact absurd h (by simp)
          · split at h
            · simp only [Outcome.ret.injEq, Prod.mk.injEq, true_and] at h
              exact ⟨h.1.symm, h.2.symm⟩
            · split at h
              · exact absurd h (by simp)
              · exact absurd h (by simp)

/-- When the exchange goes through and `sbefifo_op` returns 0, it returns the
response read. -/
theorem sbefifo_op_ret_zero (s : sbefifo) (msg : List Nat) (msg_len cmd out_len : Nat)
    (resp : List Nat) (o : Option (List Nat)) (s2 : sbefifo)
    (hx : exchange s msg msg_len out_len resp)
    (h : sbefifo_op s msg msg_len cmd out_len = .ret (0, o) s2) :
    o = some resp ∧ s2 = s.exchanged msg msg_len ∧ 12 ≤ resp.length := by
  rw [sbefifo_op_of_exchange s msg msg_len cmd out_len resp hx] at h
  split at h
  · exact absurd h (by simp)
  · obtain ⟨h1, h2⟩ := sbefifo_op_parse_ret_zero _ _ _ _ _ h
    exact ⟨h1, h2, by omega⟩

/-- The slice that `sbefifo_op_getmem` copies lies inside the aligned block:
for a 64-bit address, a span that passes the size guard and a length `L` well
below `2^64`, `offset` is `A - start_addr` and `offset + L ≤ len`. -/
theorem getmem_slice_in_block (A L : Nat) (ci : Bool) (hA : A < 2 ^ 64) (hL : L < 2 ^ 34)
    (hspan : ¬ getmem_span A L ci > UINT32_MAX) :
    getmem_offset A ci = A - getmem_start_addr A ci ∧
    getmem_offset A ci + L ≤ getmem_len A L ci := by
  unfold getmem_len
  unfold getmem_offset getmem_span UINT32_MAX at *
  rw [getmem_start_addr_eq A ci hA, getmem_end_addr_eq A L ci] at *
  cases ci
  · simp only [getmem_align, Bool.false_eq_true, if_false] at *
    omega
  · simp only [getmem_align, if_true] at *
    omega

/-- Inside the bytes stored by `read(2)` the buffer `*out` holds the response:
the bytes that `memcpy` copies from there are the bytes of the response. -/
theorem out_bytes_in_response (s : sbefifo) (blk : Nat) (resp : List Nat) (off n : Nat)
    (h : off + n ≤ resp.length) : out_bytes s blk resp off n = (resp.drop off).take n := by
  unfold out_bytes
  apply List.ext_getElem
  · simp only [List.length_map, List.length_range, List.length_take, List.length_drop]
    omega
  · intro i h1 h2
    simp only [List.length_map, List.length_range] at h1
    have hi : off + i < resp.length := by omega
    simp only [List.getElem_map, List.getElem_range, out_byte, if_pos hi, List.getElem_take,
      List.getElem_drop]
    exact List.getD_eq_getElem resp 0 hi

/-- Inside the bytes stored by `read(2)` the buffer `*out` holds the response:
a word read from there is the word of the response. -/
theorem out_be32_in_response (s : sbefifo) (blk : Nat) (resp : List Nat) (off : Nat)
    (h : off + 4 ≤ resp.length) : be32_at resp off = some (out_be32 s blk resp off) := by
  have h0 : off < resp.length := by omega
  have h1 : off + 1 < resp.length := by omega
  have h2 : off + 2 < resp.length := by omega
  have h3 : off + 3 < resp.length := by omega
  unfold be32_at out_be32 out_byte
  rw [if_pos h, if_pos h0, if_pos h1, if_pos h2, if_pos h3]

/-- What a successful `sbefifo_op_getmem` has done, when the exchange read the
response `resp`: the span passed the size guard, the bytes to copy lie inside
the buffer, the word read at offset `len` of the buffer is `len`, and the
bytes copied are those at `offset` in the buffer. -/
theorem sbefifo_op_getmem_ret_zero (s : sbefifo) (A L : Nat) (ci : Bool) (resp : List Nat)
    (d : Option (List Nat)) (s' : sbefifo)
    (hx : exchange s (getmem_msg A L ci) 24 ((getmem_len A L ci + 4) % 2 ^ 32) resp)
    (hret : sbefifo_op_getmem s A L ci = .ret (0, d) s') :
    ¬ getmem_span A L ci > UINT32_MAX ∧
    getmem_offset A ci + L ≤ getmem_buflen A L ci ∧
    out_be32 s s.nmallocs resp (getmem_len A L ci) = getmem_len A L ci ∧
    d = some (out_bytes s s.nmallocs resp (getmem_offset A ci) L) := by
  rw [sbefifo_op_getmem_eq] at hret
  split at hret
  · exact absurd hret (by simp [EINVAL])
  · rename_i hg
    split at hret
    · exact absurd hret (by simp)
    · rename_i rc out s2 hop
      split at hret
      · rename_i hrc
        simp only [Outcome.ret.injEq, Prod.mk.injEq] at hret
        exact absurd hret.1.1 hrc
      · rename_i hrc
        have hrc0 : rc = 0 := by simpa using hrc
        subst hrc0
        obtain ⟨ho, _, _⟩ := sbefifo_op_ret_zero _ _ _ _ _ resp _ _ hx hop
        subst ho
        simp only [Option.getD_some] at hret
        split at hret
        · exact absurd hret (by simp)
        · rename_i hin
          split at hret
          · exact absurd hret (by simp)
          · split at hret
            · exact absurd hret (by simp)
            · rename_i hc
              simp only [Outcome.ret.injEq, Prod.mk.injEq, true_and] at hret
              exact ⟨hg, by omega, by simpa using hc, hret.1.symm⟩

/-- The claim C11 holds of every response that carries the aligned block and
its count word before the status header. For every 64-bit address `A`, every
length `L` and both values of the flag, whenever `sbefifo_op_getmem` returns 0
after an exchange that read a response `resp` whose payload, the bytes before
the status header at `n - 4 * k`, has at least `len + 4` bytes, the bytes
written to the caller's buffer are exactly the `L` bytes at offsets
`A - start_addr .. A - start_addr + L - 1` of the aligned block, the first
`len` bytes of the payload, and the count word that follows the block in the
payload is `len`. -/
theorem getmem_slice_of_payload (s : sbefifo) (A L : Nat) (ci : Bool) (resp : List Nat)
    (k : Nat) (d : Option (List Nat)) (s' : sbefifo) (hA : A < 2 ^ 64)
    (hx : exchange s (getmem_msg A L ci) 24 ((getmem_len A L ci + 4) % 2 ^ 32) resp)
    (hfull : getmem_len A L ci + 4 ≤ resp.length - 4 * k)
    (hret : sbefifo_op_getmem s A L ci = .ret (0, d) s') :
    d = some ((((resp.take (resp.length - 4 * k)).take (getmem_len A L ci)).drop
      (A - getmem_start_addr A ci)).take L) ∧
    ((((resp.take (resp.length - 4 * k)).take (getmem_len A L ci)).drop
      (A - getmem_start_addr A ci)).take L).length = L ∧
    A - getmem_start_addr A ci + L ≤ getmem_len A L ci ∧
    be32_at (resp.take (resp.length - 4 * k)) (getmem_len A L ci)
      = some (getmem_len A L ci) := by
  obtain ⟨hg, hin, hcount, hd⟩ := sbefifo_op_getmem_ret_zero s A L ci resp d s' hx hret
  have hL : L < 2 ^ 34 := by
    unfold getmem_buflen at hin
    omega
  obtain ⟨hoff, hblk⟩ := getmem_slice_in_block A L ci hA hL hg
  rw [hoff] at hblk hd
  have hslice : (((resp.take (resp.length - 4 * k)).take (getmem_len A L ci)).drop
      (A - getmem_start_addr A ci)).take L = (resp.drop (A - getmem_start_addr A ci)).take L := by
    rw [List.take_take, List.drop_take, List.take_take]
    congr 1
    omega
  rw [hslice, hd, out_bytes_in_response s s.nmallocs resp _ L (by omega)]
  refine ⟨rfl, ?_, hblk, ?_⟩
  · simp only [List.length_take, List.length_drop]
    omega
  · have hw := out_be32_in_response s s.nmallocs resp (getmem_len A L ci) (by omega)
    rw [hcount] at hw
    rw [← hw]
    unfold be32_at
    have h1 : getmem_len A L ci + 4 ≤ (resp.take (resp.length - 4 * k)).length := by
      simp only [List.length_take]
      omega
    rw [if_pos h1, if_pos (by omega)]
    have hget : ∀ j, j < resp.length - 4 * k →
        (resp.take (resp.length - 4 * k)).getD j 0 = resp.getD j 0 := by
      intro j hj
      rw [List.getD_eq_getElem?_getD, List.getD_eq_getElem?_getD, List.getElem?_take_of_lt hj]
    rw [hget _ (by omega), hget _ (by omega), hget _ (by omega), hget _ (by omega)]

/-- C11 (the code departs from the claim): the 16-byte response
`c0dea401 00000000 00000008 00000004` is well framed for the command `0xa401`
with trailing offset 4 and return code 0, so its status header is at byte 0
and its payload is empty. The cache-inhibited `sbefifo_op_getmem` of the 8
bytes at address 0 (`len = 8`, `offset = 0`) copies the first 8 bytes of the
buffer, finds the word `00000008` at offset 8 and returns 0: the caller's
buffer holds the status header `c0 de a4 01 00 00 00 00`, no byte of a
payload. -/
theorem C11_getmem_copies_status_header :
    well_framed [0xc0, 0xde, 0xa4, 0x01, 0, 0, 0, 0, 0, 0, 0, 8, 0, 0, 0, 4] 0xa401 4 0 ∧
    [0xc0, 0xde, 0xa4, 0x01, 0, 0, 0, 0, 0, 0, 0, 8, 0, 0, 0, 4].take
      ([0xc0, 0xde, 0xa4, 0x01, 0, 0, 0, 0, 0, 0, 0, 8, 0, 0, 0, 4].length - 4 * 4) = [] ∧
    getmem_len 0 8 true = 8 ∧ getmem_offset 0 true = 0 ∧
    ∃ s', sbefifo_op_getmem
        (fifo_peer [0xc0, 0xde, 0xa4, 0x01, 0, 0, 0, 0, 0, 0, 0, 8, 0, 0, 0, 4]) 0 8 true
      = .ret (0, some [0xc0, 0xde, 0xa4, 0x01, 0, 0, 0, 0]) s' :=
  ⟨by decide, by decide, by decide, by decide, _, rfl⟩

/-- The function `sbefifo_op_getmem` once its request has been answered by a
well-framed response with return code 0. -/
theorem sbefifo_op_getmem_framed (s : sbefifo) (A L : Nat) (ci : Bool) (resp : List Nat)
    (k : Nat) (hspan : ¬ getmem_span A L ci > UINT32_MAX)
    (hx : exchange s (getmem_msg A L ci) 24 ((getmem_len A L ci + 4) % 2 ^ 32) resp)
    (hf : well_framed resp 0xa401 k 0) :
    sbefifo_op_getmem s A L ci
      = if getmem_buflen A L ci < getmem_offset A ci + L then
          .fault .out_of_bounds (s.exchanged (getmem_msg A L ci) 24)
        else if getmem_buflen A L ci < getmem_len A L ci + 4 then
          .fault .out_of_bounds (s.exchanged (getmem_msg A L ci) 24)
        else if out_be32 s s.nmallocs resp (getmem_len A L ci) ≠ getmem_len A L ci then
          .ret (-1, some (out_bytes s s.nmallocs resp (getmem_offset A ci) L))
            (s.exchanged (getmem_msg A L ci) 24)
        else
          .ret (0, some (out_bytes s s.nmallocs resp (getmem_offset A ci) L))
            (s.exchanged (getmem_msg A L ci) 24) := by
  rw [sbefifo_op_getmem_eq, if_neg hspan,
    sbefifo_op_framed_zero s (getmem_msg A L ci) 24
      (SBEFIFO_CMD_CLASS_MEMORY ||| SBEFIFO_CMD_GET_MEMORY) _ resp k hx hf]
  simp only [ne_eq, not_true_eq_false, if_false, Option.getD_some]

/-- For an aligned length below `2^32 - 24` the message of `sbefifo_op_putmem`
is `24 + size` bytes long. -/
theorem putmem_msg_len_eq (size : Nat) (h : 24 + size < 2 ^ 32) :
    size &&& 0xffffffff = size ∧ putmem_msg_len size = 24 + size := by
  have h1 : size &&& 0xffffffff = size := by
    have := Nat.and_pow_two_sub_one_eq_mod size 32
    have h2 : size % 2 ^ 32 = size := Nat.mod_eq_of_lt (by omega)
    rw [h2] at this
    exact this
  refine ⟨h1, ?_⟩
  unfold putmem_msg_len
  rw [h1]
  omega

theorem and_align_mask (x : Nat) (ci : Bool) :
    x &&& (getmem_align ci - 1) = x % (if ci then 8 else 128) := by
  cases ci
  · exact Nat.and_pow_two_sub_one_eq_mod x 7
  · exact Nat.and_pow_two_sub_one_eq_mod x 3

/-- The function `sbefifo_op_putmem` on aligned arguments whose message fits
32 bits, once the message buffer is allocated and the request has been
answered by a well-framed response with return code 0. -/
theorem sbefifo_op_putmem_framed (s : sbefifo) (addr : Nat) (data : List Nat) (size : Nat)
    (ci : Bool) (resp : List Nat) (k : Nat)
    (ha : addr % (if ci then 8 else 128) = 0) (hs : size % (if ci then 8 else 128) = 0)
    (hfit : 24 + size < 2 ^ 32) (hdata : size ≤ data.length)
    (hm : s.malloc_ok s.nmallocs (24 + size) = true)
    (hx : exchange (s.malloc (24 + size)).2 (putmem_msg addr data size ci) (24 + size) 0 resp)
    (hf : well_framed resp 0xa402 k 0) :
    sbefifo_op_putmem s addr data size ci
      = match be32_at resp 0 with
        | none => .fault .out_of_bounds
            ((s.malloc (24 + size)).2.exchanged (putmem_msg addr data size ci) (24 + size))
        | some count =>
          if count ≠ size then
            .ret (-1) ((s.malloc (24 + size)).2.exchanged (putmem_msg addr data size ci)
              (24 + size))
          else
            .ret 0 ((s.malloc (24 + size)).2.exchanged (putmem_msg addr data size ci)
              (24 + size)) := by
  obtain ⟨h1, h2⟩ := putmem_msg_len_eq size hfit
  have hu : ¬ size > UINT32_MAX := by unfold UINT32_MAX; omega
  have hm' : (s.malloc (24 + size)).1 = true := hm
  rw [sbefifo_op_putmem_eq, and_align_mask, and_align_mask, h1, h2, if_neg (by simpa using ha),
    if_neg (by simpa using hs), if_neg hu, if_neg (by simpa using hm'), if_neg (by omega),
    if_neg (by omega),
    sbefifo_op_framed_zero _ (putmem_msg addr data size ci) (24 + size)
      (SBEFIFO_CMD_CLASS_MEMORY ||| SBEFIFO_CMD_PUT_MEMORY) 0 resp k hx hf]
  simp only [ne_eq, not_true_eq_false, if_false, Option.getD_some]

/-- What a successful `sbefifo_op_putmem` has seen, when the exchange read the
response `resp`: the count word at the start of the response is the requested
length. -/
theorem sbefifo_op_putmem_ret_zero (s : sbefifo) (addr : Nat) (data : List Nat) (size : Nat)
    (ci : Bool) (resp : List Nat) (s' : sbefifo)
    (hx : exchange (s.malloc (putmem_msg_len size)).2 (putmem_msg addr data size ci)
      (putmem_msg_len size) 0 resp)
    (hret : sbefifo_op_putmem s addr data size ci = .ret 0 s') :
    be32_at resp 0 = some size := by
  rw [sbefifo_op_putmem_eq] at hret
  split at hret
  · exact absurd hret (by simp)
  · split at hret
    · exact absurd hret (by simp)
    · split at hret
      · exact absurd hret (by simp)
      · rename_i hu
        have hsz : size &&& 0xffffffff = size := by
          have := Nat.and_pow_two_sub_one_eq_mod size 32
          have h2 : size % 2 ^ 32 = size := Nat.mod_eq_of_lt (by unfold UINT32_MAX at hu; omega)
          rw [h2] at this
          exact this
        split at hret
        · exact absurd hret (by simp)
        · split at hret
          · exact absurd hret (by simp)
          · split at hret
            · exact absurd hret (by simp)
            · split at hret
              · exact absurd hret (by simp)
              · rename_i rc out s2 hop
                split at hret
                · rename_i hrc
                  simp only [Outcome.ret.injEq] at hret
                  exact absurd hret.1 hrc
                · rename_i hrc
                  have hrc0 : rc = 0 := by simpa using hrc
                  subst hrc0
                  obtain ⟨ho, _, _⟩ := sbefifo_op_ret_zero _ _ _ _ _ resp _ _ hx hop
                  subst ho
                  simp only [Option.getD_some] at hret
                  split at hret
                  · exact absurd hret (by simp)
                  · rename_i count hcount
                    split at hret
                    · exact absurd hret (by simp)
                    · rename_i hc
                      have hc' : count = size &&& 0xffffffff := by simpa using hc
                      rw [hcount, hc', hsz]

/-- The transferred-count check on responses that hold the count word, when
the peer's response is well framed with return code 0.

* `sbefifo_op_putmem`, on aligned arguments whose message fits 32 bits and
  with its buffers allocated, returns 0 when the big-endian count word at the
  start of the response equals the requested length, and -1 for any other
  count value.
* `sbefifo_op_getmem`, on a span that passes the size guard and with the bytes
  to copy inside the response, returns 0 when the big-endian count word at
  byte offset `len` of the response equals the aligned length `len`, and -1
  for any other count value.
* Whatever the arguments and the response read, `sbefifo_op_putmem` returns 0
  only if the count word at the start of the response equals the requested
  length; and on a response of at least `len + 4` bytes `sbefifo_op_getmem`
  returns 0 only if the count word at byte offset `len` equals `len`. -/
theorem transferred_count_check_in_response :
    (∀ (s : sbefifo) (addr : Nat) (data : List Nat) (size : Nat) (ci : Bool)
      (resp : List Nat) (k : Nat),
      addr % (if ci then 8 else 128) = 0 → size % (if ci then 8 else 128) = 0 →
      24 + size < 2 ^ 32 → size ≤ data.length →
      s.malloc_ok s.nmallocs (24 + size) = true →
      exchange (s.malloc (24 + size)).2 (putmem_msg addr data size ci) (24 + size) 0 resp →
      well_framed resp 0xa402 k 0 →
      ∃ count s', be32_at resp 0 = some count ∧
        sbefifo_op_putmem s addr data size ci = .ret (if count = size then 0 else -1) s') ∧
    (∀ (s : sbefifo) (A L : Nat) (ci : Bool) (resp : List Nat) (k count : Nat),
      ¬ getmem_span A L ci > UINT32_MAX →
      exchange s (getmem_msg A L ci) 24 ((getmem_len A L ci + 4) % 2 ^ 32) resp →
      well_framed resp 0xa401 k 0 →
      be32_at resp (getmem_len A L ci) = some count →
      getmem_offset A ci + L ≤ resp.length →
      ∃ d s', sbefifo_op_getmem s A L ci
        = .ret (if count = getmem_len A L ci then 0 else -1, d) s') ∧
    (∀ (s : sbefifo) (addr : Nat) (data : List Nat) (size : Nat) (ci : Bool)
      (resp : List Nat) (s' : sbefifo),
      exchange (s.malloc (putmem_msg_len size)).2 (putmem_msg addr data size ci)
        (putmem_msg_len size) 0 resp →
      sbefifo_op_putmem s addr data size ci = .ret 0 s' → be32_at resp 0 = some size) ∧
    (∀ (s : sbefifo) (A L : Nat) (ci : Bool) (resp : List Nat) (d : Option (List Nat))
      (s' : sbefifo),
      exchange s (getmem_msg A L ci) 24 ((getmem_len A L ci + 4) % 2 ^ 32) resp →
      getmem_len A L ci + 4 ≤ resp.length →
      sbefifo_op_getmem s A L ci = .ret (0, d) s' →
      be32_at resp (getmem_len A L ci) = some (getmem_len A L ci)) := by
  refine ⟨?_, ?_, ?_, ?_⟩
  · intro s addr data size ci resp k ha hs hfit hdata hm hx hf
    rw [sbefifo_op_putmem_framed s addr data size ci resp k ha hs hfit hdata hm hx hf]
    have hn : 0 + 4 ≤ resp.length := by
      have := hf.1
      omega
    cases hc : be32_at resp 0 with
    | none =>
      unfold be32_at at hc
      rw [if_pos hn] at hc
      exact absurd hc (by simp)
    | some count =>
      refine ⟨count,
        (s.malloc (24 + size)).2.exchanged (putmem_msg addr data size ci) (24 + size), rfl, ?_⟩
      by_cases h : count = size
      · simp only [h, ne_eq, not_true_eq_false, if_false, if_true]
      · simp only [h, ne_eq, not_false_eq_true, if_true, if_false]
  · intro s A L ci resp k count hspan hx hf hc hin
    have hcap : resp.length ≤ getmem_buflen A L ci := hx.2.2.2.2.2.2
    have hlen := be32_at_some _ _ _ hc
    have hw := out_be32_in_response s s.nmallocs resp (getmem_len A L ci) hlen
    rw [hc, Option.some.injEq] at hw
    rw [sbefifo_op_getmem_framed s A L ci resp k hspan hx hf, if_neg (by omega),
      if_neg (by omega), ← hw]
    refine ⟨some (out_bytes s s.nmallocs resp (getmem_offset A ci) L),
      s.exchanged (getmem_msg A L ci) 24, ?_⟩
    by_cases h : count = getmem_len A L ci
    · simp only [h, ne_eq, not_true_eq_false, if_false, if_true]
    · simp only [h, ne_eq, not_false_eq_true, if_true, if_false]
  · intro s addr data size ci resp s' hx hret
    exact sbefifo_op_putmem_ret_zero s addr data size ci resp s' hx hret
  · intro s A L ci resp d s' hx hlen hret
    rw [out_be32_in_response s s.nmallocs resp (getmem_len A L ci) hlen,
      (sbefifo_op_getmem_ret_zero s A L ci resp d s' hx hret).2.2.1]

/-- C13 (the code departs from the claim): the bare 12-byte status
`c0dea401 00000000 00000003` is well framed for the command `0xa401` with
return code 0 and has no word at byte offset 16. The cache-inhibited
`sbefifo_op_getmem` of the 16 bytes at address 0 (`len = 16`) reads its count
at offset 16 of the buffer all the same, beyond the 12 bytes that `read(2)`
stored: in a block whose bytes 16 to 19 were left as `00 00 00 10` it finds
the count 16 and returns 0, handing the caller the 12 bytes of the status and
4 bytes of the heap; in a block of zero bytes it finds the count 0 and
returns -1. -/
theorem C13_stale_count_accepted :
    well_framed [0xc0, 0xde, 0xa4, 0x01, 0, 0, 0, 0, 0, 0, 0, 3] 0xa401 3 0 ∧
    getmem_len 0 16 true = 16 ∧
    be32_at [0xc0, 0xde, 0xa4, 0x01, 0, 0, 0, 0, 0, 0, 0, 3] 16 = none ∧
    (∃ s', sbefifo_op_getmem
        (stale_count_peer [0xc0, 0xde, 0xa4, 0x01, 0, 0, 0, 0, 0, 0, 0, 3]) 0 16 true
      = .ret (0, some [0xc0, 0xde, 0xa4, 0x01, 0, 0, 0, 0, 0, 0, 0, 3, 0, 0, 0, 0]) s') ∧
    (∃ s', sbefifo_op_getmem
        (fifo_peer [0xc0, 0xde, 0xa4, 0x01, 0, 0, 0, 0, 0, 0, 0, 3]) 0 16 true
      = .ret (-1, some [0xc0, 0xde, 0xa4, 0x01, 0, 0, 0, 0, 0, 0, 0, 3, 0, 0, 0, 0]) s') :=
  ⟨by decide, by decide, by decide, ⟨_, rfl⟩, ⟨_, rfl⟩⟩

/-! ## Claims C17 to C20 -/

set_option maxRecDepth 100000 in
/-- C17 as stated fails: on the 144-byte scenario response with the trailing
offset word 2, `sbefifo_op` with the command code `0xa401` takes the word at
byte offset `144 - 8`, the return-code word `0x00000000`, for the header, finds
no magic in it and returns -1 without a payload. -/
theorem C17_scenario_offset_two_fails :
    (scenario_response 2).length = 144 ∧
    be32_at (scenario_response 2) (144 - 4 * 2) = some 0 ∧
    ∃ s', sbefifo_op (fifo_peer (scenario_response 2)) (getmem_msg 0 128 false) 24 0xa401 132
      = .ret (-1, none) s' := by
  refine ⟨by decide, by decide, ?_⟩
  rw [sbefifo_op_of_exchange _ _ _ _ _ (scenario_response 2) (by decide)]
  exact ⟨_, rfl⟩

set_option maxRecDepth 100000 in
/-- C17, amended: the 144-byte response laid out as 128 payload bytes
(`0xDEADBEEF` repeated 32 times), count word `0x00000080`, header word
`0xc0dea401`, return-code word 0 and trailing offset word `0x00000003` (the
header lies three words before the end), given to `sbefifo_op` with the
command code `0xa401`, parses successfully: the call returns 0 with a buffer
whose first 128 bytes are the payload, and leaves no FFDC (status 0, no
payload). -/
theorem C17_scenario_offset_three_succeeds :
    (scenario_response 3).length = 144 ∧
    ∃ out s', sbefifo_op (fifo_peer (scenario_response 3)) (getmem_msg 0 128 false) 24
        0xa401 132 = .ret (0, some out) s' ∧
      out.take 128 = deadbeef_payload ∧ deadbeef_payload.length = 128 ∧
      sbefifo_ffdc_get s' = (0, none, 0) := by
  refine ⟨by decide, scenario_response 3, _,
    sbefifo_op_framed_zero _ _ _ _ _ (scenario_response 3) 3 (by decide) (by decide),
    by decide, by decide, ?_⟩
  exact exchanged_get _ _ _ (fifo_peer_ffdc_wf _)

/-- The function `sbefifo_op_istep` written with the name of its message. -/
theorem sbefifo_op_istep_eq (s : sbefifo) (major minor : Nat) :
    sbefifo_op_istep s major minor
      = match sbefifo_op s (istep_msg major minor) 12
            (SBEFIFO_CMD_CLASS_CONTROL ||| SBEFIFO_CMD_EXECUTE_ISTEP) 0 with
        | .fault f s => .fault f s
        | .ret (rc, _) s => if rc ≠ 0 then .ret rc s else .ret 0 s :=
  rfl

/-- The function `sbefifo_ffdc_set` writes nothing to the transport. -/
theorem sbefifo_ffdc_set_sent (s : sbefifo) (buf : List Nat) (off buflen status : Nat)
    (o : Outcome Unit) (ho : sbefifo_ffdc_set s buf off buflen status = o) :
    o.dev.sent = s.sent := by
  subst ho
  unfold sbefifo_ffdc_set
  simp only [sbefifo.malloc]
  repeat' split
  all_goals rfl

/-- The parsing of the response writes nothing to the transport. -/
theorem sbefifo_op_parse_sent (s : sbefifo) (cmd : Nat) (buf : List Nat) :
    (sbefifo_op_parse s cmd buf).dev.sent = s.sent := by
  unfold sbefifo_op_parse
  generalize 2 ^ 64 = a
  generalize 2 ^ 32 = b
  generalize 2 ^ 16 = c
  dsimp only
  split
  · rfl
  · split
    · rfl
    · split
      · rfl
      · split
        · rfl
        · split
          · rfl
          · split
            · rfl
            · split
              · rename_i h
                exact sbefifo_ffdc_set_sent s buf _ _ _ _ h
              · rename_i h
                exact sbefifo_ffdc_set_sent s buf _ _ _ _ h

/-- The function `sbefifo_op_read` writes nothing to the transport. -/
theorem sbefifo_op_read_sent (s : sbefifo) (n : Nat) :
    (sbefifo_op_read s n).dev.sent = s.sent := by
  unfold sbefifo_op_read
  dsimp only
  repeat' split
  all_goals rfl

/-- The function `sbefifo_op_write` hands the first `buflen` bytes of its buffer
to `write(2)`. -/
theorem sbefifo_op_write_sent (s : sbefifo) (buf : List Nat) (n : Nat)
    (hlen : n ≤ buf.length) :
    (sbefifo_op_write s buf n).dev.sent = s.sent ++ [buf.take n] := by
  have hlen2 : ¬ buf.length < n := by omega
  unfold sbefifo_op_write
  rw [if_neg hlen2]
  dsimp only
  repeat' split
  all_goals rfl

/-- Once its buffer is allocated, `sbefifo_op` hands exactly one buffer to
`write(2)`: the first `msg_len` bytes of the message. -/
theorem sbefifo_op_sent (s : sbefifo) (msg : List Nat) (msg_len cmd out_len : Nat)
    (h0 : 0 < msg_len) (hlen : msg_len ≤ msg.length)
    (hm : s.malloc_ok s.nmallocs ((out_len + 0x2000) % 2 ^ 64) = true) :
    (sbefifo_op s msg msg_len cmd out_len).dev.sent = s.sent ++ [msg.take msg_len] := by
  have hc : (sbefifo_ffdc_clear s).malloc_ok = s.malloc_ok ∧
      (sbefifo_ffdc_clear s).nmallocs = s.nmallocs ∧
      (sbefifo_ffdc_clear s).sent = s.sent := by
    unfold sbefifo_ffdc_clear
    cases s.ffdc <;> simp
  obtain ⟨c1, c2, c3⟩ := hc
  unfold sbefifo_op
  generalize (out_len + 0x2000) % 2 ^ 64 = B at hm ⊢
  generalize cmd % 2 ^ 16 = c
  generalize sbefifo_ffdc_clear s = s1 at c1 c2 c3 ⊢
  have hm' : s1.malloc_ok s1.nmallocs B = true := by rw [c1, c2]; exact hm
  rw [← c3]
  dsimp only [sbefifo.malloc]
  rw [if_neg (not_not.mpr h0), if_neg (by simpa using hm')]
  have hw := sbefifo_op_write_sent { s1 with nmallocs := s1.nmallocs + 1 } msg msg_len hlen
  split
  · rename_i h
    rw [h] at hw
    exact hw
  · rename_i sw h
    rw [h] at hw
    simp only [Outcome.dev] at hw
    split
    · exact hw
    · have hr := sbefifo_op_read_sent sw B
      split
      · rename_i h'
        rw [h'] at hr
        exact hr.trans hw
      · rename_i h'
        rw [h'] at hr
        simp only [Outcome.dev] at hr
        split
        · exact hr.trans hw
        · split
          · exact hr.trans hw
          · rw [sbefifo_op_parse_sent]
            exact hr.trans hw

/-- The payload word of execute-step: only the low byte of `major` and of
`minor` enter it. -/
theorem istep_step_eq (major minor : Nat) :
    (((major &&& 0xff) <<< 16) ||| (minor &&& 0xff)) % 2 ^ 32
      = major % 256 * 2 ^ 16 + minor % 256 := by
  have h1 : major &&& 0xff = major % 256 := Nat.and_pow_two_sub_one_eq_mod major 8
  have h2 : minor &&& 0xff = minor % 256 := Nat.and_pow_two_sub_one_eq_mod minor 8
  have h3 : minor % 256 < 2 ^ 16 := by omega
  rw [h1, h2, Nat.shiftLeft_eq, Nat.mul_comm, ← Nat.mul_add_lt_is_or h3]
  omega

/-- The twelve bytes of the execute-step request. -/
theorem istep_msg_bytes (major minor : Nat) :
    istep_msg major minor
      = [0, 0, 0, 3, 0, 0, 0xa1, 0x01, 0, major % 256, 0, minor % 256] := by
  unfold istep_msg
  rw [istep_step_eq]
  have h : htobe32 (major % 256 * 2 ^ 16 + minor % 256) = [0, major % 256, 0, minor % 256] := by
    unfold htobe32
    congr 1
    · omega
    · congr 1
      · omega
      · congr 1
        · omega
        · congr 1
          omega
  rw [h]
  rfl

/-- The result of `sbefifo_op` on a response that is well framed for the command
code `c`: success when `c` is the command code sent and the return code is 0,
failure otherwise. -/
theorem sbefifo_op_framed (s : sbefifo) (msg : List Nat) (msg_len cmd out_len : Nat)
    (resp : List Nat) (c k rc : Nat) (hcmd : cmd < 2 ^ 16)
    (hx : exchange s msg msg_len out_len resp) (hf : well_framed resp c k rc) :
    ∃ o s', sbefifo_op s msg msg_len cmd out_len
      = .ret (if c = cmd ∧ rc = 0 then 0 else -1, o) s' := by
  by_cases hc : c = cmd
  · subst hc
    by_cases hrc : rc = 0
    · subst hrc
      refine ⟨some resp, s.exchanged msg msg_len, ?_⟩
      rw [sbefifo_op_framed_zero s msg msg_len c out_len resp k hx hf]
      simp
    · obtain ⟨s', h, _⟩ := sbefifo_op_framed_nonzero s msg msg_len c out_len resp k rc hx hf hrc
      refine ⟨none, s', ?_⟩
      rw [h]
      simp [hrc]
  · obtain ⟨hdr, hhdr, hmagic, hlow⟩ := well_framed_header resp c k rc hf
    obtain ⟨hn, h32, hk, hk3, hkn, _, _, hrcw⟩ := hf
    refine ⟨none, s.exchanged msg msg_len, ?_⟩
    rw [sbefifo_op_of_exchange s msg msg_len cmd out_len resp hx, if_neg (by omega),
      sbefifo_op_parse_located _ _ resp k hdr rc h32 hk (by omega) hkn hhdr hrcw,
      Nat.mod_eq_of_lt hcmd, if_neg (by simpa using hmagic), hlow, if_pos hc]
    simp [hc]

/-- Decoding the big-endian encoding of a word gives the word back. -/
theorem be32_at_htobe32 (x : Nat) : be32_at (htobe32 x) 0 = some (x % 2 ^ 32) := by
  unfold be32_at htobe32
  simp only [List.length_cons, List.length_nil, List.getD_cons_succ, List.getD_cons_zero]
  rw [if_pos (by omega)]
  congr 1
  omega

/-- The first word of a message that starts with the encoding of `x`. -/
theorem be32_at_htobe32_append (x : Nat) (rest : List Nat) :
    be32_at (htobe32 x ++ rest) 0 = some (x % 2 ^ 32) := by
  have h := be32_at_htobe32 x
  have hl : (htobe32 x).length = 4 := rfl
  unfold be32_at at h ⊢
  rw [if_pos (by omega)] at h
  rw [if_pos (by rw [List.length_append]; omega)]
  rw [← h]
  simp only [Nat.zero_add]
  rw [List.getD_append _ _ _ 0 (by omega), List.getD_append _ _ _ 1 (by omega),
    List.getD_append _ _ _ 2 (by omega), List.getD_append _ _ _ 3 (by omega)]

theorem htobe32_length (x : Nat) : (htobe32 x).length = 4 := rfl

/-- C19: for all `major` and `minor`, once the response buffer is allocated the
request that `sbefifo_op_istep` writes to the transport is exactly 12 bytes,
the big-endian encodings of the words 3, `0x0000A101` and
`(major mod 256) * 2^16 + (minor mod 256)`: only the low byte of `major` and of
`minor` reach the wire, as the bytes 9 and 11 of the message; and the response
is checked against the command code `0xA101`: on a response well framed for
the command code `c` with return code `rc` the call returns 0 when
`c = 0xA101` and `rc = 0`, and -1 otherwise. -/
theorem C19_istep_encoding (s : sbefifo) (major minor : Nat)
    (hm : s.malloc_ok s.nmallocs 0x2000 = true) :
    (sbefifo_op_istep s major minor).dev.sent = s.sent ++ [istep_msg major minor] ∧
    (istep_msg major minor).length = 12 ∧
    istep_msg major minor
      = htobe32 3 ++ htobe32 0x0000A101 ++ htobe32 (major % 256 * 2 ^ 16 + minor % 256) ∧
    istep_msg major minor = [0, 0, 0, 3, 0, 0, 0xa1, 0x01, 0, major % 256, 0, minor % 256] ∧
    (∀ (resp : List Nat) (c k rc : Nat),
      exchange s (istep_msg major minor) 12 0 resp → well_framed resp c k rc →
      ∃ s', sbefifo_op_istep s major minor
        = .ret (if c = 0xA101 ∧ rc = 0 then 0 else -1) s') := by
  have hb := istep_msg_bytes major minor
  have hl : (istep_msg major minor).length = 12 := by rw [hb]; rfl
  have hw : istep_msg major minor
      = htobe32 3 ++ htobe32 0x0000A101 ++ htobe32 (major % 256 * 2 ^ 16 + minor % 256) := by
    unfold istep_msg
    rw [istep_step_eq]
    rfl
  refine ⟨?_, hl, hw, hb, ?_⟩
  · have hs := sbefifo_op_sent s (istep_msg major minor) 12
      (SBEFIFO_CMD_CLASS_CONTROL ||| SBEFIFO_CMD_EXECUTE_ISTEP) 0 (by decide) (by omega) hm
    rw [List.take_of_length_le (by omega)] at hs
    rw [sbefifo_op_istep_eq, ← hs]
    split
    · rename_i h; rw [h]; rfl
    · rename_i h
      rw [h]
      split <;> rfl
  · intro resp c k rc hx hf
    obtain ⟨o, s', h⟩ := sbefifo_op_framed s (istep_msg major minor) 12
      (SBEFIFO_CMD_CLASS_CONTROL ||| SBEFIFO_CMD_EXECUTE_ISTEP) 0 resp c k rc (by decide) hx hf
    refine ⟨s', ?_⟩
    rw [sbefifo_op_istep_eq, h]
    have he : (SBEFIFO_CMD_CLASS_CONTROL ||| SBEFIFO_CMD_EXECUTE_ISTEP) = 0xA101 := by decide
    rw [he]
    by_cases hc : c = 0xA101 ∧ rc = 0
    · simp [hc]
    · simp [hc]

/-- The step 0x1234.0x5678 on a peer that answers with success: the bytes
`0x34` and `0x78` reach the wire. -/
theorem C19_istep_encoding_witness :
    (sbefifo_op_istep (fifo_peer [0xc0, 0xde, 0xa1, 0x01, 0, 0, 0, 0, 0, 0, 0, 3])
      0x1234 0x5678).dev.sent
      = (fifo_peer [0xc0, 0xde, 0xa1, 0x01, 0, 0, 0, 0, 0, 0, 0, 3]).sent
        ++ [istep_msg 0x1234 0x5678] ∧
    (istep_msg 0x1234 0x5678).length = 12 ∧
    istep_msg 0x1234 0x5678
      = htobe32 3 ++ htobe32 0x0000A101 ++ htobe32 (0x1234 % 256 * 2 ^ 16 + 0x5678 % 256) ∧
    istep_msg 0x1234 0x5678
      = [0, 0, 0, 3, 0, 0, 0xa1, 0x01, 0, 0x1234 % 256, 0, 0x5678 % 256] ∧
    (∀ (resp : List Nat) (c k rc : Nat),
      exchange (fifo_peer [0xc0, 0xde, 0xa1, 0x01, 0, 0, 0, 0, 0, 0, 0, 3])
        (istep_msg 0x1234 0x5678) 12 0 resp → well_framed resp c k rc →
      ∃ s', sbefifo_op_istep (fifo_peer [0xc0, 0xde, 0xa1, 0x01, 0, 0, 0, 0, 0, 0, 0, 3])
          0x1234 0x5678
        = .ret (if c = 0xA101 ∧ rc = 0 then 0 else -1) s') :=
  C19_istep_encoding (fifo_peer [0xc0, 0xde, 0xa1, 0x01, 0, 0, 0, 0, 0, 0, 0, 3])
    0x1234 0x5678 rfl

/-- The requests of execute-step and get-memory: 12 and 24 bytes, with the word
counts 3 and 6 in the first word. -/
theorem istep_getmem_word_count (major minor A L : Nat) (ci : Bool) :
    (istep_msg major minor).length = 12 ∧ be32_at (istep_msg major minor) 0 = some (12 / 4) ∧
    (getmem_msg A L ci).length = 24 ∧ be32_at (getmem_msg A L ci) 0 = some (24 / 4) := by
  refine ⟨rfl, ?_, rfl, ?_⟩
  · unfold istep_msg
    rw [List.append_assoc, be32_at_htobe32_append]
    rfl
  · unfold getmem_msg
    simp only [List.append_assoc]
    rw [be32_at_htobe32_append]
    rfl

/-- The request of put-memory for an accepted length that leaves room for the
six header words in 32 bits: `24 + size` bytes, the word count `6 + size / 4`
in the first word, and the caller's data after the header. -/
theorem putmem_msg_word_count (addr : Nat) (data : List Nat) (size : Nat) (ci : Bool)
    (hfit : 24 + size < 2 ^ 32) (h4 : size % 4 = 0) (hdata : size ≤ data.length) :
    (putmem_msg addr data size ci).length = 24 + size ∧
    be32_at (putmem_msg addr data size ci) 0 = some (6 + size / 4) ∧
    (putmem_msg addr data size ci).drop 24 = data.take size := by
  obtain ⟨h1, h2⟩ := putmem_msg_len_eq size hfit
  unfold putmem_msg
  rw [h1, h2]
  refine ⟨?_, ?_, ?_⟩
  · simp only [List.length_append, htobe32_length, List.length_take]
    omega
  · simp only [List.append_assoc]
    rw [be32_at_htobe32_append]
    congr 1
    omega
  · exact List.drop_left' (by simp only [List.length_append, htobe32_length])

/-- C20 (the code departs from the claim): for the cache-inhibited put-memory
of `size = 0xfffffff8` bytes at address 0, an aligned length not above
`2^32 - 1`, the 32-bit sum `msg_len = 6 * 4 + len` wraps to 16. The message
buffer is allocated with 16 bytes while the six header words and the data
take `24 + size` bytes: storing them runs past the end of the buffer, and the
message is not the `24 + size` bytes with word count `6 + size / 4` that the
claim describes. -/
theorem C20_putmem_length_wraps :
    0xfffffff8 % 8 = 0 ∧ 0xfffffff8 ≤ UINT32_MAX ∧
    putmem_msg_len 0xfffffff8 = 16 ∧ putmem_msg_len 0xfffffff8 ≠ 24 + 0xfffffff8 ∧
    putmem_msg_len 0xfffffff8 / 4 ≠ 6 + 0xfffffff8 / 4 ∧
    ∃ s', sbefifo_op_putmem (fifo_peer [0xff, 0xff, 0xff, 0xf8, 0xc0, 0xde, 0xa4, 0x02,
        0, 0, 0, 0, 0, 0, 0, 3]) 0 (List.replicate 0xfffffff8 0) 0xfffffff8 true
      = .fault .out_of_bounds s' ∧ s'.sent = [] := by
  refine ⟨by decide, by decide, by decide, by decide, by decide, ?_⟩
  rw [sbefifo_op_putmem_eq, if_neg (by decide), if_neg (by decide), if_neg (by decide),
    if_neg (by decide), if_pos (by decide)]
  exact ⟨_, rfl, rfl⟩

/-! ## Claim C15: the bus resolver -/

/-- The resolver returns the nearest node of the wanted class and the address
translated along the chain below it. -/
theorem get_class_target_addr_nearest (name : String) :
    ∀ (dn : dt_node) (addr i : Nat) (node : dt_node), addr < 2 ^ 64 →
      nearest_match dn name i node →
      get_class_target_addr dn name addr
        = some (node, (addr + ((dn.chain.take i).map dt_node.address).sum) % 2 ^ 64) := by
  intro dn
  induction dn with
  | root tg a =>
    intro addr i node ha ⟨hi, ⟨t, ht, hc⟩, _⟩
    cases i with
    | zero =>
      simp only [dt_node.chain, List.getElem?_cons_zero, Option.some.injEq] at hi
      subst hi
      simp only [dt_node.target] at ht
      subst ht
      simp only [get_class_target_addr, hc, ne_eq, not_true_eq_false, if_false,
        List.take_zero, List.map_nil, List.sum_nil, Nat.add_zero]
      rw [Nat.mod_eq_of_lt ha]
    | succ j => simp [dt_node.chain] at hi
  | child tg a p ih =>
    intro addr i node ha ⟨hi, ⟨t, ht, hc⟩, hbelow⟩
    cases i with
    | zero =>
      simp only [dt_node.chain, List.getElem?_cons_zero, Option.some.injEq] at hi
      subst hi
      simp only [dt_node.target] at ht
      subst ht
      simp only [get_class_target_addr, hc, ne_eq, not_true_eq_false, if_false,
        List.take_zero, List.map_nil, List.sum_nil, Nat.add_zero]
      rw [Nat.mod_eq_of_lt ha]
    | succ j =>
      simp only [dt_node.chain, List.getElem?_cons_succ] at hi
      obtain ⟨m, hm, t0, ht0, hc0⟩ := hbelow 0 (Nat.succ_pos j)
      simp only [dt_node.chain, List.getElem?_cons_zero, Option.some.injEq] at hm
      subst hm
      simp only [dt_node.target] at ht0
      subst ht0
      have hnm : nearest_match p name j node := by
        refine ⟨hi, ⟨t, ht, hc⟩, ?_⟩
        intro k hk
        obtain ⟨m, hm, hmo⟩ := hbelow (k + 1) (by omega)
        simp only [dt_node.chain, List.getElem?_cons_succ] at hm
        exact ⟨m, hm, hmo⟩
      have := ih ((addr + a % 2 ^ 64) % 2 ^ 64) j node (Nat.mod_lt _ (by decide)) hnm
      simp only [get_class_target_addr, hc0, ne_eq, not_false_eq_true, if_true, this,
        dt_node.chain, List.take_succ_cons, List.map_cons, List.sum_cons, dt_node.address]
      congr 2
      omega

/-- Whenever the resolver produces a result, the node returned is the nearest
node of the wanted class on the chain. -/
theorem get_class_target_addr_some (name : String) :
    ∀ (dn : dt_node) (addr : Nat) (node : dt_node) (r : Nat),
      get_class_target_addr dn name addr = some (node, r) →
      ∃ i, nearest_match dn name i node := by
  intro dn
  induction dn with
  | root tg a =>
    intro addr node r h
    cases tg with
    | none => simp [get_class_target_addr] at h
    | some t =>
      by_cases hc : t.class_type = name
      · simp only [get_class_target_addr, hc, ne_eq, not_true_eq_false, if_false,
          Option.some.injEq, Prod.mk.injEq] at h
        refine ⟨0, ?_, ⟨t, ?_, hc⟩, fun j hj => absurd hj (Nat.not_lt_zero j)⟩
        · rw [← h.1]; simp [dt_node.chain]
        · rw [← h.1]; rfl
      · simp [get_class_target_addr, hc] at h
  | child tg a p ih =>
    intro addr node r h
    cases tg with
    | none => simp [get_class_target_addr] at h
    | some t =>
      by_cases hc : t.class_type = name
      · simp only [get_class_target_addr, hc, ne_eq, not_true_eq_false, if_false,
          Option.some.injEq, Prod.mk.injEq] at h
        refine ⟨0, ?_, ⟨t, ?_, hc⟩, fun j hj => absurd hj (Nat.not_lt_zero j)⟩
        · rw [← h.1]; simp [dt_node.chain]
        · rw [← h.1]; rfl
      · simp only [get_class_target_addr, hc, ne_eq, not_false_eq_true, if_true] at h
        obtain ⟨i, hi, hcl, hbelow⟩ := ih _ node r h
        refine ⟨i + 1, ?_, hcl, ?_⟩
        · simpa only [dt_node.chain, List.getElem?_cons_succ] using hi
        · intro j hj
          cases j with
          | zero => exact ⟨.child (some t) a p, by simp [dt_node.chain], t, rfl, hc⟩
          | succ k =>
            obtain ⟨m, hm, hmo⟩ := hbelow k (by omega)
            exact ⟨m, by simpa only [dt_node.chain, List.getElem?_cons_succ] using hm, hmo⟩

/-- C15: for every starting node `dn`, class name and initial 64-bit address
`a`, `get_class_target_addr` returns the nearest node on the chain
`dn, parent(dn), …` whose bound target's class is the name, all nodes below it
having a bound target, and the resulting address is `a` plus the sum, modulo
`2^64`, of `dt_get_address` of exactly the nodes of the chain strictly below
the node returned. When there is no such node, the chain reaching a node with
no parent or a node with no bound target before a matching class is found, it
produces no result. -/
theorem C15_get_class_target_addr (dn : dt_node) (name : String) (a : Nat)
    (ha : a < 2 ^ 64) :
    (∀ (i : Nat) (node : dt_node), nearest_match dn name i node →
      get_class_target_addr dn name a
        = some (node, (a + ((dn.chain.take i).map dt_node.address).sum) % 2 ^ 64)) ∧
    ((¬ ∃ (i : Nat) (node : dt_node), nearest_match dn name i node) →
      get_class_target_addr dn name a = none) := by
  refine ⟨fun i node h => get_class_target_addr_nearest name dn a i node ha h, ?_⟩
  intro hno
  cases hr : get_class_target_addr dn name a with
  | none => rfl
  | some x =>
    obtain ⟨node, r⟩ := x
    obtain ⟨i, hi⟩ := get_class_target_addr_some name dn a node r hr
    exact absurd ⟨i, node, hi⟩ hno

/-- Resolving the class `pib` from the `fsi` node of the example chain, with the
initial address 5: the root is returned, with the address `5 + 0x100 + 0x20`. -/
theorem C15_get_class_target_addr_witness :
    get_class_target_addr chain_example "pib" 5
      = some (.root (some ⟨"pib", none⟩) 0x3,
          (5 + ((chain_example.chain.take 2).map dt_node.address).sum) % 2 ^ 64) :=
  (C15_get_class_target_addr chain_example "pib" 5 (by decide)).1 2
    (.root (some ⟨"pib", none⟩) 0x3)
    ⟨rfl, ⟨⟨"pib", none⟩, rfl, rfl⟩, fun j hj => by
      have hj' : j = 0 ∨ j = 1 := by omega
      rcases hj' with h | h
      · subst h
        exact ⟨_, rfl, ⟨"fsi", none⟩, rfl, by decide⟩
      · subst h
        exact ⟨_, rfl, ⟨"opb", none⟩, rfl, by decide⟩⟩

/-! ## Claim C16: the probe walk -/

theorem dt_nodes_self (t : dt_tree) : t ∈ dt_nodes t := by
  cases t with
  | mk id tg cs => simp [dt_nodes]

theorem dt_nodes_list_of_mem (c : dt_tree) (cs : List dt_tree) (hc : c ∈ cs) (y : dt_tree)
    (hy : y ∈ dt_nodes c) : y ∈ dt_nodes_list cs := by
  induction cs with
  | nil => simp at hc
  | cons d ds ih =>
    simp only [dt_nodes_list, List.mem_append]
    rcases List.mem_cons.mp hc with h | h
    · subst h; exact Or.inl hy
    · exact Or.inr (ih h)

mutual
/-- The nodes of a subtree of `r` are nodes of `r`. -/
theorem dt_nodes_trans : ∀ (r a y : dt_tree), a ∈ dt_nodes r → y ∈ dt_nodes a → y ∈ dt_nodes r
  | .mk id tg cs, a, y, ha, hy => by
    simp only [dt_nodes, List.mem_cons] at ha ⊢
    rcases ha with h | h
    · subst h
      simpa only [dt_nodes, List.mem_cons] using hy
    · exact Or.inr (dt_nodes_list_trans cs a y h hy)
/-- The list form of `dt_nodes_trans`. -/
theorem dt_nodes_list_trans : ∀ (cs : List dt_tree) (a y : dt_tree),
    a ∈ dt_nodes_list cs → y ∈ dt_nodes a → y ∈ dt_nodes_list cs
  | [], a, y, ha, _ => by simp [dt_nodes_list] at ha
  | c :: cs, a, y, ha, hy => by
    simp only [dt_nodes_list, List.mem_append] at ha ⊢
    rcases ha with h | h
    · exact Or.inl (dt_nodes_trans c a y h hy)
    · exact Or.inr (dt_nodes_list_trans cs a y h hy)
end

mutual
/-- The function `disable_node` sets the status of the node and of all its
descendants to `"disabled"` and leaves every other status alone. -/
theorem disable_node_status : ∀ (t : dt_tree) (σ : dt_state) (i : Nat),
    (disable_node t σ).status i
      = if i ∈ (dt_nodes t).map dt_tree.id then some "disabled" else σ.status i
  | .mk id tg cs, σ, i => by
    rw [disable_node, disable_children_status cs]
    simp only [dt_nodes, List.map_cons, List.mem_cons, dt_tree.id, dt_state.set_disabled]
    by_cases h1 : i ∈ (dt_nodes_list cs).map dt_tree.id
    · simp [h1]
    · by_cases h2 : i = id
      · simp [h1, h2]
      · simp [h1, h2]
/-- The list form of `disable_node_status`. -/
theorem disable_children_status : ∀ (cs : List dt_tree) (σ : dt_state) (i : Nat),
    (disable_children cs σ).status i
      = if i ∈ (dt_nodes_list cs).map dt_tree.id then some "disabled" else σ.status i
  | [], σ, i => by simp [disable_children, dt_nodes_list]
  | c :: cs, σ, i => by
    rw [disable_children, disable_children_status cs, disable_node_status c]
    simp only [dt_nodes_list, List.map_append, List.mem_append]
    by_cases h1 : i ∈ (dt_nodes_list cs).map dt_tree.id
    · simp [h1]
    · by_cases h2 : i ∈ (dt_nodes c).map dt_tree.id
      · simp [h1, h2]
      · simp [h1, h2]
end

mutual
/-- The function `_target_probe` changes a status only to `"disabled"`. -/
theorem target_probe_node_status : ∀ (t : dt_tree) (σ : dt_state) (i : Nat),
    (_target_probe t σ).status i = σ.status i ∨
      (_target_probe t σ).status i = some "disabled"
  | .mk id tg cs, σ, i => by
    unfold _target_probe
    cases tg with
    | none => exact Or.inl rfl
    | some t =>
      dsimp only
      split
      · rw [disable_node_status]
        split
        · exact Or.inr rfl
        · exact Or.inl rfl
      · cases hp : t.probe with
        | none => exact target_probe_children_status cs σ i
        | some rc =>
          dsimp only
          split
          · rw [disable_node_status]
            split
            · exact Or.inr rfl
            · exact Or.inl rfl
          · exact target_probe_children_status cs _ i
/-- The list form of `target_probe_node_status`. -/
theorem target_probe_children_status : ∀ (cs : List dt_tree) (σ : dt_state) (i : Nat),
    (_target_probe_children cs σ).status i = σ.status i ∨
      (_target_probe_children cs σ).status i = some "disabled"
  | [], σ, i => by rw [_target_probe_children]; exact Or.inl rfl
  | c :: cs, σ, i => by
    rw [_target_probe_children]
    rcases target_probe_children_status cs (_target_probe c σ) i with h | h
    · rw [h]; exact target_probe_node_status c σ i
    · exact Or.inr h
end

/-- A status `"disabled"` survives `_target_probe`. -/
theorem target_probe_node_mono (t : dt_tree) (σ : dt_state) (i : Nat)
    (h : σ.status i = some "disabled") : (_target_probe t σ).status i = some "disabled" := by
  rcases target_probe_node_status t σ i with h' | h'
  · rw [h', h]
  · exact h'

/-- A status `"disabled"` survives the walk over any enumeration of nodes. -/
theorem target_probe_over_mono (nodes : List dt_tree) :
    ∀ (σ : dt_state) (i : Nat), σ.status i = some "disabled" →
      (target_probe_over nodes σ).status i = some "disabled" := by
  induction nodes with
  | nil => intro σ i h; exact h
  | cons v rest ih =>
    intro σ i h
    simp only [target_probe_over, List.foldl_cons]
    exact ih (_target_probe v σ) i (target_probe_node_mono v σ i h)

/-- In a tree whose nodes have distinct identities, a node that lies in the
subtree of `a` has its whole subtree there. -/
theorem dt_ids_subset_of_mem (root v a : dt_tree) (hnd : (dt_ids root).Nodup)
    (hv : v ∈ dt_nodes root) (ha : a ∈ dt_nodes root) (h : v.id ∈ dt_ids a) :
    ∀ i, i ∈ dt_ids v → i ∈ dt_ids a := by
  obtain ⟨w, hw, hwid⟩ := List.mem_map.mp h
  have hwr : w ∈ dt_nodes root := dt_nodes_trans root a w ha hw
  have hwv : w = v := List.inj_on_of_nodup_map hnd hwr hv hwid
  subst hwv
  intro i hi
  obtain ⟨y, hy, hyid⟩ := List.mem_map.mp hi
  exact List.mem_map.mpr ⟨y, dt_nodes_trans a w y hw hy, hyid⟩

/-- Below a node that has a `disabling` node among itself and its ancestors,
every node has one. -/
theorem under_disabling_subtree (root : dt_tree) (σ0 : dt_state) (v : dt_tree)
    (hnd : (dt_ids root).Nodup) (hv : v ∈ dt_nodes root)
    (h : under_disabling root σ0 v.id) : ∀ i, i ∈ dt_ids v → under_disabling root σ0 i := by
  obtain ⟨a, ha, hva, hdis⟩ := h
  intro i hi
  exact ⟨a, ha, dt_ids_subset_of_mem root v a hnd hv ha hva i hi, hdis⟩

/-- Disabling a node all of whose subtree lies under a `disabling` node keeps
the invariant. -/
theorem probe_inv_disable (root : dt_tree) (σ0 σ : dt_state) (v : dt_tree)
    (hall : ∀ i, i ∈ dt_ids v → under_disabling root σ0 i)
    (hinv : probe_inv root σ0 σ) : probe_inv root σ0 (disable_node v σ) := by
  intro i
  rw [disable_node_status]
  split
  · rename_i hi
    exact Or.inr ⟨rfl, hall i hi⟩
  · exact hinv i

mutual
/-- The function `_target_probe`, applied to a node of the tree, keeps the
invariant of the walk. -/
theorem probe_inv_node (root : dt_tree) (σ0 : dt_state) (hnd : (dt_ids root).Nodup) :
    ∀ (t : dt_tree) (σ : dt_state), (∀ y, y ∈ dt_nodes t → y ∈ dt_nodes root) →
      probe_inv root σ0 σ → probe_inv root σ0 (_target_probe t σ)
  | .mk id tg cs, σ, hsub, hinv => by
    have hv : dt_tree.mk id tg cs ∈ dt_nodes root := hsub _ (dt_nodes_self _)
    have hcs : ∀ y, y ∈ dt_nodes_list cs → y ∈ dt_nodes root := by
      intro y hy
      exact hsub y (by simp only [dt_nodes, List.mem_cons]; exact Or.inr hy)
    unfold _target_probe
    cases tg with
    | none => exact hinv
    | some t =>
      dsimp only
      split
      · rename_i hdis
        apply probe_inv_disable root σ0 σ _ _ hinv
        rcases hinv id with h | h
        · rw [hdis] at h
          intro i hi
          exact ⟨_, hv, hi, by simp [dt_tree.target], Or.inl h.symm⟩
        · exact under_disabling_subtree root σ0 _ hnd hv h.2
      · cases hp : t.probe with
        | none => exact probe_inv_children root σ0 hnd cs σ hcs hinv
        | some rc =>
          dsimp only
          have hinv' : probe_inv root σ0 { σ with probed := σ.probed ++ [id] } := hinv
          split
          · rename_i hrc
            apply probe_inv_disable root σ0 _ _ _ hinv'
            intro i hi
            exact ⟨_, hv, hi, by simp [dt_tree.target], Or.inr ⟨t, rc, rfl, hp, hrc⟩⟩
          · exact probe_inv_children root σ0 hnd cs _ hcs hinv'
/-- The list form of `probe_inv_node`. -/
theorem probe_inv_children (root : dt_tree) (σ0 : dt_state) (hnd : (dt_ids root).Nodup) :
    ∀ (cs : List dt_tree) (σ : dt_state), (∀ y, y ∈ dt_nodes_list cs → y ∈ dt_nodes root) →
      probe_inv root σ0 σ → probe_inv root σ0 (_target_probe_children cs σ)
  | [], σ, _, hinv => by rw [_target_probe_children]; exact hinv
  | c :: cs, σ, hsub, hinv => by
    rw [_target_probe_children]
    apply probe_inv_children root σ0 hnd cs
    · intro y hy
      exact hsub y (by simp only [dt_nodes_list, List.mem_append]; exact Or.inr hy)
    · apply probe_inv_node root σ0 hnd c σ _ hinv
      intro y hy
      exact hsub y (by simp only [dt_nodes_list, List.mem_append]; exact Or.inl hy)
end

/-- Visiting a `disabling` node disables its whole subtree. -/
theorem target_probe_node_disabling (root : dt_tree) (σ0 σ : dt_state) (v : dt_tree)
    (hinv : probe_inv root σ0 σ) (hdis : disabling σ0 v) :
    ∀ i, i ∈ dt_ids v → (_target_probe v σ).status i = some "disabled" := by
  intro i hi
  cases v with
  | mk id tg cs =>
    obtain ⟨htg, hcause⟩ := hdis
    unfold _target_probe
    cases tg with
    | none => exact absurd rfl htg
    | some t =>
      dsimp only
      split
      · rw [disable_node_status]
        exact if_pos hi
      · rename_i hnot
        have h0 : σ0.status id ≠ some "disabled" := by
          intro h0
          rcases hinv id with h | h
          · exact hnot (h.trans h0)
          · exact hnot h.1
        rcases hcause with h | ⟨t', rc, ht', hp, hrc⟩
        · exact absurd h h0
        · simp only [dt_tree.target, Option.some.injEq] at ht'
          subst ht'
          rw [hp]
          dsimp only
          rw [if_pos hrc, disable_node_status]
          exact if_pos hi

/-- The walk over nodes of the tree keeps the invariant. -/
theorem probe_inv_over (root : dt_tree) (σ0 : dt_state) (hnd : (dt_ids root).Nodup)
    (nodes : List dt_tree) :
    ∀ (σ : dt_state), (∀ v, v ∈ nodes → v ∈ dt_nodes root) → probe_inv root σ0 σ →
      probe_inv root σ0 (target_probe_over nodes σ) := by
  induction nodes with
  | nil => intro σ _ h; exact h
  | cons v rest ih =>
    intro σ hsub hinv
    simp only [target_probe_over, List.foldl_cons]
    apply ih (_target_probe v σ) (fun w hw => hsub w (List.mem_cons_of_mem v hw))
    exact probe_inv_node root σ0 hnd v σ
      (fun y hy => dt_nodes_trans root v y (hsub v (List.mem_cons_self v rest)) hy) hinv

/-- After the walk, the subtree of every `disabling` node that the walk visits
is disabled. -/
theorem target_probe_over_disabling (root : dt_tree) (σ0 : dt_state)
    (hnd : (dt_ids root).Nodup) (a : dt_tree) (hdis : disabling σ0 a) (nodes : List dt_tree) :
    ∀ (σ : dt_state), (∀ v, v ∈ nodes → v ∈ dt_nodes root) → probe_inv root σ0 σ →
      a ∈ nodes → ∀ i, i ∈ dt_ids a → (target_probe_over nodes σ).status i = some "disabled" := by
  induction nodes with
  | nil => intro σ _ _ ha; simp at ha
  | cons v rest ih =>
    intro σ hsub hinv ha i hi
    simp only [target_probe_over, List.foldl_cons]
    rcases List.mem_cons.mp ha with h | h
    · subst h
      exact target_probe_over_mono rest _ i (target_probe_node_disabling root σ0 σ a hinv hdis i hi)
    · exact ih (_target_probe v σ) (fun w hw => hsub w (List.mem_cons_of_mem v hw))
        (probe_inv_node root σ0 hnd v σ
          (fun y hy => dt_nodes_trans root v y (hsub v (List.mem_cons_self v rest)) hy) hinv)
        h i hi

/-- The result of the walk over any enumeration that stays inside the tree and
reaches every node with a bound target. -/
theorem target_probe_over_status (root : dt_tree) (σ0 : dt_state) (hnd : (dt_ids root).Nodup)
    (nodes : List dt_tree) (hsub : ∀ v, v ∈ nodes → v ∈ dt_nodes root)
    (hcov : ∀ v, v ∈ dt_nodes root → v.target ≠ none → v ∈ nodes) (i : Nat) :
    ((target_probe_over nodes σ0).status i = some "disabled" ↔
      σ0.status i = some "disabled" ∨ under_disabling root σ0 i) ∧
    (¬ under_disabling root σ0 i → (target_probe_over nodes σ0).status i = σ0.status i) := by
  have hinv0 : probe_inv root σ0 σ0 := fun _ => Or.inl rfl
  have hinv := probe_inv_over root σ0 hnd nodes σ0 hsub hinv0
  refine ⟨⟨?_, ?_⟩, ?_⟩
  · intro h
    rcases hinv i with h' | h'
    · exact Or.inl (h'.symm.trans h)
    · exact Or.inr h'.2
  · intro h
    rcases h with h | ⟨a, ha, hia, hdis⟩
    · exact target_probe_over_mono nodes σ0 i h
    · exact target_probe_over_disabling root σ0 hnd a hdis nodes σ0 hsub hinv0
        (hcov a ha hdis.1) i hia
  · intro hno
    rcases hinv i with h' | h'
    · exact h'
    · exact absurd h'.2 hno

/-- In a tree whose nodes have distinct identities, the identity of a node lies
in the subtree of `a` exactly when the node does. -/
theorem mem_dt_ids_iff (root x a : dt_tree) (hnd : (dt_ids root).Nodup)
    (hx : x ∈ dt_nodes root) (ha : a ∈ dt_nodes root) :
    x.id ∈ dt_ids a ↔ x ∈ dt_nodes a := by
  constructor
  · intro h
    obtain ⟨w, hw, hwid⟩ := List.mem_map.mp h
    have hwr : w ∈ dt_nodes root := dt_nodes_trans root a w ha hw
    have hwx : w = x := List.inj_on_of_nodup_map hnd hwr hx hwid
    rw [← hwx]
    exact hw
  · intro h
    exact List.mem_map.mpr ⟨x, h, rfl⟩

/-- C16: for every device tree whose nodes are distinct, after `target_probe` a
node `x` carries the status `"disabled"` exactly when it carried it before the
walk or some node among itself and its ancestors has a bound target and either
carried the status `"disabled"` before the walk or has a probe operation that
fails; the status of a node that has no such node among itself and its
ancestors is unchanged; and a disabled node with a bound target has its
entire subtree disabled. -/
theorem C16_target_probe_status (root : dt_tree) (σ0 : dt_state)
    (hnd : (dt_ids root).Nodup) (x : dt_tree) (hx : x ∈ dt_nodes root) :
    ((target_probe root σ0).status x.id = some "disabled" ↔
      σ0.status x.id = some "disabled" ∨
        ∃ a, a ∈ dt_nodes root ∧ x ∈ dt_nodes a ∧ disabling σ0 a) ∧
    ((¬ ∃ a, a ∈ dt_nodes root ∧ x ∈ dt_nodes a ∧ disabling σ0 a) →
      (target_probe root σ0).status x.id = σ0.status x.id) ∧
    (x.target ≠ none → (target_probe root σ0).status x.id = some "disabled" →
      ∀ y, y ∈ dt_nodes x → (target_probe root σ0).status y.id = some "disabled") := by
  have hgen : ∀ i, _ := target_probe_over_status root σ0 hnd (dt_for_each_node root)
    (fun v hv => hv) (fun v hv _ => hv)
  have hiff : ∀ z, z ∈ dt_nodes root →
      (under_disabling root σ0 z.id ↔
        ∃ a, a ∈ dt_nodes root ∧ z ∈ dt_nodes a ∧ disabling σ0 a) := by
    intro z hz
    constructor
    · rintro ⟨a, ha, hza, hdis⟩
      exact ⟨a, ha, (mem_dt_ids_iff root z a hnd hz ha).mp hza, hdis⟩
    · rintro ⟨a, ha, hza, hdis⟩
      exact ⟨a, ha, (mem_dt_ids_iff root z a hnd hz ha).mpr hza, hdis⟩
  have hmain : (target_probe root σ0).status x.id = some "disabled" ↔
      σ0.status x.id = some "disabled" ∨
        ∃ a, a ∈ dt_nodes root ∧ x ∈ dt_nodes a ∧ disabling σ0 a := by
    rw [← hiff x hx]
    exact (hgen x.id).1
  refine ⟨hmain, ?_, ?_⟩
  · intro hno
    exact (hgen x.id).2 (fun h => hno ((hiff x hx).mp h))
  · intro htg hd y hy
    have hyr : y ∈ dt_nodes root := dt_nodes_trans root x y hx hy
    apply ((hgen y.id).1).mpr
    right
    rw [hiff y hyr]
    rcases hmain.mp hd with h | ⟨a, ha, hxa, hdis⟩
    · exact ⟨x, hx, hy, htg, Or.inl h⟩
    · exact ⟨a, ha, dt_nodes_trans a x y hxa hy, hdis⟩

/-- The spec's probe scenario, evaluated: the disabled node 2 and its child 3
are disabled after the walk, the root and the sibling node 4 keep having no
`status` property. -/
theorem probe_example_walk :
    (target_probe probe_example probe_example_state).status 2 = some "disabled" ∧
    (target_probe probe_example probe_example_state).status 3 = some "disabled" ∧
    (target_probe probe_example probe_example_state).status 1 = none ∧
    (target_probe probe_example probe_example_state).status 4 = none := by
  decide

/-- The node 3 of the spec's probe scenario, below the disabled node 2. -/
theorem C16_target_probe_status_witness :
    ((target_probe probe_example probe_example_state).status
        (dt_tree.mk 3 (some ⟨"fsi", some 0⟩) []).id = some "disabled" ↔
      probe_example_state.status (dt_tree.mk 3 (some ⟨"fsi", some 0⟩) []).id
          = some "disabled" ∨
        ∃ a, a ∈ dt_nodes probe_example ∧ dt_tree.mk 3 (some ⟨"fsi", some 0⟩) [] ∈ dt_nodes a ∧
          disabling probe_example_state a) ∧
    ((¬ ∃ a, a ∈ dt_nodes probe_example ∧
        dt_tree.mk 3 (some ⟨"fsi", some 0⟩) [] ∈ dt_nodes a ∧
          disabling probe_example_state a) →
      (target_probe probe_example probe_example_state).status
          (dt_tree.mk 3 (some ⟨"fsi", some 0⟩) []).id
        = probe_example_state.status (dt_tree.mk 3 (some ⟨"fsi", some 0⟩) []).id) ∧
    ((dt_tree.mk 3 (some ⟨"fsi", some 0⟩) []).target ≠ none →
      (target_probe probe_example probe_example_state).status
          (dt_tree.mk 3 (some ⟨"fsi", some 0⟩) []).id = some "disabled" →
      ∀ y, y ∈ dt_nodes (dt_tree.mk 3 (some ⟨"fsi", some 0⟩) []) →
        (target_probe probe_example probe_example_state).status y.id = some "disabled") :=
  C16_target_probe_status probe_example probe_example_state (by decide)
    (dt_tree.mk 3 (some ⟨"fsi", some 0⟩) [])
    (by simp [probe_example, dt_nodes, dt_nodes_list])

/-! ## Claim C21: the probe walk and unbound nodes -/

mutual
/-- A node of a tree other than its top has fewer nodes below it. -/
theorem dt_nodes_length_lt : ∀ (a y : dt_tree), y ∈ dt_nodes a →
    y = a ∨ (dt_nodes y).length < (dt_nodes a).length
  | .mk id tg cs, y, h => by
    simp only [dt_nodes, List.mem_cons] at h
    rcases h with h | h
    · exact Or.inl h
    · have := dt_nodes_list_length_le cs y h
      right
      simp only [dt_nodes, List.length_cons]
      omega
/-- The list form of `dt_nodes_length_lt`. -/
theorem dt_nodes_list_length_le : ∀ (cs : List dt_tree) (y : dt_tree), y ∈ dt_nodes_list cs →
    (dt_nodes y).length ≤ (dt_nodes_list cs).length
  | [], y, h => by simp [dt_nodes_list] at h
  | c :: cs, y, h => by
    simp only [dt_nodes_list, List.mem_append] at h
    simp only [dt_nodes_list, List.length_append]
    rcases h with h | h
    · rcases dt_nodes_length_lt c y h with e | l
      · subst e; omega
      · omega
    · have := dt_nodes_list_length_le cs y h
      omega
end

/-- Two nodes that lie in the subtree of each other are the same node. -/
theorem dt_nodes_antisymm (a b : dt_tree) (hab : a ∈ dt_nodes b) (hba : b ∈ dt_nodes a) :
    a = b := by
  rcases dt_nodes_length_lt b a hab with h | h
  · exact h
  · rcases dt_nodes_length_lt a b hba with h' | h'
    · exact h'.symm
    · omega

mutual
/-- In a tree without repeated nodes, no subtree has repeated nodes. -/
theorem dt_nodes_nodup_of_mem : ∀ (r t : dt_tree), t ∈ dt_nodes r → (dt_nodes r).Nodup →
    (dt_nodes t).Nodup
  | .mk id tg cs, t, ht, h => by
    simp only [dt_nodes, List.mem_cons] at ht
    rcases ht with e | ht
    · subst e; exact h
    · simp only [dt_nodes] at h
      exact dt_nodes_list_nodup_of_mem cs t ht (List.nodup_cons.mp h).2
/-- The list form of `dt_nodes_nodup_of_mem`. -/
theorem dt_nodes_list_nodup_of_mem : ∀ (cs : List dt_tree) (t : dt_tree),
    t ∈ dt_nodes_list cs → (dt_nodes_list cs).Nodup → (dt_nodes t).Nodup
  | [], t, ht, _ => by simp [dt_nodes_list] at ht
  | c :: cs, t, ht, h => by
    simp only [dt_nodes_list, List.mem_append] at ht
    simp only [dt_nodes_list] at h
    rcases ht with ht | ht
    · exact dt_nodes_nodup_of_mem c t ht (List.Nodup.of_append_left h)
    · exact dt_nodes_list_nodup_of_mem cs t ht (List.Nodup.of_append_right h)
end

mutual
/-- In a tree without repeated nodes, two subtrees that share a node are
nested. -/
theorem dt_nodes_nested : ∀ (r a b y : dt_tree), (dt_nodes r).Nodup → a ∈ dt_nodes r →
    b ∈ dt_nodes r → y ∈ dt_nodes a → y ∈ dt_nodes b → a ∈ dt_nodes b ∨ b ∈ dt_nodes a
  | .mk id tg cs, a, b, y, h, ha, hb, hya, hyb => by
    simp only [dt_nodes, List.mem_cons] at ha hb
    simp only [dt_nodes] at h
    rcases ha with ea | ha
    · subst ea
      right
      simp only [dt_nodes, List.mem_cons]
      exact hb
    · rcases hb with eb | hb
      · subst eb
        left
        simp only [dt_nodes, List.mem_cons]
        exact Or.inr ha
      · exact dt_nodes_list_nested cs a b y (List.nodup_cons.mp h).2 ha hb hya hyb
/-- The list form of `dt_nodes_nested`. -/
theorem dt_nodes_list_nested : ∀ (cs : List dt_tree) (a b y : dt_tree),
    (dt_nodes_list cs).Nodup → a ∈ dt_nodes_list cs → b ∈ dt_nodes_list cs →
    y ∈ dt_nodes a → y ∈ dt_nodes b → a ∈ dt_nodes b ∨ b ∈ dt_nodes a
  | [], a, _, _, _, ha, _, _, _ => by simp [dt_nodes_list] at ha
  | c :: cs, a, b, y, h, ha, hb, hya, hyb => by
    simp only [dt_nodes_list, List.mem_append] at ha hb
    simp only [dt_nodes_list] at h
    have hdisj := List.disjoint_of_nodup_append h
    rcases ha with ha | ha
    · rcases hb with hb | hb
      · exact dt_nodes_nested c a b y (List.Nodup.of_append_left h) ha hb hya hyb
      · exact absurd (dt_nodes_list_trans cs b y hb hyb) (fun h2 => hdisj (dt_nodes_trans c a y ha hya) h2)
    · rcases hb with hb | hb
      · exact absurd (dt_nodes_list_trans cs a y ha hya) (fun h2 => hdisj (dt_nodes_trans c b y hb hyb) h2)
      · exact dt_nodes_list_nested cs a b y (List.Nodup.of_append_right h) ha hb hya hyb
end

/-- Distinct children of a node without repeated nodes below it have no node in
common. -/
theorem dt_children_disjoint (cs : List dt_tree) (h : (dt_nodes_list cs).Nodup)
    (c c' y : dt_tree) (hc : c ∈ cs) (hc' : c' ∈ cs) (hy : y ∈ dt_nodes c)
    (hy' : y ∈ dt_nodes c') : c = c' := by
  induction cs with
  | nil => simp at hc
  | cons x xs ih =>
    simp only [dt_nodes_list] at h
    have hdisj := List.disjoint_of_nodup_append h
    rcases List.mem_cons.mp hc with e | h1
    · rcases List.mem_cons.mp hc' with e' | h2
      · rw [e, e']
      · subst e
        exact absurd (dt_nodes_list_of_mem c' xs h2 y hy') (fun h3 => hdisj hy h3)
    · rcases List.mem_cons.mp hc' with e' | h2
      · subst e'
        exact absurd (dt_nodes_list_of_mem c xs h1 y hy) (fun h3 => hdisj hy' h3)
      · exact ih (List.Nodup.of_append_right h) h1 h2

/-- A node of a list of trees lies in one of them. -/
theorem dt_nodes_list_mem (cs : List dt_tree) (y : dt_tree) (hy : y ∈ dt_nodes_list cs) :
    ∃ c, c ∈ cs ∧ y ∈ dt_nodes c := by
  induction cs with
  | nil => simp [dt_nodes_list] at hy
  | cons x xs ih =>
    simp only [dt_nodes_list, List.mem_append] at hy
    rcases hy with h | h
    · exact ⟨x, List.mem_cons_self x xs, h⟩
    · obtain ⟨c, hc, hyc⟩ := ih h
      exact ⟨c, List.mem_cons_of_mem x hc, hyc⟩

/-- In a tree without repeated nodes, a proper ancestor of a child of the node
`v` is `v` or an ancestor of `v`. -/
theorem dt_child_ancestor (root : dt_tree) (h : (dt_nodes root).Nodup) (id : Nat)
    (tg : Option target) (cs : List dt_tree) (hv : dt_tree.mk id tg cs ∈ dt_nodes root)
    (c : dt_tree) (hc : c ∈ cs) (a : dt_tree) (ha : a ∈ dt_nodes root) (hca : c ∈ dt_nodes a)
    (hne : a ≠ c) : dt_tree.mk id tg cs ∈ dt_nodes a := by
  have hcv : c ∈ dt_nodes (dt_tree.mk id tg cs) := by
    simp only [dt_nodes, List.mem_cons]
    exact Or.inr (dt_nodes_list_of_mem c cs hc c (dt_nodes_self c))
  rcases dt_nodes_nested root a _ c h ha hv hca hcv with h1 | h1
  · simp only [dt_nodes, List.mem_cons] at h1
    rcases h1 with e | h1
    · rw [e]; exact dt_nodes_self _
    · exfalso
      obtain ⟨c', hc', hac'⟩ := dt_nodes_list_mem cs a h1
      have hvn : (dt_nodes (dt_tree.mk id tg cs)).Nodup := dt_nodes_nodup_of_mem root _ hv h
      simp only [dt_nodes] at hvn
      have hcc' : c = c' := dt_children_disjoint cs (List.nodup_cons.mp hvn).2 c c' c hc hc'
        (dt_nodes_self c) (dt_nodes_trans c' a c hac' hca)
      subst hcc'
      exact hne (dt_nodes_antisymm a c hac' hca)
  · exact h1

mutual
/-- The enumeration `dt_nodes` is in pre-order: in a tree without repeated
nodes, the proper ancestors of a node come before the node. -/
theorem dt_nodes_ancestor_before : ∀ (r : dt_tree) (pre : List dt_tree) (t : dt_tree)
    (post : List dt_tree), dt_nodes r = pre ++ t :: post → (dt_nodes r).Nodup →
    ∀ a, a ∈ dt_nodes r → t ∈ dt_nodes a → a ≠ t → a ∈ pre
  | .mk id tg cs, pre, t, post, heq, h, a, ha, hta, hne => by
    cases pre with
    | nil =>
      simp only [dt_nodes, List.nil_append, List.cons.injEq] at heq
      exfalso
      apply hne
      rw [← heq.1] at hta ⊢
      exact dt_nodes_antisymm a _ ha hta
    | cons p pre' =>
      simp only [dt_nodes, List.cons_append, List.cons.injEq] at heq
      obtain ⟨hp, heq'⟩ := heq
      simp only [dt_nodes, List.mem_cons] at ha
      simp only [dt_nodes] at h
      rcases ha with e | ha
      · rw [e, hp]; exact List.mem_cons_self _ _
      · exact List.mem_cons_of_mem _
          (dt_nodes_list_ancestor_before cs pre' t post heq' (List.nodup_cons.mp h).2 a ha hta hne)
/-- The list form of `dt_nodes_ancestor_before`. -/
theorem dt_nodes_list_ancestor_before : ∀ (cs : List dt_tree) (pre : List dt_tree)
    (t : dt_tree) (post : List dt_tree), dt_nodes_list cs = pre ++ t :: post →
    (dt_nodes_list cs).Nodup → ∀ a, a ∈ dt_nodes_list cs → t ∈ dt_nodes a → a ≠ t → a ∈ pre
  | [], pre, t, post, heq, _, _, _, _, _ => by simp [dt_nodes_list] at heq
  | c :: cs, pre, t, post, heq, h, a, ha, hta, hne => by
    simp only [dt_nodes_list] at heq h
    simp only [dt_nodes_list, List.mem_append] at ha
    have hdisj := List.disjoint_of_nodup_append h
    rcases List.append_eq_append_iff.mp heq with ⟨x, hpre, hcs⟩ | ⟨y, hc, hrest⟩
    · rw [hpre]
      rcases ha with ha | ha
      · exact List.mem_append_left _ ha
      · exact List.mem_append_right _
          (dt_nodes_list_ancestor_before cs x t post hcs (List.Nodup.of_append_right h) a ha hta hne)
    · cases y with
      | nil =>
        simp only [List.append_nil] at hc
        simp only [List.nil_append] at hrest
        rcases ha with ha | ha
        · rw [← hc]; exact ha
        · have := dt_nodes_list_ancestor_before cs [] t post hrest.symm
            (List.Nodup.of_append_right h) a ha hta hne
          simp at this
      | cons z y' =>
        simp only [List.cons_append, List.cons.injEq] at hrest
        obtain ⟨hz, _⟩ := hrest
        subst hz
        rcases ha with ha | ha
        · exact dt_nodes_ancestor_before c pre t y' hc (List.Nodup.of_append_left h) a ha hta hne
        · exfalso
          have htc : t ∈ dt_nodes c := by rw [hc]; simp
          exact hdisj htc (dt_nodes_list_trans cs a t ha hta)
end

mutual
/-- The function `disable_node` invokes no probe operation. -/
theorem disable_node_probed : ∀ (t : dt_tree) (σ : dt_state),
    (disable_node t σ).probed = σ.probed
  | .mk id tg cs, σ => by
    rw [disable_node, disable_children_probed cs]
    rfl
/-- The list form of `disable_node_probed`. -/
theorem disable_children_probed : ∀ (cs : List dt_tree) (σ : dt_state),
    (disable_children cs σ).probed = σ.probed
  | [], σ => by rw [disable_children]
  | c :: cs, σ => by
    rw [disable_children, disable_children_probed cs, disable_node_probed c]
end

/-- A tree whose nodes have distinct identities has no repeated nodes. -/
theorem dt_nodes_nodup (root : dt_tree) (hnd : (dt_ids root).Nodup) : (dt_nodes root).Nodup :=
  List.Nodup.of_map dt_tree.id hnd

/-- The function `disable_node` keeps the invariant on the log. -/
theorem log_inv_disable (root : dt_tree) (σ0 σ : dt_state) (v : dt_tree)
    (h : log_inv root σ0 σ) : log_inv root σ0 (disable_node v σ) := by
  obtain ⟨l, hl, hall⟩ := h
  exact ⟨l, by rw [disable_node_probed, hl], hall⟩

/-- Below a node that is not `disabling` and has no `disabling` proper
ancestor, no child has a `disabling` proper ancestor. -/
theorem child_not_below_disabling (root : dt_tree) (σ0 : dt_state) (h : (dt_nodes root).Nodup)
    (id : Nat) (tg : Option target) (cs : List dt_tree)
    (hv : dt_tree.mk id tg cs ∈ dt_nodes root) (hnd : ¬ disabling σ0 (dt_tree.mk id tg cs))
    (hnb : ¬ below_disabling root σ0 (dt_tree.mk id tg cs)) :
    ∀ c, c ∈ cs → ¬ below_disabling root σ0 c := by
  rintro c hc ⟨a, ha, hca, hne, hdis⟩
  have hva := dt_child_ancestor root h id tg cs hv c hc a ha hca hne
  by_cases e : a = dt_tree.mk id tg cs
  · rw [e] at hdis
    exact hnd hdis
  · exact hnb ⟨a, ha, hva, e, hdis⟩

mutual
/-- The function `_target_probe`, applied to a node of the tree that is
disabled whenever one of its proper ancestors is `disabling`, keeps the
invariant on the log. -/
theorem log_inv_node (root : dt_tree) (σ0 : dt_state) (hnd : (dt_ids root).Nodup) :
    ∀ (t : dt_tree) (σ : dt_state), (∀ y, y ∈ dt_nodes t → y ∈ dt_nodes root) →
      probe_inv root σ0 σ → log_inv root σ0 σ →
      (below_disabling root σ0 t → σ.status t.id = some "disabled") →
      log_inv root σ0 (_target_probe t σ)
  | .mk id tg cs, σ, hsub, hinv, hlog, hpre => by
    have hv : dt_tree.mk id tg cs ∈ dt_nodes root := hsub _ (dt_nodes_self _)
    have hcs : ∀ y, y ∈ dt_nodes_list cs → y ∈ dt_nodes root := by
      intro y hy
      exact hsub y (by simp only [dt_nodes, List.mem_cons]; exact Or.inr hy)
    unfold _target_probe
    cases tg with
    | none => exact hlog
    | some t =>
      dsimp only
      split
      · exact log_inv_disable root σ0 σ _ hlog
      · rename_i hnot
        have h0 : σ0.status id ≠ some "disabled" := by
          intro h0
          rcases hinv id with h | h
          · exact hnot (h.trans h0)
          · exact hnot h.1
        have hnb : ¬ below_disabling root σ0 (dt_tree.mk id (some t) cs) :=
          fun hb => hnot (hpre hb)
        cases hp : t.probe with
        | none =>
          apply log_inv_children root σ0 hnd cs σ hcs hinv hlog
          apply child_not_below_disabling root σ0 (dt_nodes_nodup root hnd) id (some t) cs hv _ hnb
          rintro ⟨_, h | ⟨t', rc, ht', hp', _⟩⟩
          · exact h0 h
          · simp only [dt_tree.target, Option.some.injEq] at ht'
            subst ht'
            rw [hp] at hp'
            exact absurd hp' (by simp)
        | some rc =>
          dsimp only
          have hinv' : probe_inv root σ0 { σ with probed := σ.probed ++ [id] } := hinv
          have hlog' : log_inv root σ0 { σ with probed := σ.probed ++ [id] } := by
            obtain ⟨l, hl, hall⟩ := hlog
            refine ⟨l ++ [id], by simp [hl], ?_⟩
            intro i hi
            rcases List.mem_append.mp hi with h | h
            · exact hall i h
            · rw [List.mem_singleton] at h
              subst h
              exact ⟨_, hv, rfl, ⟨t, rc, rfl, hp⟩, h0, hnb⟩
          split
          · exact log_inv_disable root σ0 _ _ hlog'
          · rename_i hrc
            apply log_inv_children root σ0 hnd cs _ hcs hinv' hlog'
            apply child_not_below_disabling root σ0 (dt_nodes_nodup root hnd) id (some t) cs hv _ hnb
            rintro ⟨_, h | ⟨t', rc', ht', hp', hrc'⟩⟩
            · exact h0 h
            · simp only [dt_tree.target, Option.some.injEq] at ht'
              subst ht'
              rw [hp, Option.some.injEq] at hp'
              subst hp'
              exact hrc hrc'
/-- The list form of `log_inv_node`. -/
theorem log_inv_children (root : dt_tree) (σ0 : dt_state) (hnd : (dt_ids root).Nodup) :
    ∀ (cs : List dt_tree) (σ : dt_state), (∀ y, y ∈ dt_nodes_list cs → y ∈ dt_nodes root) →
      probe_inv root σ0 σ → log_inv root σ0 σ →
      (∀ c, c ∈ cs → ¬ below_disabling root σ0 c) →
      log_inv root σ0 (_target_probe_children cs σ)
  | [], σ, _, _, hlog, _ => by rw [_target_probe_children]; exact hlog
  | c :: cs, σ, hsub, hinv, hlog, hnb => by
    rw [_target_probe_children]
    have hc : ∀ y, y ∈ dt_nodes c → y ∈ dt_nodes root := by
      intro y hy
      exact hsub y (by simp only [dt_nodes_list, List.mem_append]; exact Or.inl hy)
    apply log_inv_children root σ0 hnd cs
    · intro y hy
      exact hsub y (by simp only [dt_nodes_list, List.mem_append]; exact Or.inr hy)
    · exact probe_inv_node root σ0 hnd c σ hc hinv
    · exact log_inv_node root σ0 hnd c σ hc hinv hlog
        (fun hb => absurd hb (hnb c (List.mem_cons_self c cs)))
    · intro c' hc'
      exact hnb c' (List.mem_cons_of_mem c hc')
end

/-- The walk over the rest of the enumeration keeps the invariant on the log,
provided every `disabling` node already visited has its subtree disabled. -/
theorem log_inv_over (root : dt_tree) (σ0 : dt_state) (hnd : (dt_ids root).Nodup)
    (rest : List dt_tree) :
    ∀ (pre : List dt_tree) (σ : dt_state), dt_nodes root = pre ++ rest →
      probe_inv root σ0 σ → log_inv root σ0 σ →
      (∀ a, a ∈ pre → disabling σ0 a → ∀ i, i ∈ dt_ids a → σ.status i = some "disabled") →
      log_inv root σ0 (target_probe_over rest σ) := by
  induction rest with
  | nil => intro pre σ _ _ hlog _; exact hlog
  | cons t rest ih =>
    intro pre σ heq hinv hlog hD
    simp only [target_probe_over, List.foldl_cons]
    have ht : t ∈ dt_nodes root := by rw [heq]; simp
    have hsub : ∀ y, y ∈ dt_nodes t → y ∈ dt_nodes root :=
      fun y hy => dt_nodes_trans root t y ht hy
    apply ih (pre ++ [t]) (_target_probe t σ) (by rw [heq]; simp)
      (probe_inv_node root σ0 hnd t σ hsub hinv)
    · apply log_inv_node root σ0 hnd t σ hsub hinv hlog
      rintro ⟨a, ha, hta, hne, hdis⟩
      have hpre : a ∈ pre :=
        dt_nodes_ancestor_before root pre t rest heq (dt_nodes_nodup root hnd) a ha hta hne
      exact hD a hpre hdis t.id (List.mem_map.mpr ⟨t, hta, rfl⟩)
    · intro a ha hdis i hi
      rcases List.mem_append.mp ha with h | h
      · exact target_probe_node_mono t σ i (hD a h hdis i hi)
      · rw [List.mem_singleton] at h
        subst h
        exact target_probe_node_disabling root σ0 σ a hinv hdis i hi

/-- The walk of `target_probe` extends the log by `probes_invoked`, and every
invocation is `probe_ok`. -/
theorem probes_invoked_ok (root : dt_tree) (σ0 : dt_state) (hnd : (dt_ids root).Nodup) :
    (target_probe root σ0).probed = σ0.probed ++ probes_invoked root σ0 ∧
    ∀ i, i ∈ probes_invoked root σ0 → probe_ok root σ0 i := by
  obtain ⟨l, hl, hall⟩ := log_inv_over root σ0 hnd (dt_nodes root) [] σ0 rfl
    (fun _ => Or.inl rfl) ⟨[], by simp, by simp⟩ (by simp)
  have hl' : (target_probe root σ0).probed = σ0.probed ++ l := hl
  have hpi : probes_invoked root σ0 = l := by
    unfold probes_invoked
    rw [hl']
    exact List.drop_left' rfl
  rw [hpi]
  exact ⟨hl', hall⟩

mutual
/-- The function `_target_probe` only appends to the log. -/
theorem target_probe_node_probed : ∀ (t : dt_tree) (σ : dt_state),
    ∃ l, (_target_probe t σ).probed = σ.probed ++ l
  | .mk id tg cs, σ => by
    unfold _target_probe
    cases tg with
    | none => exact ⟨[], by simp⟩
    | some t =>
      dsimp only
      split
      · exact ⟨[], by rw [disable_node_probed]; simp⟩
      · cases hp : t.probe with
        | none => exact target_probe_children_probed cs σ
        | some rc =>
          dsimp only
          split
          · exact ⟨[id], by rw [disable_node_probed]⟩
          · obtain ⟨l, hl⟩ := target_probe_children_probed cs { σ with probed := σ.probed ++ [id] }
            exact ⟨[id] ++ l, by rw [hl, List.append_assoc]⟩
/-- The list form of `target_probe_node_probed`. -/
theorem target_probe_children_probed : ∀ (cs : List dt_tree) (σ : dt_state),
    ∃ l, (_target_probe_children cs σ).probed = σ.probed ++ l
  | [], σ => by rw [_target_probe_children]; exact ⟨[], by simp⟩
  | c :: cs, σ => by
    rw [_target_probe_children]
    obtain ⟨l1, h1⟩ := target_probe_node_probed c σ
    obtain ⟨l2, h2⟩ := target_probe_children_probed cs (_target_probe c σ)
    exact ⟨l1 ++ l2, by rw [h2, h1, List.append_assoc]⟩
end

/-- The walk over any enumeration only appends to the log. -/
theorem target_probe_over_probed (nodes : List dt_tree) :
    ∀ (σ : dt_state), ∃ l, (target_probe_over nodes σ).probed = σ.probed ++ l := by
  induction nodes with
  | nil => intro σ; exact ⟨[], by simp [target_probe_over]⟩
  | cons v rest ih =>
    intro σ
    simp only [target_probe_over, List.foldl_cons]
    obtain ⟨l1, h1⟩ := target_probe_node_probed v σ
    obtain ⟨l2, h2⟩ := ih (_target_probe v σ)
    exact ⟨l1 ++ l2, by rw [← List.append_assoc, ← h1]; exact h2⟩

/-- A bound node above `d` that is disabled during the walk, or whose probe
operation fails, shows that `d` has a `disabling` proper ancestor. -/
theorem below_disabling_of_ancestor (root : dt_tree) (σ0 σ : dt_state)
    (hnd : (dt_ids root).Nodup) (hinv : probe_inv root σ0 σ) (v d : dt_tree)
    (hv : v ∈ dt_nodes root) (hdv : d ∈ dt_nodes v) (hne : v ≠ d) (htg : v.target ≠ none)
    (h : σ.status v.id = some "disabled" ∨ probe_fails v) : below_disabling root σ0 d := by
  rcases h with h | h
  · rcases hinv v.id with h' | ⟨_, a, ha, hva, hdis⟩
    · exact ⟨v, hv, hdv, hne, htg, Or.inl (h'.symm.trans h)⟩
    · have hva' : v ∈ dt_nodes a := (mem_dt_ids_iff root v a hnd hv ha).mp hva
      refine ⟨a, ha, dt_nodes_trans a v d hva' hdv, ?_, hdis⟩
      intro e
      rw [e] at hva'
      exact hne (dt_nodes_antisymm v d hva' hdv)
  · exact ⟨v, hv, hdv, hne, htg, Or.inr h⟩

/-- Disabling a bound node that is disabled or fails its probe keeps the
invariant for a node `d` without `disabling` proper ancestor, provided the
probe of `d` has been invoked if the node disabled is `d` itself. -/
theorem probed_if_disabled_disable (root : dt_tree) (σ0 σ : dt_state)
    (hnd : (dt_ids root).Nodup) (hinv : probe_inv root σ0 σ) (d : dt_tree)
    (hd : d ∈ dt_nodes root) (hnb : ¬ below_disabling root σ0 d) (v : dt_tree)
    (hv : v ∈ dt_nodes root) (htg : v.target ≠ none)
    (hcause : σ.status v.id = some "disabled" ∨ probe_fails v) (l : List Nat)
    (hl : σ.probed = σ0.probed ++ l) (himp : σ.status d.id = some "disabled" → d.id ∈ l)
    (hself : v = d → d.id ∈ l) : probed_if_disabled σ0 (disable_node v σ) d.id := by
  refine ⟨l, by rw [disable_node_probed, hl], ?_⟩
  rw [disable_node_status]
  split
  · rename_i hi
    intro _
    have hdv : d ∈ dt_nodes v := (mem_dt_ids_iff root d v hnd hd hv).mp hi
    by_cases e : v = d
    · exact hself e
    · exact absurd (below_disabling_of_ancestor root σ0 σ hnd hinv v d hv hdv e htg hcause) hnb
  · exact himp

mutual
/-- The function `_target_probe`, applied to a node of the tree, keeps the
invariant for a node `d` without `disabling` proper ancestor. -/
theorem probed_if_disabled_node (root : dt_tree) (σ0 : dt_state) (hnd : (dt_ids root).Nodup)
    (d : dt_tree) (hd : d ∈ dt_nodes root) (hnb : ¬ below_disabling root σ0 d) :
    ∀ (t : dt_tree) (σ : dt_state), (∀ y, y ∈ dt_nodes t → y ∈ dt_nodes root) →
      probe_inv root σ0 σ → probed_if_disabled σ0 σ d.id →
      probed_if_disabled σ0 (_target_probe t σ) d.id
  | .mk id tg cs, σ, hsub, hinv, hpd => by
    have hv : dt_tree.mk id tg cs ∈ dt_nodes root := hsub _ (dt_nodes_self _)
    have hcs : ∀ y, y ∈ dt_nodes_list cs → y ∈ dt_nodes root := by
      intro y hy
      exact hsub y (by simp only [dt_nodes, List.mem_cons]; exact Or.inr hy)
    unfold _target_probe
    cases tg with
    | none => exact hpd
    | some t =>
      dsimp only
      obtain ⟨l, hl, himp⟩ := hpd
      split
      · rename_i hdis
        apply probed_if_disabled_disable root σ0 σ hnd hinv d hd hnb _ hv (by simp [dt_tree.target])
          (Or.inl hdis) l hl himp
        intro e
        apply himp
        rw [← e]
        exact hdis
      · cases hp : t.probe with
        | none => exact probed_if_disabled_children root σ0 hnd d hd hnb cs σ hcs hinv ⟨l, hl, himp⟩
        | some rc =>
          dsimp only
          have hinv' : probe_inv root σ0 { σ with probed := σ.probed ++ [id] } := hinv
          have hl' : ({ σ with probed := σ.probed ++ [id] } : dt_state).probed
              = σ0.probed ++ (l ++ [id]) := by
            simp [hl]
          have himp' : ({ σ with probed := σ.probed ++ [id] } : dt_state).status d.id
              = some "disabled" → d.id ∈ l ++ [id] :=
            fun h => List.mem_append_left _ (himp h)
          split
          · rename_i hrc
            apply probed_if_disabled_disable root σ0 _ hnd hinv' d hd hnb _ hv
              (by simp [dt_tree.target]) (Or.inr ⟨t, rc, rfl, hp, hrc⟩) (l ++ [id]) hl' himp'
            intro e
            rw [← e]
            simp [dt_tree.id]
          · exact probed_if_disabled_children root σ0 hnd d hd hnb cs _ hcs hinv'
              ⟨l ++ [id], hl', himp'⟩
/-- The list form of `probed_if_disabled_node`. -/
theorem probed_if_disabled_children (root : dt_tree) (σ0 : dt_state)
    (hnd : (dt_ids root).Nodup) (d : dt_tree) (hd : d ∈ dt_nodes root)
    (hnb : ¬ below_disabling root σ0 d) :
    ∀ (cs : List dt_tree) (σ : dt_state), (∀ y, y ∈ dt_nodes_list cs → y ∈ dt_nodes root) →
      probe_inv root σ0 σ → probed_if_disabled σ0 σ d.id →
      probed_if_disabled σ0 (_target_probe_children cs σ) d.id
  | [], σ, _, _, hpd => by rw [_target_probe_children]; exact hpd
  | c :: cs, σ, hsub, hinv, hpd => by
    rw [_target_probe_children]
    have hc : ∀ y, y ∈ dt_nodes c → y ∈ dt_nodes root := by
      intro y hy
      exact hsub y (by simp only [dt_nodes_list, List.mem_append]; exact Or.inl hy)
    apply probed_if_disabled_children root σ0 hnd d hd hnb cs
    · intro y hy
      exact hsub y (by simp only [dt_nodes_list, List.mem_append]; exact Or.inr hy)
    · exact probe_inv_node root σ0 hnd c σ hc hinv
    · exact probed_if_disabled_node root σ0 hnd d hd hnb c σ hc hinv hpd
end

/-- Visiting a node that has a probe operation leaves the probe invoked, if it
was not already. -/
theorem target_probe_node_invokes (σ0 σ : dt_state) (d : dt_tree) (hp : has_probe d)
    (hpd : probed_if_disabled σ0 σ d.id) :
    ∃ l, (_target_probe d σ).probed = σ0.probed ++ l ∧ d.id ∈ l := by
  cases d with
  | mk id tg cs =>
    obtain ⟨t, rc, ht, hprobe⟩ := hp
    simp only [dt_tree.target] at ht
    subst ht
    obtain ⟨l, hl, himp⟩ := hpd
    unfold _target_probe
    dsimp only
    split
    · rename_i hdis
      exact ⟨l, by rw [disable_node_probed, hl], himp hdis⟩
    · rw [hprobe]
      dsimp only
      split
      · exact ⟨l ++ [id], by rw [disable_node_probed]; simp [hl], by simp [dt_tree.id]⟩
      · obtain ⟨l2, h2⟩ := target_probe_children_probed cs { σ with probed := σ.probed ++ [id] }
        exact ⟨l ++ [id] ++ l2, by rw [h2]; simp [hl], by simp [dt_tree.id]⟩

/-- The walk over an enumeration that contains the node `d` invokes the probe
operation of `d`, when `d` has one, is not disabled at the start and has no
`disabling` proper ancestor. -/
theorem target_probe_over_invokes (root : dt_tree) (σ0 : dt_state) (hnd : (dt_ids root).Nodup)
    (d : dt_tree) (hd : d ∈ dt_nodes root) (hp : has_probe d)
    (hnb : ¬ below_disabling root σ0 d) (nodes : List dt_tree) :
    ∀ (σ : dt_state), (∀ v, v ∈ nodes → v ∈ dt_nodes root) → probe_inv root σ0 σ →
      probed_if_disabled σ0 σ d.id → d ∈ nodes →
      ∃ l, (target_probe_over nodes σ).probed = σ0.probed ++ l ∧ d.id ∈ l := by
  induction nodes with
  | nil => intro σ _ _ _ h; simp at h
  | cons v rest ih =>
    intro σ hsub hinv hpd hmem
    simp only [target_probe_over, List.foldl_cons]
    have hv := hsub v (List.mem_cons_self v rest)
    have hvs : ∀ y, y ∈ dt_nodes v → y ∈ dt_nodes root :=
      fun y hy => dt_nodes_trans root v y hv hy
    rcases List.mem_cons.mp hmem with e | h
    · rw [← e]
      obtain ⟨l, hl, hin⟩ := target_probe_node_invokes σ0 σ d hp hpd
      obtain ⟨l2, h2⟩ := target_probe_over_probed rest (_target_probe d σ)
      exact ⟨l ++ l2, by rw [← List.append_assoc, ← hl]; exact h2, List.mem_append_left _ hin⟩
    · exact ih (_target_probe v σ) (fun w hw => hsub w (List.mem_cons_of_mem v hw))
        (probe_inv_node root σ0 hnd v σ hvs hinv)
        (probed_if_disabled_node root σ0 hnd d hd hnb v σ hvs hinv hpd) h

/-- C21 as stated fails. In the tree whose root (node 1) has no bound target
and whose only child, node 2, has a bound target with a failing probe
operation, `target_probe` started without any `status` property invokes the
probe operation of node 2 and gives node 2 the status `"disabled"`. In the
chain of node 1 (bound, carrying `status = "disabled"`), node 2 (no bound
target) and node 3, where node 3 has no `status` property, node 3 carries
`"disabled"` after `target_probe`, and already after the single call of
`_target_probe` on the root. -/
theorem C21_descendant_of_unbound_node_touched :
    (unbound_root_example.target = none ∧
      failing_leaf ∈ unbound_root_example.children ∧
      no_status_state.status 2 = none ∧
      probes_invoked unbound_root_example no_status_state = [2] ∧
      (target_probe unbound_root_example no_status_state).status 2 = some "disabled") ∧
    ((dt_tree.mk 2 none [.mk 3 (some ⟨"opb", some 0⟩) []]).target = none ∧
      dt_tree.mk 2 none [.mk 3 (some ⟨"opb", some 0⟩) []] ∈ unbound_middle_example.children ∧
      root_disabled_state.status 3 = none ∧
      (target_probe unbound_middle_example root_disabled_state).status 3 = some "disabled" ∧
      (_target_probe unbound_middle_example root_disabled_state).status 3 = some "disabled") :=
  ⟨⟨rfl, List.mem_cons_self _ _, rfl, by decide, by decide⟩,
    ⟨rfl, List.mem_cons_self _ _, rfl, by decide, by decide⟩⟩

/-- C21, amended. A call of `_target_probe` on a node with no bound target
returns without invoking a probe operation or changing a status. The walk
started by `target_probe` calls `_target_probe` on every node of the tree, so
for every device tree whose nodes are distinct and every node `d` of it,
below an unbound node or not: the walk appends its probe invocations to the
log; it invokes the probe operation of `d` exactly when `d` has a bound
target with a probe operation, did not carry the status `"disabled"` before
the walk and has no proper ancestor that has a bound target and either
carried `"disabled"` before the walk or has a probe operation that fails; and
it changes the status of `d`, then to `"disabled"`, exactly when `d` did not
carry `"disabled"` before the walk and some node among `d` and its ancestors
has a bound target and either carried `"disabled"` or has a probe operation
that fails. -/
theorem C21_walk_touches_node (root : dt_tree) (σ0 : dt_state) (hnd : (dt_ids root).Nodup)
    (d : dt_tree) (hd : d ∈ dt_nodes root) :
    (∀ (u : dt_tree) (σ : dt_state), u.target = none → _target_probe u σ = σ) ∧
    (target_probe root σ0).probed = σ0.probed ++ probes_invoked root σ0 ∧
    (d.id ∈ probes_invoked root σ0 ↔
      (∃ t rc, d.target = some t ∧ t.probe = some rc) ∧
        σ0.status d.id ≠ some "disabled" ∧
        ¬ ∃ a, a ∈ dt_nodes root ∧ d ∈ dt_nodes a ∧ a ≠ d ∧ disabling σ0 a) ∧
    ((target_probe root σ0).status d.id ≠ σ0.status d.id ↔
      σ0.status d.id ≠ some "disabled" ∧
        ∃ a, a ∈ dt_nodes root ∧ d ∈ dt_nodes a ∧ disabling σ0 a) ∧
    ((target_probe root σ0).status d.id = σ0.status d.id ∨
      (target_probe root σ0).status d.id = some "disabled") := by
  have hlog := probes_invoked_ok root σ0 hnd
  have hgen := target_probe_over_status root σ0 hnd (dt_for_each_node root)
    (fun v hv => hv) (fun v hv _ => hv) d.id
  have hiff : under_disabling root σ0 d.id ↔
      ∃ a, a ∈ dt_nodes root ∧ d ∈ dt_nodes a ∧ disabling σ0 a := by
    constructor
    · rintro ⟨a, ha, hda, hdis⟩
      exact ⟨a, ha, (mem_dt_ids_iff root d a hnd hd ha).mp hda, hdis⟩
    · rintro ⟨a, ha, hda, hdis⟩
      exact ⟨a, ha, (mem_dt_ids_iff root d a hnd hd ha).mpr hda, hdis⟩
  have hinv : probe_inv root σ0 (target_probe root σ0) :=
    probe_inv_over root σ0 hnd (dt_for_each_node root) σ0 (fun v hv => hv) (fun _ => Or.inl rfl)
  refine ⟨?_, hlog.1, ⟨?_, ?_⟩, ⟨?_, ?_⟩, ?_⟩
  · intro u σ hu
    cases u with
    | mk id tg cs =>
      simp only [dt_tree.target] at hu
      subst hu
      unfold _target_probe
      rfl
  · intro h
    obtain ⟨d', hd', hid, hp, h0, hnb⟩ := hlog.2 d.id h
    have e : d' = d := List.inj_on_of_nodup_map hnd hd' hd hid
    rw [e] at hp hnb
    exact ⟨hp, h0, hnb⟩
  · rintro ⟨hp, h0, hnb⟩
    obtain ⟨l, hl, hin⟩ := target_probe_over_invokes root σ0 hnd d hd hp hnb
      (dt_for_each_node root) σ0 (fun v hv => hv) (fun _ => Or.inl rfl)
      ⟨[], by simp, fun h => absurd h h0⟩ hd
    have hl' : (target_probe root σ0).probed = σ0.probed ++ l := hl
    have hpi : probes_invoked root σ0 = l := by
      unfold probes_invoked
      rw [hl']
      exact List.drop_left' rfl
    rw [hpi]
    exact hin
  · intro hne
    have hu : under_disabling root σ0 d.id := by
      by_contra hno
      exact hne (hgen.2 hno)
    refine ⟨?_, hiff.mp hu⟩
    intro h0
    exact hne ((hgen.1.mpr (Or.inl h0)).trans h0.symm)
  · rintro ⟨h0, hex⟩ he
    exact h0 (he.symm.trans (hgen.1.mpr (Or.inr (hiff.mpr hex))))
  · rcases hinv d.id with h | h
    · exact Or.inl h
    · exact Or.inr h.1

/-- The child of the unbound root, in the walk started without any `status`
property. -/
theorem C21_walk_touches_node_witness :
    (∀ (u : dt_tree) (σ : dt_state), u.target = none → _target_probe u σ = σ) ∧
    (target_probe unbound_root_example no_status_state).probed
      = no_status_state.probed ++ probes_invoked unbound_root_example no_status_state ∧
    (failing_leaf.id ∈ probes_invoked unbound_root_example no_status_state ↔
      (∃ t rc, failing_leaf.target = some t ∧ t.probe = some rc) ∧
        no_status_state.status failing_leaf.id ≠ some "disabled" ∧
        ¬ ∃ a, a ∈ dt_nodes unbound_root_example ∧ failing_leaf ∈ dt_nodes a ∧
          a ≠ failing_leaf ∧ disabling no_status_state a) ∧
    ((target_probe unbound_root_example no_status_state).status failing_leaf.id
        ≠ no_status_state.status failing_leaf.id ↔
      no_status_state.status failing_leaf.id ≠ some "disabled" ∧
        ∃ a, a ∈ dt_nodes unbound_root_example ∧ failing_leaf ∈ dt_nodes a ∧
          disabling no_status_state a) ∧
    ((target_probe unbound_root_example no_status_state).status failing_leaf.id
        = no_status_state.status failing_leaf.id ∨
      (target_probe unbound_root_example no_status_state).status failing_leaf.id
        = some "disabled") :=
  C21_walk_touches_node unbound_root_example no_status_state (by decide) failing_leaf
    (by simp [unbound_root_example, failing_leaf, dt_nodes, dt_nodes_list])

end Pdbg
